import Mathlib

set_option linter.unusedSectionVars false

/-!
# Semi-Convex-Hull tree (`src/schtree.h`): shallow embedding and verification

The scalar type of the C++ templates is an arbitrary linearly ordered field `S`
(exact arithmetic).  The square root used by Eigen's `norm()` and `normalized()` is not
part of the repository; it is a parameter `sqrt : S → S` of every definition that needs
it, and theorems state which of its properties they use.

Indices (`int` in the source) are natural numbers; the sentinel `-1` is `none`.
`std::numeric_limits<Scalar>::max()` as returned by `KnnResult::maxDist` is a scalar, the
parameter `scalarMax : S` of every definition that reaches it.  The start value of the
closest-point loop of `refineConstraints` is `⊤` of `WithTop S`, above every hyperplane
distance of that loop.

The heap algorithms of `<algorithm>` are not part of the repository either; they follow
the GNU libstdc++ implementation on a binary heap stored in the vector, the parent of
position `i > 0` being position `(i - 1) / 2`.
-/

namespace sch

/-! ## Outcome of a call -/

/-- Outcome of a call: a normal return, C++ undefined behaviour (a read of `point[-1]`,
`idxs[0]` or `back()` on an empty vector, `leafs[l]` out of range), or an exhausted
recursion budget. -/
inductive Run (α : Type) where
  | ret (a : α)
  | undef
  | fuelOut
  deriving DecidableEq

/-- Sequencing of calls: the first abnormal outcome is the outcome of the sequence. -/
def Run.bind {α β : Type} : Run α → (α → Run β) → Run β
  | .ret a, f => f a
  | .undef, _ => .undef
  | .fuelOut, _ => .fuelOut

/-! ## MATH -/

/-- Eigen `Vec<DIM, Scalar>`: a column vector with `d` entries. -/
abbrev Vec (d : Nat) (S : Type) := Fin d → S

/-- Source `struct Hyperplane`. -/
structure Hyperplane (d : Nat) (S : Type) where
  a : Vec d S
  b : S

/-- Source `struct Constraint`. -/
structure Constraint (d : Nat) (S : Type) where
  hp : Hyperplane d S
  less_equal : Bool

section Defs

variable {S : Type} [LinearOrderedField S] {d : Nat}

/-- Eigen `v.dot(w)`. -/
def dot (v w : Vec d S) : S := ∑ i, v i * w i

/-- Eigen `v.squaredNorm()`. -/
def squaredNorm (v : Vec d S) : S := dot v v

/-- Eigen `v.norm()`: the square root of the squared norm. -/
def norm (sqrt : S → S) (v : Vec d S) : S := sqrt (squaredNorm v)

/-- Eigen `v.normalized()` (Eigen 3.3 and later): `v / sqrt z` when
`z = v.squaredNorm() > 0`, else `v` itself. -/
def normalized (sqrt : S → S) (v : Vec d S) : Vec d S :=
  if 0 < squaredNorm v then fun i => v i / sqrt (squaredNorm v) else v

/-- Source `distance(v1, v2)`: `(v1 - v2).norm()`. -/
def distance (sqrt : S → S) (v1 v2 : Vec d S) : S := norm sqrt (v1 - v2)

/-- Source `distance(v, hp)`: `abs(v.dot(hp.a) - hp.b)`, with `abs` the absolute value
of the scalar. -/
def distanceHp (v : Vec d S) (hp : Hyperplane d S) : S := |dot v hp.a - hp.b|

/-- Source `inside(v, ct)`. -/
def inside (v : Vec d S) (ct : Constraint d S) : Bool :=
  if ct.less_equal then decide (dot ct.hp.a v ≤ ct.hp.b) else decide (dot ct.hp.a v ≥ ct.hp.b)

/-! ## KNN -/

/-- Source `struct Knn`: an index with a distance. -/
structure Knn (S : Type) where
  idx : Nat
  dist : S
  deriving DecidableEq

/-- Source `Knn::operator<`: by distance, equal distances by index. -/
def Knn.lt (x y : Knn S) : Bool :=
  if x.dist = y.dist then decide (x.idx < y.idx) else decide (x.dist < y.dist)

/-- The relation `¬ (x < y)`, which a heap keeps between a parent `x` and its child `y`. -/
def Knn.ge (x y : Knn S) : Prop := Knn.lt x y = false

instance Knn.decGe : DecidableRel (Knn.ge : Knn S → Knn S → Prop) :=
  fun x y => inferInstanceAs (Decidable (Knn.lt x y = false))

/-- The relation `¬ (y < x)` of an ascending `std::sort` / `std::sort_heap` result. -/
def Knn.le (x y : Knn S) : Prop := Knn.lt y x = false

instance Knn.decLe : DecidableRel (Knn.le : Knn S → Knn S → Prop) :=
  fun x y => inferInstanceAs (Decidable (Knn.lt y x = false))

/-- The array read `v[i]` of a heap vector. -/
def nth (v : List (Knn S)) (i : Nat) : Knn S := v.getD i ⟨0, 0⟩

/-- The vector with the values at positions `i` and `j` exchanged. -/
def swapAt (v : List (Knn S)) (i j : Nat) : List (Knn S) := (v.set i (nth v j)).set j (nth v i)

/-- Library `std::__push_heap` (GNU libstdc++), the loop of `push_heap`: the value at `hole`
moves to the position of its parent `(hole - 1) / 2`, and the parent to `hole`, while
`hole` is not the root and the parent is less than the value (`operator<`).  The budget
bounds the number of rounds; a budget above `hole` is never used up. -/
def siftUp {S : Type} [LinearOrderedField S] : Nat → List (Knn S) → Nat → List (Knn S)
  | 0, v, _ => v
  | fuel + 1, v, hole =>
    if 0 < hole ∧ Knn.lt (nth v ((hole - 1) / 2)) (nth v hole) = true then
      siftUp fuel (swapAt v ((hole - 1) / 2) hole) ((hole - 1) / 2)
    else v

/-- Library `std::push_heap(first, last)` (GNU libstdc++): the last element of the vector moves
up from the last position into the heap formed by the others. -/
def push_heap (v : List (Knn S)) : List (Knn S) := siftUp v.length v (v.length - 1)

/-- Library `std::__adjust_heap` (GNU libstdc++), the descent: while the hole has two children
it moves to the position of the greater one (to the right one when neither is less),
and that child to the hole; a hole with a left child only moves there; the result is the
vector and the final position of the hole.  The budget bounds the number of rounds; the
length of the vector is never used up. -/
def siftDown {S : Type} [LinearOrderedField S] :
    Nat → List (Knn S) → Nat → List (Knn S) × Nat
  | 0, v, hole => (v, hole)
  | fuel + 1, v, hole =>
    if 2 * hole + 2 < v.length then
      if Knn.lt (nth v (2 * hole + 2)) (nth v (2 * hole + 1)) = true then
        siftDown fuel (swapAt v hole (2 * hole + 1)) (2 * hole + 1)
      else
        siftDown fuel (swapAt v hole (2 * hole + 2)) (2 * hole + 2)
    else if 2 * hole + 2 = v.length then
      (swapAt v hole (2 * hole + 1), 2 * hole + 1)
    else
      (v, hole)

/-- Library `std::__adjust_heap(first, 0, len, value)` (GNU libstdc++) on the vector whose first
position holds `value`: the descent of the hole from the root to a leaf, then
`__push_heap` of the value from there. -/
def adjust_heap (v : List (Knn S)) : List (Knn S) :=
  siftUp v.length (siftDown v.length v 0).1 (siftDown v.length v 0).2

/-- Library `std::pop_heap(first, last)` (GNU libstdc++) on a non-empty heap: the first element
goes to the back, and the element that was at the back enters the heap formed by the
others through `__adjust_heap` at the root.  A range of one element is left as it is. -/
def pop_heap (v : List (Knn S)) : List (Knn S) :=
  match v with
  | [] => []
  | m :: rest =>
    match rest.getLast? with
    | none => [m]
    | some x => adjust_heap (x :: rest.dropLast) ++ [m]

/-- The loop of `std::sort_heap`: `pop_heap` on the first `n` elements, then on the first
`n - 1`, and so on. -/
def sort_heap_loop {S : Type} [LinearOrderedField S] : Nat → List (Knn S) → List (Knn S)
  | 0, v => v
  | n + 1, v => sort_heap_loop n (pop_heap (v.take (n + 1)) ++ v.drop (n + 1))

/-- Library `std::sort_heap(first, last)` (GNU libstdc++): `pop_heap` on ever shorter
prefixes of the vector. -/
def sort_heap (v : List (Knn S)) : List (Knn S) := sort_heap_loop v.length v

/-- Library `std::sort(first, last)` with `operator<`. -/
def std_sort (v : List (Knn S)) : List (Knn S) := List.insertionSort Knn.le v

/-- Source `class KnnResult`: the capacity `K` and the heap vector. -/
structure KnnResult (S : Type) where
  K : Int
  heap : List (Knn S)
  deriving DecidableEq

/-- Source `KnnResult::setK`. -/
def KnnResult.setK (r : KnnResult S) (k : Int) : KnnResult S := { r with K := max k r.K }

/-- Source `KnnResult::KnnResult(int k)`: `K(0)` then `setK(k)`. -/
def KnnResult.new (k : Int) : KnnResult S := KnnResult.setK ⟨0, []⟩ k

/-- Source `KnnResult::size`. -/
def KnnResult.size (r : KnnResult S) : Int := r.heap.length

/-- Source `KnnResult::full`. -/
def KnnResult.full (r : KnnResult S) : Bool := decide (r.size ≥ r.K)

/-- Source `KnnResult::maxDist`: `std::numeric_limits<Scalar>::max()`, the scalar `scalarMax`,
on an empty heap, else `heap[0].dist`. -/
def KnnResult.maxDist (scalarMax : S) (r : KnnResult S) : S :=
  match r.heap with
  | [] => scalarMax
  | x :: _ => x.dist

/-- Source `KnnResult::insert`: the new container and the returned flag.  The eviction branch
applied to an empty heap (`pop_heap` of an empty range, `heap.back()`) is undefined. -/
def KnnResult.insert (scalarMax : S) (r : KnnResult S) (idx : Nat) (dist : S) :
    Run (KnnResult S × Bool) :=
  if !r.full then
    .ret ({ r with heap := push_heap (r.heap ++ [⟨idx, dist⟩]) }, true)
  else if r.maxDist scalarMax > dist then
    match r.heap with
    | [] => .undef
    | _ :: _ => .ret ({ r with heap := push_heap ((pop_heap r.heap).dropLast ++ [⟨idx, dist⟩]) }, true)
  else
    .ret (r, false)

/-- Source `KnnResult::sort`. -/
def KnnResult.sort (r : KnnResult S) : KnnResult S := { r with heap := sort_heap r.heap }

/-- Source `KnnResult::operator==`: equality of the heap vectors. -/
def KnnResult.eq (r1 r2 : KnnResult S) : Bool := decide (r1.heap = r2.heap)

/-- A sequence of `insert` calls, one for each pair of the list in order. -/
def KnnResult.insertAll (scalarMax : S) (r : KnnResult S) : List (Knn S) → Run (KnnResult S)
  | [] => .ret r
  | x :: xs =>
    (r.insert scalarMax x.idx x.dist).bind fun p => KnnResult.insertAll scalarMax p.1 xs

/-- A sequence of `insert` calls that also collects the returned flags, in call order. -/
def KnnResult.insertFlags (scalarMax : S) (r : KnnResult S) :
    List (Knn S) → Run (KnnResult S × List Bool)
  | [] => .ret (r, [])
  | x :: xs =>
    (r.insert scalarMax x.idx x.dist).bind fun p =>
      (KnnResult.insertFlags scalarMax p.1 xs).bind fun q => .ret (q.1, p.2 :: q.2)

/-! ## NODE -/

/-- Source `struct Node`.  A node with `is_leaf` set holds its indices and constraints and has
null children (`leaf`); a split node has both children and cleared `idxs` and
`constraints` (`inner`). -/
inductive Node (d : Nat) (S : Type) where
  | leaf (idxs : List Nat) (constraints : List (Constraint d S))
  | inner (left right : Node d S)

/-- Field `idxs` of a node. -/
def Node.idxs : Node d S → List Nat
  | .leaf idxs _ => idxs
  | .inner _ _ => []

/-- Field `constraints` of a node. -/
def Node.constraints : Node d S → List (Constraint d S)
  | .leaf _ cts => cts
  | .inner _ _ => []

/-- Field `is_leaf` of a node. -/
def Node.is_leaf : Node d S → Bool
  | .leaf _ _ => true
  | .inner _ _ => false

/-- Source `distance(pnt, node)`: the greatest hyperplane distance over the violated constraints. -/
def distanceNode (pnt : Vec d S) (node : Node d S) : S :=
  node.constraints.foldl
    (fun dist ct => if !inside pnt ct then max dist (distanceHp pnt ct.hp) else dist) 0

/-! ## TREE -/

/-- First loop of `refineConstraints` for one constraint. -/
def widen (point : Nat → Vec d S) (idxs : List Nat) (ct : Constraint d S) : Constraint d S :=
  idxs.foldl
    (fun ct i => if !inside (point i) ct then
        ⟨⟨ct.hp.a, dot ct.hp.a (point i)⟩, ct.less_equal⟩ else ct) ct

/-- Second loop of `refineConstraints` for one constraint: the pair `(dist, idx)`. -/
def closest (point : Nat → Vec d S) (idxs : List Nat) (hp : Hyperplane d S) :
    WithTop S × Option Nat :=
  idxs.foldl
    (fun st i => if ((distanceHp (point i) hp : S) : WithTop S) < st.1
        then (((distanceHp (point i) hp : S) : WithTop S), some i) else st) (⊤, none)

/-- Body of the outer loop of `refineConstraints`; `point[idx]` with `idx = -1` is
undefined. -/
def refineConstraint (point : Nat → Vec d S) (idxs : List Nat) (ct : Constraint d S) :
    Run (Constraint d S) :=
  match (closest point idxs (widen point idxs ct).hp).2 with
  | none => .undef
  | some idx =>
    .ret ⟨⟨(widen point idxs ct).hp.a, dot (widen point idxs ct).hp.a (point idx)⟩,
      (widen point idxs ct).less_equal⟩

/-- Source `Tree::refineConstraints` on the constraint list of a node with indices `idxs`. -/
def refineConstraints (point : Nat → Vec d S) (idxs : List Nat) :
    List (Constraint d S) → Run (List (Constraint d S))
  | [] => .ret []
  | ct :: cts =>
    (refineConstraint point idxs ct).bind fun c =>
      (refineConstraints point idxs cts).bind fun cs => .ret (c :: cs)

/-- The farthest-point loops of `splitTree`: the index farthest from `point[c]` among
the entries different from `c` (first one at the greatest distance), with that distance. -/
def farthest (sqrt : S → S) (point : Nat → Vec d S) (idxs : List Nat) (c : Nat) :
    Option Nat × S :=
  idxs.foldl
    (fun st i => if i = c then st
      else if st.2 < distance sqrt (point i) (point c)
        then (some i, distance sqrt (point i) (point c)) else st) (none, -1)

/-- The hyperplane `splitTree` builds from the picks `ip` and `iq`. -/
def splitPlane (sqrt : S → S) (point : Nat → Vec d S) (ip iq : Nat) : Hyperplane d S :=
  { a := normalized sqrt (point ip - point iq)
    b := dot (normalized sqrt (point ip - point iq)) (fun j => (point ip j + point iq j) / 2) }

/-- The vector `left` of `splitTree`: the indices with `a.dot(point[i]) <= b`. -/
def splitLeft (point : Nat → Vec d S) (hp : Hyperplane d S) (idxs : List Nat) : List Nat :=
  idxs.filter fun i => decide (dot hp.a (point i) ≤ hp.b)

/-- The vector `right` of `splitTree`: the other indices. -/
def splitRight (point : Nat → Vec d S) (hp : Hyperplane d S) (idxs : List Nat) : List Nat :=
  idxs.filter fun i => !decide (dot hp.a (point i) ≤ hp.b)

/-- Source `Tree::splitTree` on a fresh node with indices `idxs` and constraints `cts`, with a
recursion budget. -/
def splitTreeFuel (sqrt : S → S) (point : Nat → Vec d S) (MAX_LEAF_PNTS : Nat) :
    Nat → List Nat → List (Constraint d S) → Run (Node d S)
  | fuel, idxs, cts =>
    if idxs.length ≤ MAX_LEAF_PNTS then
      (refineConstraints point idxs cts).bind fun c => .ret (.leaf idxs c)
    else
      match fuel with
      | 0 => .fuelOut
      | fuel + 1 =>
        match idxs with
        | [] => .undef
        | ix :: _ =>
          match (farthest sqrt point idxs ix).1 with
          | none => .undef
          | some ip =>
            match (farthest sqrt point idxs ip).1 with
            | none => .undef
            | some iq =>
              if (splitLeft point (splitPlane sqrt point ip iq) idxs).isEmpty
                  || (splitRight point (splitPlane sqrt point ip iq) idxs).isEmpty then
                (refineConstraints point idxs cts).bind fun c => .ret (.leaf idxs c)
              else
                (splitTreeFuel sqrt point MAX_LEAF_PNTS fuel
                    (splitLeft point (splitPlane sqrt point ip iq) idxs)
                    (cts ++ [⟨splitPlane sqrt point ip iq, true⟩])).bind fun l =>
                (splitTreeFuel sqrt point MAX_LEAF_PNTS fuel
                    (splitRight point (splitPlane sqrt point ip iq) idxs)
                    (cts ++ [⟨splitPlane sqrt point ip iq, false⟩])).bind fun r =>
                .ret (.inner l r)

/-- The calls of `refineConstraints` made by `splitTree` on a fresh node with indices
`idxs` and constraints `cts`, in call order: each entry is the index list and the
constraint list of the node at the call.  The branches are those of `splitTreeFuel`; the
right child is reached only when the call on the left child returns. -/
def refineCalls (sqrt : S → S) (point : Nat → Vec d S) (MAX_LEAF_PNTS : Nat) :
    Nat → List Nat → List (Constraint d S) → List (List Nat × List (Constraint d S))
  | fuel, idxs, cts =>
    if idxs.length ≤ MAX_LEAF_PNTS then
      [(idxs, cts)]
    else
      match fuel with
      | 0 => []
      | fuel + 1 =>
        match idxs with
        | [] => []
        | ix :: _ =>
          match (farthest sqrt point idxs ix).1 with
          | none => []
          | some ip =>
            match (farthest sqrt point idxs ip).1 with
            | none => []
            | some iq =>
              if (splitLeft point (splitPlane sqrt point ip iq) idxs).isEmpty
                  || (splitRight point (splitPlane sqrt point ip iq) idxs).isEmpty then
                [(idxs, cts)]
              else
                match splitTreeFuel sqrt point MAX_LEAF_PNTS fuel
                    (splitLeft point (splitPlane sqrt point ip iq) idxs)
                    (cts ++ [⟨splitPlane sqrt point ip iq, true⟩]) with
                | .ret _ =>
                  refineCalls sqrt point MAX_LEAF_PNTS fuel
                      (splitLeft point (splitPlane sqrt point ip iq) idxs)
                      (cts ++ [⟨splitPlane sqrt point ip iq, true⟩]) ++
                    refineCalls sqrt point MAX_LEAF_PNTS fuel
                      (splitRight point (splitPlane sqrt point ip iq) idxs)
                      (cts ++ [⟨splitPlane sqrt point ip iq, false⟩])
                | _ =>
                  refineCalls sqrt point MAX_LEAF_PNTS fuel
                    (splitLeft point (splitPlane sqrt point ip iq) idxs)
                    (cts ++ [⟨splitPlane sqrt point ip iq, true⟩])

/-- Source `Tree::splitTree`: the budget is the length of the index list. -/
def splitTree (sqrt : S → S) (point : Nat → Vec d S) (MAX_LEAF_PNTS : Nat)
    (idxs : List Nat) (cts : List (Constraint d S)) : Run (Node d S) :=
  splitTreeFuel sqrt point MAX_LEAF_PNTS idxs.length idxs cts

/-- Source `Tree::genLeafs`. -/
def genLeafs : Node d S → List (Node d S)
  | .leaf idxs cts => [.leaf idxs cts]
  | .inner l r => genLeafs l ++ genLeafs r

/-- Source `class Tree`: the data members. -/
structure Tree (d : Nat) (S : Type) where
  MAX_LEAF_PNTS : Nat
  NUM_PNTS : Nat
  root : Node d S
  leafs : List (Node d S)
  points : List (Vec d S)

/-- The array read `point[i]`. -/
def pointAt (points : List (Vec d S)) (i : Nat) : Vec d S := points.getD i 0

/-- Source `point[i]` of a tree. -/
def Tree.point (t : Tree d S) (i : Nat) : Vec d S := pointAt t.points i

/-- The initialiser of `MAX_LEAF_PNTS`: `std::max<int>(points.size() * 0.01, 10)`.  The
product is a `double` converted to `int`, which drops the fraction; for every size this
is the integer quotient by 100. -/
def maxLeafPnts (n : Nat) : Nat := max (n / 100) 10

/-- Source `Tree::Tree(points)`. -/
def Tree.build (sqrt : S → S) (points : List (Vec d S)) : Run (Tree d S) :=
  (splitTree sqrt (pointAt points) (maxLeafPnts points.length)
      (List.range points.length) []).bind fun root =>
    .ret { MAX_LEAF_PNTS := maxLeafPnts points.length
           NUM_PNTS := points.length
           root := root
           leafs := genLeafs root
           points := points }

/-- Inner loop of `knnSearch`: every index of a leaf is offered to the container. -/
def scanLeaf (sqrt : S → S) (scalarMax : S) (point : Nat → Vec d S) (q : Vec d S) :
    List Nat → KnnResult S → Run (KnnResult S)
  | [], res => .ret res
  | i :: rest, res =>
    (res.insert scalarMax i (distance sqrt (point i) q)).bind fun p =>
      scanLeaf sqrt scalarMax point q rest p.1

/-- Outer loop of `knnSearch` over the sorted `query_leafs`, with its `break`. -/
def visitLeafs (sqrt : S → S) (scalarMax : S) (point : Nat → Vec d S)
    (leafs : List (Node d S)) (q : Vec d S) :
    List (Knn S) → KnnResult S → Run (KnnResult S)
  | [], res => .ret res
  | leaf :: rest, res =>
    if !res.full || decide (leaf.dist < res.maxDist scalarMax) then
      match leafs.get? leaf.idx with
      | none => .undef
      | some L =>
        (scanLeaf sqrt scalarMax point q L.idxs res).bind fun res1 =>
          visitLeafs sqrt scalarMax point leafs q rest res1
    else
      .ret res

/-- The vector `query_leafs` of `knnSearch` before sorting. -/
def queryLeafs (leafs : List (Node d S)) (q : Vec d S) : List (Knn S) :=
  leafs.enum.map fun p => ⟨p.1, distanceNode q p.2⟩

/-- Source `Tree::knnSearch(q, k, sort)`. -/
def Tree.knnSearch (sqrt : S → S) (scalarMax : S) (t : Tree d S) (q : Vec d S) (k : Int)
    (sort : Bool) : Run (KnnResult S) :=
  (visitLeafs sqrt scalarMax t.point t.leafs q (std_sort (queryLeafs t.leafs q))
      (KnnResult.new k)).bind
    fun res => .ret (if sort then res.sort else res)

/-- Loop of `knnSearchBruteforce` (test.cpp). -/
def bruteLoop (sqrt : S → S) (scalarMax : S) (vecs : List (Vec d S)) (q : Vec d S) :
    List Nat → KnnResult S → Run (KnnResult S)
  | [], res => .ret res
  | i :: rest, res =>
    (res.insert scalarMax i (distance sqrt q (pointAt vecs i))).bind fun p =>
      bruteLoop sqrt scalarMax vecs q rest p.1

/-- Source `knnSearchBruteforce(vecs, q, k)` (test.cpp). -/
def knnSearchBruteforce (sqrt : S → S) (scalarMax : S) (vecs : List (Vec d S)) (q : Vec d S)
    (k : Int) : Run (KnnResult S) :=
  (bruteLoop sqrt scalarMax vecs q (List.range vecs.length) (KnnResult.new k)).bind
    fun res => .ret res.sort

/-- Source `Tree::assertLeafs`: true when neither assertion fails. -/
def Tree.assertLeafs (t : Tree d S) : Bool :=
  (t.leafs.all fun leaf => leaf.constraints.all fun ct =>
      leaf.idxs.all fun i => inside (t.point i) ct) &&
    decide ((t.leafs.map fun leaf => leaf.idxs.length).sum = t.NUM_PNTS)

end Defs

/-! ## Concrete scalars for evaluation -/

/-- Integer square root by search below the argument. -/
def isqrt (n : Nat) : Nat := Nat.findGreatest (fun i => i * i ≤ n) n

/-- A square root on the rationals, exact on squares of rationals. -/
def qsqrt (x : ℚ) : ℚ := (isqrt x.num.natAbs : ℚ) / (isqrt x.den : ℚ)

/-- A point of the line with coordinate `x`. -/
def pt1 (x : ℚ) : Vec 1 ℚ := fun _ => x

/-- Eleven points of the line, at 0, 12, 8, 20, 1, 2, 3, 17, 18, 19, 4. -/
def linePts : List (Vec 1 ℚ) :=
  [pt1 0, pt1 12, pt1 8, pt1 20, pt1 1, pt1 2, pt1 3, pt1 17, pt1 18, pt1 19, pt1 4]

/-- The eleven points of `linePts` over any scalar type. -/
def linePtsIn (S : Type) [LinearOrderedField S] : List (Vec 1 S) :=
  [fun _ => 0, fun _ => 12, fun _ => 8, fun _ => 20, fun _ => 1, fun _ => 2, fun _ => 3,
    fun _ => 17, fun _ => 18, fun _ => 19, fun _ => 4]

/-- The value of `std::numeric_limits<float>::max()`, (2^24 - 1) * 2^104; `float` is the
scalar type of test.cpp. -/
def fltMax : ℚ := 340282346638528859811704183484516925440

/-- A point of the plane with coordinates `x` and `y`. -/
def pt2 {S : Type} (x y : S) : Vec 2 S := fun i => if i = 0 then x else y

/-- The four corners of a square of side 10 and its centre:
(0,0), (10,0), (0,10), (10,10), (5,5). -/
def fivePts (S : Type) [LinearOrderedField S] : List (Vec 2 S) :=
  [pt2 0 0, pt2 10 0, pt2 0 10, pt2 10 10, pt2 5 5]

/-- One insert over the rationals. -/
def oneInsert : List (Knn ℚ) := [⟨0, 5⟩]

/-- Three inserts over the rationals: the pairs kept from `sampleInserts` by a container
of capacity three, in another order. -/
def otherInserts : List (Knn ℚ) := [⟨3, 1⟩, ⟨0, 5⟩, ⟨1, 3⟩]

/-- Four inserts over the rationals, with a tie at distance 5. -/
def sampleInserts : List (Knn ℚ) := [⟨0, 5⟩, ⟨1, 3⟩, ⟨2, 5⟩, ⟨3, 1⟩]

/-- The spec's threshold rule, in the spec's words: 0.01 × N rounded to the nearest
integer (halves upward), and not below 10. -/
def specThreshold (n : Nat) : Nat := max 10 ((n + 50) / 100)

/-! ## Predicates and auxiliary functions used by the theorems -/

/-- The square-root parameter returns non-negative values on non-negative arguments. -/
def SqrtNonneg {S : Type} [LinearOrderedField S] (sqrt : S → S) : Prop :=
  ∀ x, 0 ≤ x → 0 ≤ sqrt x

/-- The square-root parameter is the exact square root on non-negative arguments. -/
def IsSqrt {S : Type} [LinearOrderedField S] (sqrt : S → S) : Prop :=
  ∀ x, 0 ≤ x → 0 ≤ sqrt x ∧ sqrt x * sqrt x = x

/-- Library `std::is_heap` with `operator<`: no element is greater than its parent, the parent
of position `i > 0` being position `(i - 1) / 2`. -/
def is_heap {S : Type} [LinearOrderedField S] (v : List (Knn S)) : Prop :=
  ∀ i x y, 0 < i → v.get? i = some x → v.get? ((i - 1) / 2) = some y → Knn.lt y x = false

/-- State of a container of capacity `K` after the pairs `ins` were offered to it: the
vector is a heap, it holds `min K |ins|` of the offered pairs, the others are `rej`, and no
held distance exceeds the distance of a pair that is not held. -/
structure KnnResult.Inv {S : Type} [LinearOrderedField S] (K : Int) (r : KnnResult S)
    (rej ins : List (Knn S)) : Prop where
  cap : r.K = K
  heap : is_heap r.heap
  perm : (r.heap ++ rej).Perm ins
  len : r.heap.length = min K.toNat ins.length
  le : ∀ h ∈ r.heap, ∀ y ∈ rej, h.dist ≤ y.dist

/-- What `refineConstraints` makes of one constraint `ct` of a node with indices `idxs`:
the direction and the side are kept, the offset is the product of the direction with a
point of the node, and every point of the node is inside the result. -/
def Refined {S : Type} [LinearOrderedField S] {d : Nat} (point : Nat → Vec d S)
    (idxs : List Nat) (ct c : Constraint d S) : Prop :=
  c.hp.a = ct.hp.a ∧ c.less_equal = ct.less_equal ∧
    (∃ idx ∈ idxs, c.hp.b = dot ct.hp.a (point idx)) ∧
    ∀ i ∈ idxs, inside (point i) c = true

/-- The forced-leaf fallback of `splitTree` applies to the index list: the two picks
exist and one side of their hyperplane is empty. -/
def ForcedLeaf {S : Type} [LinearOrderedField S] {d : Nat} (sqrt : S → S)
    (point : Nat → Vec d S) (idxs : List Nat) : Prop :=
  ∃ ix tl ip iq, idxs = ix :: tl ∧ (farthest sqrt point idxs ix).1 = some ip ∧
    (farthest sqrt point idxs ip).1 = some iq ∧
    (splitLeft point (splitPlane sqrt point ip iq) idxs = [] ∨
      splitRight point (splitPlane sqrt point ip iq) idxs = [])

/-- The indices scanned when `knnSearch` visits the entry `x` of `query_leafs`. -/
def leafIdxs {S : Type} {d : Nat} (leafs : List (Node d S)) (x : Knn S) : List Nat :=
  match leafs.get? x.idx with
  | some L => L.idxs
  | none => []

/-- The pair `knnSearch` offers to the container for the point index `i`. -/
def queryPair {S : Type} [LinearOrderedField S] {d : Nat} (sqrt : S → S)
    (point : Nat → Vec d S) (q : Vec d S) (i : Nat) : Knn S :=
  ⟨i, distance sqrt (point i) q⟩


section Heap

variable {S : Type} [LinearOrderedField S]

/-! ## The order of `Knn::operator<` -/

theorem Knn.lt_iff (x y : Knn S) :
    Knn.lt x y = true ↔ x.dist < y.dist ∨ (x.dist = y.dist ∧ x.idx < y.idx) := by
  unfold Knn.lt
  by_cases h : x.dist = y.dist
  · simp [h]
  · simp [h]

theorem Knn.ge_iff (x y : Knn S) :
    Knn.ge x y ↔ y.dist < x.dist ∨ (y.dist = x.dist ∧ y.idx ≤ x.idx) := by
  unfold Knn.ge
  rw [← Bool.not_eq_true, Knn.lt_iff]
  constructor
  · intro h
    rcases lt_trichotomy x.dist y.dist with h1 | h1 | h1
    · exact absurd (Or.inl h1) h
    · right
      refine ⟨h1.symm, ?_⟩
      by_contra h2
      exact h (Or.inr ⟨h1, by omega⟩)
    · exact Or.inl h1
  · rintro (h | ⟨h1, h2⟩) (h3 | ⟨h3, h4⟩)
    · exact lt_asymm h h3
    · rw [h3] at h; exact lt_irrefl _ h
    · rw [h1] at h3; exact lt_irrefl _ h3
    · omega

theorem Knn.ge_dist {x y : Knn S} (h : Knn.ge x y) : y.dist ≤ x.dist := by
  rcases (Knn.ge_iff x y).1 h with h | ⟨h, _⟩
  · exact le_of_lt h
  · exact le_of_eq h

instance Knn.ge_total : IsTotal (Knn S) Knn.ge where
  total x y := by
    rw [Knn.ge_iff, Knn.ge_iff]
    rcases lt_trichotomy x.dist y.dist with h | h | h
    · exact Or.inr (Or.inl h)
    · rcases Nat.le_total x.idx y.idx with h1 | h1
      · exact Or.inr (Or.inr ⟨h, h1⟩)
      · exact Or.inl (Or.inr ⟨h.symm, h1⟩)
    · exact Or.inl (Or.inl h)

instance Knn.ge_trans : IsTrans (Knn S) Knn.ge where
  trans x y z := by
    rw [Knn.ge_iff, Knn.ge_iff, Knn.ge_iff]
    rintro (h | ⟨h1, h2⟩) (h3 | ⟨h3, h4⟩)
    · exact Or.inl (lt_trans h3 h)
    · exact Or.inl (h3 ▸ h)
    · exact Or.inl (h1 ▸ h3)
    · exact Or.inr ⟨h3.trans h1, le_trans h4 h2⟩

instance Knn.le_total : IsTotal (Knn S) Knn.le where
  total x y := (Knn.ge_total.total x y).symm

instance Knn.le_trans : IsTrans (Knn S) Knn.le where
  trans _ _ _ h1 h2 := Knn.ge_trans.trans _ _ _ h2 h1

instance Knn.le_isAntisymm : IsAntisymm (Knn S) Knn.le where
  antisymm x y h1 h2 := by
    have h1' := (Knn.ge_iff y x).1 h1
    have h2' := (Knn.ge_iff x y).1 h2
    obtain ⟨xi, xd⟩ := x
    obtain ⟨yi, yd⟩ := y
    simp only at h1' h2'
    rcases h1' with h | ⟨h, hi⟩
    · rcases h2' with h' | ⟨h', _⟩
      · exact absurd h (lt_asymm h')
      · rw [h'] at h; exact absurd h (lt_irrefl _)
    · rcases h2' with h' | ⟨_, hi'⟩
      · rw [h] at h'; exact absurd h' (lt_irrefl _)
      · have : xi = yi := Nat.le_antisymm hi hi'
        rw [h, this]

/-- The relation of an ascending result, spelled out: by distance, equal distances by
index. -/
theorem Knn.le_iff (x y : Knn S) :
    Knn.le x y ↔ x.dist < y.dist ∨ (x.dist = y.dist ∧ x.idx ≤ y.idx) :=
  Knn.ge_iff y x


theorem Knn.ge_refl (x : Knn S) : Knn.ge x x := by
  rcases Knn.ge_total.total x x with h | h <;> exact h

theorem Knn.ge_of_lt {x y : Knn S} (h : Knn.lt x y = true) : Knn.ge y x := by
  rcases Knn.ge_total.total x y with h1 | h1
  · rw [Knn.ge, h] at h1
    cases h1
  · exact h1

theorem Knn.ge_of_not_lt {x y : Knn S} (h : ¬ Knn.lt x y = true) : Knn.ge x y := by
  simpa [Knn.ge] using h

/-! ## Reads and exchanges in a vector -/

theorem nth_eq_getElem (v : List (Knn S)) (i : Nat) (h : i < v.length) : nth v i = v[i] := by
  unfold nth
  exact List.getD_eq_getElem _ _ h

theorem nth_mem (v : List (Knn S)) (i : Nat) (h : i < v.length) : nth v i ∈ v := by
  rw [nth_eq_getElem v i h]
  exact List.getElem_mem h

theorem mem_iff_nth (v : List (Knn S)) (a : Knn S) : a ∈ v ↔ ∃ i, i < v.length ∧ nth v i = a := by
  constructor
  · intro h
    obtain ⟨i, hi, rfl⟩ := List.getElem_of_mem h
    exact ⟨i, hi, nth_eq_getElem v i hi⟩
  · rintro ⟨i, hi, rfl⟩
    exact nth_mem v i hi

theorem nth_cons_succ (x : Knn S) (v : List (Knn S)) (i : Nat) : nth (x :: v) (i + 1) = nth v i := by
  simp [nth]

theorem nth_cons_zero (x : Knn S) (v : List (Knn S)) : nth (x :: v) 0 = x := by
  simp [nth]

theorem nth_append_left (v w : List (Knn S)) (i : Nat) (h : i < v.length) :
    nth (v ++ w) i = nth v i := by
  rw [nth_eq_getElem v i h, nth_eq_getElem (v ++ w) i (by simp; omega)]
  exact List.getElem_append_left h

theorem nth_dropLast (v : List (Knn S)) (i : Nat) (h : i + 1 < v.length) :
    nth v.dropLast i = nth v i := by
  rw [nth_eq_getElem v i (by omega), nth_eq_getElem v.dropLast i (by simp; omega)]
  simp

theorem length_swapAt (v : List (Knn S)) (i j : Nat) : (swapAt v i j).length = v.length := by
  simp [swapAt]

theorem nth_swapAt_right (v : List (Knn S)) (i j : Nat) (hj : j < v.length) :
    nth (swapAt v i j) j = nth v i := by
  simp [nth, swapAt, List.getD_eq_getElem?_getD, List.getElem?_set, hj]

theorem nth_swapAt_left (v : List (Knn S)) (i j : Nat) (hi : i < v.length) (hj : j < v.length) :
    nth (swapAt v i j) i = nth v j := by
  by_cases h : j = i
  · subst h
    exact nth_swapAt_right v j j hj
  · simp [nth, swapAt, List.getD_eq_getElem?_getD, List.getElem?_set, hi, h]

theorem nth_swapAt_ne (v : List (Knn S)) (i j k : Nat) (hi : k ≠ i) (hj : k ≠ j) :
    nth (swapAt v i j) k = nth v k := by
  simp [nth, swapAt, List.getD_eq_getElem?_getD, List.getElem?_set, Ne.symm hi, Ne.symm hj]

theorem swapAt_perm (v : List (Knn S)) (i j : Nat) (hi : i < v.length) (hj : j < v.length)
    (hij : i ≠ j) : (swapAt v i j).Perm v := by
  rw [List.perm_iff_count]
  intro b
  have hj' : j < (v.set i (nth v j)).length := by simpa using hj
  have h1 : (v.set i (nth v j))[j] = nth v j := by
    rw [List.getElem_set_ne hij]
    exact (nth_eq_getElem v j hj).symm
  rw [swapAt, List.count_set _ _ _ _ hj', List.count_set _ _ _ _ hi, h1,
    ← nth_eq_getElem v i hi]
  have h2 : (if (nth v i == b) = true then 1 else 0) ≤ v.count b := by
    split_ifs with h
    · have := nth_mem v i hi
      rw [beq_iff_eq] at h
      rw [h] at this
      exact List.count_pos_iff.2 this
    · exact Nat.zero_le _
  generalize (if (nth v i == b) = true then 1 else 0) = e1 at h2 ⊢
  generalize (if (nth v j == b) = true then 1 else 0) = e2
  omega

/-- The heap property of `std::is_heap` in terms of reads. -/
theorem is_heap_iff (v : List (Knn S)) :
    is_heap v ↔ ∀ j, 0 < j → j < v.length → Knn.ge (nth v ((j - 1) / 2)) (nth v j) := by
  constructor
  · intro h j hj0 hjl
    have hp : (j - 1) / 2 < v.length := by omega
    refine h j _ _ hj0 ?_ ?_
    · rw [List.get?_eq_getElem?, List.getElem?_eq_getElem hjl, nth_eq_getElem v j hjl]
    · rw [List.get?_eq_getElem?, List.getElem?_eq_getElem hp, nth_eq_getElem v _ hp]
  · intro h i x y hi hx hy
    rw [List.get?_eq_getElem?] at hx hy
    obtain ⟨hi', rfl⟩ := List.getElem?_eq_some_iff.1 hx
    obtain ⟨hj', rfl⟩ := List.getElem?_eq_some_iff.1 hy
    have := h i hi hi'
    rw [nth_eq_getElem v i hi', nth_eq_getElem v _ hj'] at this
    exact this

theorem is_heap_nil : is_heap ([] : List (Knn S)) := by
  rw [is_heap_iff]
  intro j _ hj
  cases hj

/-- The first element of a heap is not less than any element. -/
theorem is_heap_root {v : List (Knn S)} (h : is_heap v) :
    ∀ k, k < v.length → Knn.ge (nth v 0) (nth v k) := by
  rw [is_heap_iff] at h
  intro k
  induction k using Nat.strong_induction_on with
  | _ k ih =>
    intro hk
    by_cases h0 : k = 0
    · subst h0
      exact Knn.ge_refl _
    · have h1 := ih ((k - 1) / 2) (by omega) (by omega)
      have h2 := h k (by omega) hk
      exact Knn.ge_trans.trans _ _ _ h1 h2

theorem is_heap_head {m : Knn S} {rest : List (Knn S)} (h : is_heap (m :: rest)) :
    ∀ x ∈ m :: rest, Knn.ge m x := by
  intro x hx
  obtain ⟨i, hi, rfl⟩ := (mem_iff_nth _ _).1 hx
  have := is_heap_root h i hi
  rwa [nth_cons_zero] at this

/-! ## The heap algorithms -/

/-- The loop of `push_heap`: when every parent relation holds except the one of the
hole, and the parent of the hole is not less than the children of the hole, the result
is a heap with the same elements. -/
theorem siftUp_spec : ∀ (fuel : Nat) (v : List (Knn S)) (h : Nat), h < fuel → h < v.length →
    (∀ j, 0 < j → j < v.length → j ≠ h → Knn.ge (nth v ((j - 1) / 2)) (nth v j)) →
    (0 < h → ∀ j, 0 < j → j < v.length → (j - 1) / 2 = h →
      Knn.ge (nth v ((h - 1) / 2)) (nth v j)) →
    is_heap (siftUp fuel v h) ∧ (siftUp fuel v h).Perm v := by
  intro fuel
  induction fuel with
  | zero => intro v h hf; omega
  | succ fuel ih =>
    intro v h hf hl hA hB
    rw [siftUp]
    by_cases hc : 0 < h ∧ Knn.lt (nth v ((h - 1) / 2)) (nth v h) = true
    · rw [if_pos hc]
      obtain ⟨h0, hlt⟩ := hc
      have hp : (h - 1) / 2 < h := by omega
      have hpl : (h - 1) / 2 < v.length := by omega
      have hlen := length_swapAt v ((h - 1) / 2) h
      have hR := nth_swapAt_right v ((h - 1) / 2) h hl
      have hL := nth_swapAt_left v ((h - 1) / 2) h hpl hl
      have hN := nth_swapAt_ne v ((h - 1) / 2) h
      have hxp : Knn.ge (nth v h) (nth v ((h - 1) / 2)) := Knn.ge_of_lt hlt
      have key := ih (swapAt v ((h - 1) / 2) h) ((h - 1) / 2) (by omega)
        (by rw [hlen]; exact hpl) ?_ ?_
      · exact ⟨key.1, key.2.trans (swapAt_perm v _ _ hpl hl (by omega))⟩
      · intro j hj0 hjl hjp
        rw [hlen] at hjl
        by_cases hjh : j = h
        · subst hjh
          rw [hR, hL]
          exact hxp
        · rw [hN j hjp hjh]
          by_cases h1 : (j - 1) / 2 = h
          · rw [h1, hR]
            exact hB h0 j hj0 hjl h1
          · by_cases h2 : (j - 1) / 2 = (h - 1) / 2
            · rw [h2, hL]
              have := hA j hj0 hjl hjh
              rw [h2] at this
              exact Knn.ge_trans.trans _ _ _ hxp this
            · rw [hN _ h2 h1]
              exact hA j hj0 hjl hjh
      · intro hp0 j hj0 hjl hjp
        rw [hlen] at hjl
        rw [hN _ (by omega) (by omega)]
        have hpp := hA ((h - 1) / 2) hp0 hpl (by omega)
        by_cases hjh : j = h
        · subst hjh
          rw [hR]
          exact hpp
        · rw [hN j (by omega) hjh]
          have := hA j hj0 hjl hjh
          rw [hjp] at this
          exact Knn.ge_trans.trans _ _ _ hpp this
    · rw [if_neg hc]
      refine ⟨?_, List.Perm.refl _⟩
      rw [is_heap_iff]
      intro j hj0 hjl
      by_cases hjh : j = h
      · subst hjh
        exact Knn.ge_of_not_lt fun hlt => hc ⟨hj0, hlt⟩
      · exact hA j hj0 hjl hjh

/-- The vector `push_heap` makes of a heap followed by one more element is a heap with
the same elements. -/
theorem push_heap_spec {v : List (Knn S)} (hv : is_heap v) (x : Knn S) :
    is_heap (push_heap (v ++ [x])) ∧ (push_heap (v ++ [x])).Perm (x :: v) := by
  rw [is_heap_iff] at hv
  have hlen : (v ++ [x]).length = v.length + 1 := by simp
  have key := siftUp_spec (v ++ [x]).length (v ++ [x]) ((v ++ [x]).length - 1)
    (by rw [hlen]; omega) (by rw [hlen]; omega) ?_ ?_
  · refine ⟨key.1, key.2.trans ?_⟩
    exact List.perm_append_comm
  · intro j hj0 hjl hjh
    rw [hlen] at hjl hjh
    rw [nth_append_left v [x] j (by omega), nth_append_left v [x] _ (by omega)]
    exact hv j hj0 (by omega)
  · intro _ j hj0 hjl hjh
    rw [hlen] at hjl hjh
    omega

/-- The descent of `__adjust_heap`: it ends at a position without children inside the
vector, keeps the elements, and leaves every parent relation that does not involve the
final position of the hole in force. -/
theorem siftDown_spec : ∀ (fuel : Nat) (v : List (Knn S)) (h : Nat), v.length ≤ fuel + h →
    h < v.length →
    (∀ j, 0 < j → j < v.length → j ≠ h → (j - 1) / 2 ≠ h →
      Knn.ge (nth v ((j - 1) / 2)) (nth v j)) →
    (0 < h → ∀ j, 0 < j → j < v.length → (j - 1) / 2 = h →
      Knn.ge (nth v ((h - 1) / 2)) (nth v j)) →
    (siftDown fuel v h).1.Perm v ∧ (siftDown fuel v h).2 < v.length ∧
      v.length ≤ 2 * (siftDown fuel v h).2 + 1 ∧
      ∀ j, 0 < j → j < v.length → j ≠ (siftDown fuel v h).2 →
        Knn.ge (nth (siftDown fuel v h).1 ((j - 1) / 2)) (nth (siftDown fuel v h).1 j) := by
  intro fuel
  induction fuel with
  | zero => intro v h hf hl; omega
  | succ fuel ih =>
    intro v h hf hl hA hB
    rw [siftDown]
    by_cases h2 : 2 * h + 2 < v.length
    · rw [if_pos h2]
      -- the step to the child `c`, the other child being `o`
      have step : ∀ c o, (c = 2 * h + 1 ∧ o = 2 * h + 2 ∨ c = 2 * h + 2 ∧ o = 2 * h + 1) →
          Knn.ge (nth v c) (nth v o) →
          (siftDown fuel (swapAt v h c) c).1.Perm v ∧ (siftDown fuel (swapAt v h c) c).2 < v.length ∧
            v.length ≤ 2 * (siftDown fuel (swapAt v h c) c).2 + 1 ∧
            ∀ j, 0 < j → j < v.length → j ≠ (siftDown fuel (swapAt v h c) c).2 →
              Knn.ge (nth (siftDown fuel (swapAt v h c) c).1 ((j - 1) / 2))
                (nth (siftDown fuel (swapAt v h c) c).1 j) := by
        intro c o hco hge
        have hcl : c < v.length := by omega
        have hch : (c - 1) / 2 = h := by omega
        have hoh : (o - 1) / 2 = h := by omega
        have hlen := length_swapAt v h c
        have hR := nth_swapAt_right v h c hcl
        have hL := nth_swapAt_left v h c hl hcl
        have hN := nth_swapAt_ne v h c
        have key := ih (swapAt v h c) c (by rw [hlen]; omega) (by rw [hlen]; exact hcl) ?_ ?_
        · rw [hlen] at key
          exact ⟨key.1.trans (swapAt_perm v _ _ hl hcl (by omega)), key.2⟩
        · intro j hj0 hjl hjc hjpc
          rw [hlen] at hjl
          by_cases hjh : j = h
          · subst hjh
            rw [hL, hN _ (by omega) (by omega)]
            exact hB hj0 c (by omega) hcl hch
          · rw [hN j hjh hjc]
            by_cases hjp : (j - 1) / 2 = h
            · have hjo : j = o := by omega
              rw [hjp, hL, hjo]
              exact hge
            · rw [hN _ hjp hjpc]
              exact hA j hj0 hjl hjh hjp
        · intro _ j hj0 hjl hjp
          rw [hlen] at hjl
          rw [hch, hL, hN j (by omega) (by omega)]
          have := hA j hj0 hjl (by omega) (by omega)
          rw [hjp] at this
          exact this
      by_cases hc : Knn.lt (nth v (2 * h + 2)) (nth v (2 * h + 1)) = true
      · rw [if_pos hc]
        exact step (2 * h + 1) (2 * h + 2) (Or.inl ⟨rfl, rfl⟩) (Knn.ge_of_lt hc)
      · rw [if_neg hc]
        exact step (2 * h + 2) (2 * h + 1) (Or.inr ⟨rfl, rfl⟩) (Knn.ge_of_not_lt hc)
    · rw [if_neg h2]
      by_cases h1 : 2 * h + 2 = v.length
      · rw [if_pos h1]
        have hcl : 2 * h + 1 < v.length := by omega
        have hR := nth_swapAt_right v h (2 * h + 1) hcl
        have hL := nth_swapAt_left v h (2 * h + 1) hl hcl
        have hN := nth_swapAt_ne v h (2 * h + 1)
        refine ⟨swapAt_perm v _ _ hl hcl (by omega), hcl, by simp only; omega, ?_⟩
        intro j hj0 hjl hjc
        simp only at hjc ⊢
        by_cases hjh : j = h
        · subst hjh
          rw [hL, hN _ (by omega) (by omega)]
          exact hB hj0 (2 * j + 1) (by omega) hcl (by omega)
        · rw [hN j hjh hjc, hN _ (by omega) (by omega)]
          exact hA j hj0 hjl hjh (by omega)
      · rw [if_neg h1]
        refine ⟨List.Perm.refl _, hl, by simp only; omega, ?_⟩
        intro j hj0 hjl hjh
        exact hA j hj0 hjl hjh (by simp only at hjh; omega)

/-- Library `__adjust_heap` at the root of a vector whose positions other than the root satisfy
the heap property gives a heap with the same elements. -/
theorem adjust_heap_spec {v : List (Knn S)} (hv : 0 < v.length)
    (hA : ∀ j, 0 < j → j < v.length → (j - 1) / 2 ≠ 0 →
      Knn.ge (nth v ((j - 1) / 2)) (nth v j)) :
    is_heap (adjust_heap v) ∧ (adjust_heap v).Perm v := by
  obtain ⟨hperm, hlt, hleaf, hrel⟩ := siftDown_spec v.length v 0 (by omega) hv
    (fun j hj0 hjl _ hjp => hA j hj0 hjl hjp) (fun h => absurd h (lt_irrefl _))
  have hlen := hperm.length_eq
  have key := siftUp_spec v.length (siftDown v.length v 0).1 (siftDown v.length v 0).2 hlt
    (by rw [hlen]; exact hlt) ?_ ?_
  · exact ⟨key.1, key.2.trans hperm⟩
  · intro j hj0 hjl hjh
    rw [hlen] at hjl
    exact hrel j hj0 hjl hjh
  · intro _ j hj0 hjl hjp
    rw [hlen] at hjl
    omega

/-- Library `pop_heap` on a heap: the first element goes to the back and the others form a heap. -/
theorem pop_heap_spec {m : Knn S} {rest : List (Knn S)} (hv : is_heap (m :: rest)) :
    ∃ w, pop_heap (m :: rest) = w ++ [m] ∧ is_heap w ∧ w.Perm rest := by
  rcases List.eq_nil_or_concat rest with hr | ⟨mid, x, hr⟩
  · subst hr
    exact ⟨[], rfl, is_heap_nil, List.Perm.refl _⟩
  · rw [List.concat_eq_append] at hr
    subst hr
    have h1 : (mid ++ [x]).getLast? = some x := by simp
    have h2 : (mid ++ [x]).dropLast = mid := by simp
    have h3 : pop_heap (m :: (mid ++ [x])) = adjust_heap (x :: mid) ++ [m] := by
      simp only [pop_heap, h1, h2]
    rw [h3]
    rw [is_heap_iff] at hv
    have key := adjust_heap_spec (v := x :: mid) (by simp) ?_
    · refine ⟨_, rfl, key.1, key.2.trans ?_⟩
      exact (List.perm_append_comm : ([x] ++ mid).Perm (mid ++ [x]))
    · intro j hj0 hjl hjp
      have hjl' : j < mid.length + 1 := by simpa using hjl
      obtain ⟨j', rfl⟩ : ∃ j', j = j' + 1 := ⟨j - 1, by omega⟩
      obtain ⟨p', hp'⟩ : ∃ p', (j' + 1 - 1) / 2 = p' + 1 := ⟨(j' + 1 - 1) / 2 - 1, by omega⟩
      have := hv (j' + 1) hj0 (by simp; omega)
      rw [hp', nth_cons_succ, nth_cons_succ] at this ⊢
      rwa [nth_append_left mid [x] p' (by omega), nth_append_left mid [x] j' (by omega)] at this

/-- The loop of `sort_heap` on a heap `l` followed by an ascending part `done` that no
element of `l` exceeds: the result is ascending and has the same elements. -/
theorem sort_heap_loop_spec : ∀ (n : Nat) (l done : List (Knn S)), l.length = n → is_heap l →
    done.Sorted Knn.le → (∀ a ∈ l, ∀ b ∈ done, Knn.le a b) →
    (sort_heap_loop n (l ++ done)).Sorted Knn.le ∧ (sort_heap_loop n (l ++ done)).Perm (l ++ done) := by
  intro n
  induction n with
  | zero =>
    intro l done hl _ hd _
    rw [List.eq_nil_of_length_eq_zero hl]
    exact ⟨hd, List.Perm.refl _⟩
  | succ n ih =>
    intro l done hl hh hd hle
    cases l with
    | nil => cases hl
    | cons m rest =>
      have hrest : rest.length = n := by simpa using hl
      have htake : (m :: rest ++ done).take (n + 1) = m :: rest := List.take_left' hl
      have hdrop : (m :: rest ++ done).drop (n + 1) = done := List.drop_left' hl
      rw [sort_heap_loop, htake, hdrop]
      obtain ⟨w, hw, hwh, hwp⟩ := pop_heap_spec hh
      rw [hw]
      have h2 : w ++ [m] ++ done = w ++ (m :: done) := by simp
      rw [h2]
      have key := ih w (m :: done) (by rw [hwp.length_eq, hrest]) hwh ?_ ?_
      · refine ⟨key.1, key.2.trans ?_⟩
        have h3 : (w ++ m :: done).Perm (m :: (w ++ done)) := List.perm_middle
        exact h3.trans (List.Perm.cons _ (hwp.append_right _))
      · exact List.sorted_cons.2 ⟨fun b hb => hle m (List.mem_cons_self _ _) b hb, hd⟩
      · intro a ha b hb
        have ha' : a ∈ rest := hwp.subset ha
        rcases List.mem_cons.1 hb with rfl | hb
        · exact is_heap_head hh a (List.mem_cons_of_mem _ ha')
        · exact hle a (List.mem_cons_of_mem _ ha') b hb

/-- Library `sort_heap` on a heap gives the ascending vector of the same elements. -/
theorem sort_heap_spec {v : List (Knn S)} (hv : is_heap v) :
    (sort_heap v).Sorted Knn.le ∧ (sort_heap v).Perm v := by
  have := sort_heap_loop_spec v.length v [] rfl hv List.sorted_nil
    (fun _ _ b hb => absurd hb (List.not_mem_nil _))
  simpa [sort_heap] using this

end Heap
section Container

variable {S : Type} [LinearOrderedField S]

/-! ## The container invariant -/

theorem KnnResult.Inv.new {K : Int} (hK : 0 ≤ K) :
    KnnResult.Inv K (KnnResult.new K : KnnResult S) [] [] where
  cap := by simp [KnnResult.new, KnnResult.setK, hK]
  heap := is_heap_nil
  perm := by simp [KnnResult.new, KnnResult.setK]
  len := by simp [KnnResult.new, KnnResult.setK]
  le := by simp [KnnResult.new, KnnResult.setK]

theorem KnnResult.Inv.of_perm {K : Int} {r : KnnResult S} {rej ins ins' : List (Knn S)}
    (h : KnnResult.Inv K r rej ins) (hp : ins.Perm ins') : KnnResult.Inv K r rej ins' where
  cap := h.cap
  heap := h.heap
  perm := h.perm.trans hp
  len := by rw [h.len, hp.length_eq]
  le := h.le

theorem KnnResult.Inv.length_rej {K : Int} {r : KnnResult S} {rej ins : List (Knn S)}
    (h : KnnResult.Inv K r rej ins) : r.heap.length + rej.length = ins.length := by
  have := h.perm.length_eq
  simpa using this

theorem KnnResult.Inv.head_max {K : Int} {m : Knn S} {rest rej ins : List (Knn S)}
    (h : KnnResult.Inv K ⟨K, m :: rest⟩ rej ins) : ∀ x ∈ m :: rest, x.dist ≤ m.dist := by
  intro x hx
  exact Knn.ge_dist (is_heap_head h.heap x hx)

theorem KnnResult.full_iff {K : Int} (hK : 0 ≤ K) (r : KnnResult S) (h : r.K = K) :
    r.full = true ↔ K.toNat ≤ r.heap.length := by
  simp only [KnnResult.full, KnnResult.size, h, decide_eq_true_eq, ge_iff_le]
  omega

/-- One `insert` call keeps the invariant and never runs into the undefined eviction,
for a capacity of at least one. -/
theorem KnnResult.insert_inv (scalarMax : S) {K : Int} (hK : 1 ≤ K) {r : KnnResult S}
    {rej ins : List (Knn S)} (h : KnnResult.Inv K r rej ins) (i : Nat) (dd : S) :
    ∃ r' b rej', r.insert scalarMax i dd = .ret (r', b) ∧
      KnnResult.Inv K r' rej' (⟨i, dd⟩ :: ins) := by
  obtain ⟨K0, heap⟩ := r
  have hcap : K0 = K := h.cap
  subst hcap
  have hfull := KnnResult.full_iff (le_trans (by decide) hK) (⟨K0, heap⟩ : KnnResult S) rfl
  have hlen := h.len
  have hlr := h.length_rej
  simp only at hlen hlr hfull
  by_cases hf : (⟨K0, heap⟩ : KnnResult S).full = true
  · -- at capacity
    have hge := hfull.1 hf
    have hKn : 1 ≤ K0.toNat := by omega
    have hlenK : heap.length = K0.toNat := by omega
    have hins : K0.toNat ≤ ins.length := by omega
    cases heap with
    | nil => simp at hlenK; omega
    | cons m rest =>
      have hmax := h.head_max
      by_cases hd : dd < m.dist
      · obtain ⟨w, hw, hwh, hwp⟩ := pop_heap_spec h.heap
        have hdl : (pop_heap (m :: rest)).dropLast = w := by rw [hw]; simp
        obtain ⟨hph, hpp⟩ := push_heap_spec hwh ⟨i, dd⟩
        refine ⟨⟨K0, push_heap (w ++ [⟨i, dd⟩])⟩, true, m :: rej, ?_, ?_⟩
        · simp [KnnResult.insert, hf, KnnResult.maxDist, hd, hdl]
        · refine ⟨rfl, hph, ?_, ?_, ?_⟩
          · refine (hpp.append_right (m :: rej)).trans ?_
            refine List.Perm.cons _ ?_
            have h2 : (w ++ m :: rej).Perm (m :: (w ++ rej)) := List.perm_middle
            exact (h2.trans (List.Perm.cons _ (hwp.append_right rej))).trans h.perm
          · have h1 := hpp.length_eq
            have h2 := hwp.length_eq
            simp only [List.length_cons] at hlenK h1 ⊢
            omega
          · intro x hx y hy
            rcases List.mem_cons.1 (hpp.subset hx) with rfl | hx
            · rcases List.mem_cons.1 hy with rfl | hy
              · exact le_of_lt hd
              · exact le_trans (le_of_lt hd) (h.le m (List.mem_cons_self _ _) y hy)
            · have hx' : x ∈ rest := hwp.subset hx
              rcases List.mem_cons.1 hy with rfl | hy
              · exact hmax x (List.mem_cons_of_mem _ hx')
              · exact h.le x (List.mem_cons_of_mem _ hx') y hy
      · refine ⟨⟨K0, m :: rest⟩, false, ⟨i, dd⟩ :: rej, ?_, ?_⟩
        · simp [KnnResult.insert, hf, KnnResult.maxDist, hd]
        · refine ⟨rfl, h.heap, ?_, ?_, ?_⟩
          · have h2 : ((m :: rest) ++ ⟨i, dd⟩ :: rej).Perm (⟨i, dd⟩ :: ((m :: rest) ++ rej)) :=
              List.perm_middle
            exact h2.trans (List.Perm.cons _ h.perm)
          · simp only [List.length_cons] at hlenK ⊢
            omega
          · intro x hx y hy
            rcases List.mem_cons.1 hy with rfl | hy
            · exact le_trans (hmax x hx) (not_lt.1 hd)
            · exact h.le x hx y hy
  · -- below capacity
    have hlt : heap.length < K0.toNat := by
      by_contra hc
      exact hf (hfull.2 (not_lt.1 hc))
    have hrej : rej = [] := by
      apply List.eq_nil_of_length_eq_zero
      omega
    subst hrej
    obtain ⟨hph, hpp⟩ := push_heap_spec h.heap ⟨i, dd⟩
    refine ⟨⟨K0, push_heap (heap ++ [⟨i, dd⟩])⟩, true, [], ?_, ?_⟩
    · simp [KnnResult.insert, hf]
    · refine ⟨rfl, hph, ?_, ?_, ?_⟩
      · have h2 := h.perm
        simp only [List.append_nil] at h2 ⊢
        exact hpp.trans (List.Perm.cons _ h2)
      · have h1 := hpp.length_eq
        simp only [List.length_cons] at h1 ⊢
        omega
      · intro x _ y hy
        cases hy

/-- A sequence of `insert` calls keeps the invariant. -/
theorem KnnResult.insertAll_inv (scalarMax : S) {K : Int} (hK : 1 ≤ K) (xs : List (Knn S)) :
    ∀ {r : KnnResult S} {rej ins : List (Knn S)}, KnnResult.Inv K r rej ins →
      ∃ r' rej', r.insertAll scalarMax xs = .ret r' ∧
        KnnResult.Inv K r' rej' (ins ++ xs) := by
  induction xs with
  | nil =>
    intro r rej ins h
    exact ⟨r, rej, rfl, by simpa using h⟩
  | cons x xs ih =>
    intro r rej ins h
    obtain ⟨r1, b, rej1, h1, hinv1⟩ := KnnResult.insert_inv scalarMax hK h x.idx x.dist
    obtain ⟨r2, rej2, h2, hinv2⟩ := ih hinv1
    refine ⟨r2, rej2, ?_, ?_⟩
    · simp [KnnResult.insertAll, h1, Run.bind, h2]
    · refine hinv2.of_perm ?_
      have : (⟨x.idx, x.dist⟩ : Knn S) = x := rfl
      rw [this]
      simp only [List.cons_append]
      exact (List.perm_middle).symm

/-- Under the invariant the held distances are the `min K |ins|` smallest offered ones. -/
theorem KnnResult.Inv.smallest {K : Int} {r : KnnResult S} {rej ins : List (Knn S)}
    (h : KnnResult.Inv K r rej ins) :
    (r.heap.map Knn.dist).Perm
      (((ins.map Knn.dist).insertionSort (· ≤ ·)).take (min K.toNat ins.length)) := by
  set A := (r.heap.map Knn.dist).insertionSort (· ≤ ·) with hA
  set B := (rej.map Knn.dist).insertionSort (· ≤ ·) with hB
  have hsA : A.Sorted (· ≤ ·) := List.sorted_insertionSort _ _
  have hsB : B.Sorted (· ≤ ·) := List.sorted_insertionSort _ _
  have hAB : (A ++ B).Sorted (· ≤ ·) := by
    refine List.pairwise_append.2 ⟨hsA, hsB, ?_⟩
    intro a ha b hb
    rw [hA, List.mem_insertionSort, List.mem_map] at ha
    rw [hB, List.mem_insertionSort, List.mem_map] at hb
    obtain ⟨x, hx, rfl⟩ := ha
    obtain ⟨y, hy, rfl⟩ := hb
    exact h.le x hx y hy
  have hperm : (A ++ B).Perm ((ins.map Knn.dist).insertionSort (· ≤ ·)) := by
    have h1 : (A ++ B).Perm (r.heap.map Knn.dist ++ rej.map Knn.dist) :=
      (List.perm_insertionSort _ _).append (List.perm_insertionSort _ _)
    have h2 : (r.heap.map Knn.dist ++ rej.map Knn.dist).Perm (ins.map Knn.dist) := by
      rw [← List.map_append]
      exact h.perm.map _
    exact (h1.trans h2).trans (List.perm_insertionSort _ _).symm
  have heq := List.eq_of_perm_of_sorted hperm hAB (List.sorted_insertionSort _ _)
  rw [← heq, ← h.len]
  have hlenA : A.length = r.heap.length := by
    rw [hA, List.length_insertionSort, List.length_map]
  rw [List.take_left' hlenA]
  exact (List.perm_insertionSort _ _).symm

/-- Under the invariant no held distance exceeds `maxDist()`. -/
theorem KnnResult.Inv.le_maxDist (scalarMax : S) {K : Int} {r : KnnResult S}
    {rej ins : List (Knn S)} (h : KnnResult.Inv K r rej ins) :
    ∀ x ∈ r.heap, x.dist ≤ r.maxDist scalarMax := by
  obtain ⟨K0, heap⟩ := r
  cases heap with
  | nil => intro x hx; cases hx
  | cons m rest =>
    intro x hx
    simp only [KnnResult.maxDist]
    exact Knn.ge_dist (is_heap_head h.heap x hx)

/-! ## The three branches of `insert` -/

/-- Below capacity `insert` pushes the pair and returns true. -/
theorem KnnResult.insert_below (scalarMax : S) {K : Int} (hK : 0 ≤ K) (heap : List (Knn S))
    (hlt : heap.length < K.toNat) (i : Nat) (dd : S) :
    (⟨K, heap⟩ : KnnResult S).insert scalarMax i dd =
      .ret (⟨K, push_heap (heap ++ [⟨i, dd⟩])⟩, true) := by
  have hf : (⟨K, heap⟩ : KnnResult S).full = false := by
    rw [← Bool.not_eq_true, KnnResult.full_iff hK _ rfl]
    exact not_le.2 hlt
  simp [KnnResult.insert, hf]

/-- At capacity a strictly smaller distance evicts the first element of the vector. -/
theorem KnnResult.insert_evict (scalarMax : S) {K : Int} (hK : 0 ≤ K) (m : Knn S)
    (rest : List (Knn S)) (hge : K.toNat ≤ (m :: rest).length) (i : Nat) (dd : S)
    (hd : dd < m.dist) :
    (⟨K, m :: rest⟩ : KnnResult S).insert scalarMax i dd =
      .ret (⟨K, push_heap ((pop_heap (m :: rest)).dropLast ++ [⟨i, dd⟩])⟩, true) := by
  have hf : (⟨K, m :: rest⟩ : KnnResult S).full = true := (KnnResult.full_iff hK _ rfl).2 hge
  simp [KnnResult.insert, hf, KnnResult.maxDist, hd]

/-- At capacity a distance that is not strictly smaller is rejected. -/
theorem KnnResult.insert_reject (scalarMax : S) {K : Int} (hK : 0 ≤ K) (m : Knn S)
    (rest : List (Knn S)) (hge : K.toNat ≤ (m :: rest).length) (i : Nat) (dd : S)
    (hd : ¬ dd < m.dist) :
    (⟨K, m :: rest⟩ : KnnResult S).insert scalarMax i dd = .ret (⟨K, m :: rest⟩, false) := by
  have hf : (⟨K, m :: rest⟩ : KnnResult S).full = true := (KnnResult.full_iff hK _ rfl).2 hge
  simp [KnnResult.insert, hf, KnnResult.maxDist, hd]

/-- A fresh container of a capacity below one is `⟨0, []⟩`. -/
theorem KnnResult.new_zero {k : Int} (hk : k ≤ 0) : (KnnResult.new k : KnnResult S) = ⟨0, []⟩ := by
  simp [KnnResult.new, KnnResult.setK, max_eq_right hk]

/-- With capacity zero and an empty heap, `insert` of a distance below the largest scalar
runs the eviction on the empty heap; any other distance is rejected. -/
theorem KnnResult.insert_zero (scalarMax : S) (i : Nat) (dd : S) :
    (⟨0, []⟩ : KnnResult S).insert scalarMax i dd =
      if dd < scalarMax then .undef else .ret (⟨0, []⟩, false) := by
  by_cases h : dd < scalarMax
  · simp [KnnResult.insert, KnnResult.full, KnnResult.size, KnnResult.maxDist, h]
  · simp [KnnResult.insert, KnnResult.full, KnnResult.size, KnnResult.maxDist, h]

/-- With capacity zero a sequence of `insert` calls that returns leaves the container
empty. -/
theorem KnnResult.insertAll_zero (scalarMax : S) (xs : List (Knn S)) {r : KnnResult S}
    (h : (⟨0, []⟩ : KnnResult S).insertAll scalarMax xs = .ret r) : r = ⟨0, []⟩ := by
  induction xs with
  | nil =>
    simp only [KnnResult.insertAll, Run.ret.injEq] at h
    exact h.symm
  | cons x xs ih =>
    rw [KnnResult.insertAll, KnnResult.insert_zero] at h
    by_cases hd : x.dist < scalarMax
    · rw [if_pos hd] at h
      cases h
    · rw [if_neg hd] at h
      exact ih h

/-- A container reached from a fresh one of capacity at least one satisfies the
invariant for the inserted pairs. -/
theorem KnnResult.reach_inv (scalarMax : S) {K : Int} (hK : 1 ≤ K) {xs : List (Knn S)}
    {r : KnnResult S} (h : (KnnResult.new K).insertAll scalarMax xs = .ret r) :
    ∃ rej, KnnResult.Inv K r rej xs := by
  obtain ⟨r', rej, hr', hinv⟩ :=
    KnnResult.insertAll_inv scalarMax hK xs (KnnResult.Inv.new (le_trans (by decide) hK))
  rw [hr'] at h
  cases h
  exact ⟨rej, by simpa using hinv⟩

/-- A container reached from a fresh one, of any capacity, holds a heap. -/
theorem KnnResult.reach_heap (scalarMax : S) {K : Int} {xs : List (Knn S)} {r : KnnResult S}
    (h : (KnnResult.new K).insertAll scalarMax xs = .ret r) : is_heap r.heap := by
  by_cases hK : 1 ≤ K
  · obtain ⟨rej, hinv⟩ := KnnResult.reach_inv scalarMax hK h
    exact hinv.heap
  · rw [KnnResult.new_zero (by omega)] at h
    rw [KnnResult.insertAll_zero scalarMax xs h]
    exact is_heap_nil

/-- After `sort()` the vector of a container that held a heap is ascending. -/
theorem KnnResult.sort_sorted {r : KnnResult S} (h : is_heap r.heap) :
    r.sort.heap.Sorted Knn.le :=
  (sort_heap_spec h).1

/-- Source `sort()` keeps the pairs of a container that held a heap. -/
theorem KnnResult.sort_perm {r : KnnResult S} (h : is_heap r.heap) :
    r.sort.heap.Perm r.heap :=
  (sort_heap_spec h).2

/-- A sequence of `insert` calls with its flags: the final container is the one of
`insertAll`, and when the container held `min K A` pairs before, it holds
`min K (A + number of true flags)` pairs after. -/
theorem KnnResult.insertFlags_spec (scalarMax : S) {K : Int} (hK : 1 ≤ K)
    (xs : List (Knn S)) :
    ∀ (r : KnnResult S) (rej ins : List (Knn S)) (A : Nat), KnnResult.Inv K r rej ins →
      r.heap.length = min K.toNat A →
      ∃ r' rej' flags, r.insertFlags scalarMax xs = .ret (r', flags) ∧
        r.insertAll scalarMax xs = .ret r' ∧
        flags.length = xs.length ∧ KnnResult.Inv K r' rej' (ins ++ xs) ∧
        r'.heap.length = min K.toNat (A + flags.count true) := by
  induction xs with
  | nil =>
    intro r rej ins A h hA
    exact ⟨r, rej, [], rfl, rfl, rfl, by simpa using h, by simpa using hA⟩
  | cons x xs ih =>
    intro r rej ins A h hA
    obtain ⟨r1, b, rej1, h1, hinv1⟩ := KnnResult.insert_inv scalarMax hK h x.idx x.dist
    have hb : r.heap.length < K.toNat → b = true := by
      intro hlt
      obtain ⟨K0, heap⟩ := r
      have hcap : K0 = K := h.cap
      subst hcap
      rw [KnnResult.insert_below scalarMax (le_trans (by decide) hK) heap hlt] at h1
      simp only [Run.ret.injEq, Prod.mk.injEq] at h1
      exact h1.2.symm
    have hlen := h.len
    have hlen1 := hinv1.len
    simp only [List.length_cons] at hlen1
    have hA1 : r1.heap.length = min K.toNat (A + (if b then 1 else 0)) := by
      by_cases hlt : r.heap.length < K.toNat
      · rw [hb hlt]
        simp only [if_true]
        omega
      · cases b <;> simp only [Bool.false_eq_true, if_false, if_true] <;> omega
    obtain ⟨r2, rej2, flags, h2, h2', hfl, hinv2, hA2⟩ := ih r1 rej1 _ _ hinv1 hA1
    refine ⟨r2, rej2, b :: flags, ?_, ?_, by simp [hfl], ?_, ?_⟩
    · simp [KnnResult.insertFlags, h1, Run.bind, h2]
    · simp [KnnResult.insertAll, h1, Run.bind, h2']
    · refine hinv2.of_perm ?_
      have : (⟨x.idx, x.dist⟩ : Knn S) = x := rfl
      rw [this]
      simp only [List.cons_append]
      exact (List.perm_middle).symm
    · rw [hA2]
      cases b
      · simp
      · simp only [if_true, List.count_cons_self]
        omega

end Container

/-! ## Geometry -/

section Geometry

variable {S : Type} [LinearOrderedField S] {d : Nat}

theorem IsSqrt.nonneg {sqrt : S → S} (h : IsSqrt sqrt) : SqrtNonneg sqrt :=
  fun x hx => (h x hx).1

theorem dot_comm (v w : Vec d S) : dot v w = dot w v := by
  unfold dot
  exact Finset.sum_congr rfl fun i _ => mul_comm _ _

theorem dot_sub_right (a q p : Vec d S) : dot a (q - p) = dot a q - dot a p := by
  unfold dot
  rw [← Finset.sum_sub_distrib]
  exact Finset.sum_congr rfl fun i _ => by simp [mul_sub]

theorem dot_zero_left (v : Vec d S) : dot (0 : Vec d S) v = 0 := by
  simp [dot]

theorem squaredNorm_nonneg (v : Vec d S) : 0 ≤ squaredNorm v := by
  unfold squaredNorm dot
  exact Finset.sum_nonneg fun i _ => mul_self_nonneg _

theorem squaredNorm_sub_comm (v w : Vec d S) : squaredNorm (v - w) = squaredNorm (w - v) := by
  unfold squaredNorm dot
  exact Finset.sum_congr rfl fun i _ => by simp only [Pi.sub_apply]; ring

theorem distance_comm (sqrt : S → S) (v w : Vec d S) :
    distance sqrt v w = distance sqrt w v := by
  unfold distance norm
  rw [squaredNorm_sub_comm]

theorem distance_nonneg {sqrt : S → S} (h0 : SqrtNonneg sqrt) (v w : Vec d S) :
    0 ≤ distance sqrt v w :=
  h0 _ (squaredNorm_nonneg _)

theorem distance_self (sqrt : S → S) (v : Vec d S) : distance sqrt v v = sqrt 0 := by
  simp [distance, norm, squaredNorm, dot]

/-- Cauchy-Schwarz for `dot`. -/
theorem dot_sq_le (a w : Vec d S) : dot a w ^ 2 ≤ squaredNorm a * squaredNorm w := by
  unfold squaredNorm dot
  have h := Finset.sum_mul_sq_le_sq_mul_sq Finset.univ a w
  simpa [pow_two] using h

theorem squaredNorm_normalized_le_one {sqrt : S → S} (hs : IsSqrt sqrt) (v : Vec d S) :
    squaredNorm (normalized sqrt v) ≤ 1 := by
  unfold normalized
  by_cases hz : 0 < squaredNorm v
  · rw [if_pos hz]
    obtain ⟨_, hmul⟩ := hs _ (le_of_lt hz)
    have hne : sqrt (squaredNorm v) ≠ 0 := by
      intro h0
      rw [h0, mul_zero] at hmul
      exact (ne_of_gt hz) hmul.symm
    have : squaredNorm (fun i => v i / sqrt (squaredNorm v))
        = squaredNorm v / (sqrt (squaredNorm v) * sqrt (squaredNorm v)) := by
      unfold squaredNorm dot
      rw [Finset.sum_div]
      exact Finset.sum_congr rfl fun i _ => by field_simp
    rw [this, hmul, div_self (ne_of_gt hz)]
  · rw [if_neg hz]
    exact le_trans (not_lt.1 hz) zero_le_one

/-- The projection of `q - p` on a direction of norm at most one is at most the distance. -/
theorem abs_dot_sub_le_distance {sqrt : S → S} (hs : IsSqrt sqrt) {a : Vec d S}
    (ha : squaredNorm a ≤ 1) (q p : Vec d S) : |dot a (q - p)| ≤ distance sqrt q p := by
  obtain ⟨hD0, hDD⟩ := hs _ (squaredNorm_nonneg (q - p))
  have h1 : dot a (q - p) ^ 2 ≤ squaredNorm (q - p) :=
    le_trans (dot_sq_le a (q - p))
      (by simpa using mul_le_mul_of_nonneg_right ha (squaredNorm_nonneg (q - p)))
  have h2 : dot a (q - p) ^ 2 ≤ distance sqrt q p ^ 2 := by
    unfold distance norm
    rw [pow_two (sqrt _), hDD]
    exact h1
  exact abs_le_of_sq_le_sq h2 hD0

/-- A point inside a constraint whose direction has norm at most one is at least as far
from `q` as the constraint's hyperplane whenever `q` violates the constraint. -/
theorem distanceHp_le_distance {sqrt : S → S} (hs : IsSqrt sqrt) {ct : Constraint d S}
    (ha : squaredNorm ct.hp.a ≤ 1) {q p : Vec d S} (hp : inside p ct = true)
    (hq : inside q ct = false) : distanceHp q ct.hp ≤ distance sqrt q p := by
  have hab := abs_dot_sub_le_distance hs ha q p
  rw [dot_sub_right] at hab
  unfold distanceHp
  rw [dot_comm q ct.hp.a]
  unfold inside at hp hq
  have hle := abs_le.1 hab
  cases hflag : ct.less_equal
  · simp only [hflag, Bool.false_eq_true, if_false, decide_eq_true_eq, decide_eq_false_iff_not,
      ge_iff_le, not_le] at hp hq
    rw [abs_le]
    constructor <;> linarith [hle.1, hle.2]
  · simp only [hflag, if_true, decide_eq_true_eq, decide_eq_false_iff_not, not_le] at hp hq
    rw [abs_le]
    constructor <;> linarith [hle.1, hle.2]

/-- Bound soundness for one node: when `p` is inside every constraint of the node and
every constraint direction has norm at most one, `distance(q, node) ≤ distance(q, p)`. -/
theorem distanceNode_le_distance {sqrt : S → S} (hs : IsSqrt sqrt) (node : Node d S)
    (q p : Vec d S)
    (h : ∀ ct ∈ node.constraints, inside p ct = true ∧ squaredNorm ct.hp.a ≤ 1) :
    distanceNode q node ≤ distance sqrt q p := by
  unfold distanceNode
  have key : ∀ (cts : List (Constraint d S)) (acc : S),
      (∀ ct ∈ cts, inside p ct = true ∧ squaredNorm ct.hp.a ≤ 1) →
      acc ≤ distance sqrt q p →
      cts.foldl (fun dist ct => if !inside q ct then max dist (distanceHp q ct.hp) else dist)
        acc ≤ distance sqrt q p := by
    intro cts
    induction cts with
    | nil => intro acc _ hacc; simpa using hacc
    | cons ct cts ih =>
      intro acc hall hacc
      simp only [List.foldl_cons]
      apply ih _ (fun c hc => hall c (List.mem_cons_of_mem _ hc))
      by_cases hq : inside q ct = true
      · simpa [hq] using hacc
      · have hq' : inside q ct = false := by simpa using hq
        simp only [hq', Bool.not_false, if_true]
        obtain ⟨h1, h2⟩ := hall ct (List.mem_cons_self _ _)
        exact max_le hacc (distanceHp_le_distance hs h2 h1 hq')
  exact key _ 0 h (distance_nonneg hs.nonneg q p)

theorem squaredNorm_eq_zero {v : Vec d S} (h : squaredNorm v = 0) : v = 0 := by
  unfold squaredNorm dot at h
  have h1 := (Finset.sum_eq_zero_iff_of_nonneg (fun i _ => mul_self_nonneg (v i))).1 h
  funext i
  exact mul_self_eq_zero.1 (h1 i (Finset.mem_univ i))

theorem squaredNorm_pos {v : Vec d S} (h : v ≠ 0) : 0 < squaredNorm v :=
  lt_of_le_of_ne (squaredNorm_nonneg v) fun h0 => h (squaredNorm_eq_zero h0.symm)

theorem IsSqrt.sqrt_zero {sqrt : S → S} (hs : IsSqrt sqrt) : sqrt 0 = 0 :=
  mul_self_eq_zero.1 (hs 0 (le_refl 0)).2

theorem IsSqrt.sqrt_pos {sqrt : S → S} (hs : IsSqrt sqrt) {x : S} (hx : 0 < x) :
    0 < sqrt x := by
  obtain ⟨h0, hmul⟩ := hs x (le_of_lt hx)
  refine lt_of_le_of_ne h0 ?_
  intro h
  rw [← h, mul_zero] at hmul
  exact (ne_of_gt hx) hmul.symm

/-- With an exact square root, two points at distance at most zero are equal. -/
theorem eq_of_distance_le_zero {sqrt : S → S} (hs : IsSqrt sqrt) {v w : Vec d S}
    (h : distance sqrt v w ≤ 0) : v = w := by
  obtain ⟨h0, hmul⟩ := hs _ (squaredNorm_nonneg (v - w))
  have hz : sqrt (squaredNorm (v - w)) = 0 := le_antisymm h h0
  rw [hz, mul_zero] at hmul
  exact sub_eq_zero.1 (squaredNorm_eq_zero hmul.symm)

theorem dot_div_left (n v : Vec d S) (s : S) : dot (fun i => n i / s) v = dot n v / s := by
  unfold dot
  rw [Finset.sum_div]
  exact Finset.sum_congr rfl fun i _ => by ring

theorem dot_half_add (n p q : Vec d S) :
    dot n (fun j => (p j + q j) / 2) = (dot n p + dot n q) / 2 := by
  unfold dot
  rw [← Finset.sum_add_distrib, Finset.sum_div]
  exact Finset.sum_congr rfl fun i _ => by ring

/-- With an exact square root, when the two picks are different points the first pick is
strictly on the `>` side of their hyperplane and the second strictly on the `<=` side. -/
theorem splitPlane_sides {sqrt : S → S} (hs : IsSqrt sqrt) (point : Nat → Vec d S)
    {ip iq : Nat} (hne : point ip ≠ point iq) :
    (splitPlane sqrt point ip iq).b < dot (splitPlane sqrt point ip iq).a (point ip) ∧
      dot (splitPlane sqrt point ip iq).a (point iq) < (splitPlane sqrt point ip iq).b := by
  have hn : point ip - point iq ≠ 0 := sub_ne_zero.2 hne
  have hz := squaredNorm_pos hn
  have hspos := hs.sqrt_pos hz
  have ha : (splitPlane sqrt point ip iq).a
      = fun i => (point ip - point iq) i / sqrt (squaredNorm (point ip - point iq)) := by
    simp only [splitPlane, normalized, if_pos hz]
  have hb : (splitPlane sqrt point ip iq).b
      = dot (splitPlane sqrt point ip iq).a (fun j => (point ip j + point iq j) / 2) := rfl
  have hzd : dot (point ip - point iq) (point ip) - dot (point ip - point iq) (point iq)
      = squaredNorm (point ip - point iq) := by
    rw [← dot_sub_right]
    rfl
  rw [hb, ha, dot_div_left, dot_div_left, dot_div_left, dot_half_add]
  constructor
  · rw [div_lt_div_iff_of_pos_right hspos]
    linarith
  · rw [div_lt_div_iff_of_pos_right hspos]
    linarith

end Geometry

/-! ## `refineConstraints` -/

section Refine

variable {S : Type} [LinearOrderedField S] {d : Nat} (point : Nat → Vec d S)

theorem Run.bind_ret {α β : Type} (a : α) (f : α → Run β) : (Run.ret a).bind f = f a := rfl

theorem Run.bind_eq_ret {α β : Type} {x : Run α} {f : α → Run β} {b : β}
    (h : x.bind f = .ret b) : ∃ a, x = .ret a ∧ f a = .ret b := by
  cases x with
  | ret a => exact ⟨a, rfl, h⟩
  | undef => cases h
  | fuelOut => cases h

theorem inside_le {v : Vec d S} {ct : Constraint d S} (h : ct.less_equal = true) :
    inside v ct = true ↔ dot ct.hp.a v ≤ ct.hp.b := by
  simp [inside, h]

theorem inside_ge {v : Vec d S} {ct : Constraint d S} (h : ct.less_equal = false) :
    inside v ct = true ↔ ct.hp.b ≤ dot ct.hp.a v := by
  simp [inside, h]

/-- One step of the first loop of `refineConstraints`. -/
theorem widen_cons (i : Nat) (idxs : List Nat) (ct : Constraint d S) :
    widen point (i :: idxs) ct =
      widen point idxs (if !inside (point i) ct then
        ⟨⟨ct.hp.a, dot ct.hp.a (point i)⟩, ct.less_equal⟩ else ct) := rfl

/-- The first loop keeps direction and side, only enlarges the half-space, and leaves
every point of the node inside. -/
theorem widen_spec (idxs : List Nat) : ∀ ct : Constraint d S,
    (widen point idxs ct).hp.a = ct.hp.a ∧ (widen point idxs ct).less_equal = ct.less_equal ∧
    (∀ v, inside v ct = true → inside v (widen point idxs ct) = true) ∧
    ∀ i ∈ idxs, inside (point i) (widen point idxs ct) = true := by
  induction idxs with
  | nil => intro ct; exact ⟨rfl, rfl, fun _ h => h, fun _ h => absurd h (List.not_mem_nil _)⟩
  | cons i idxs ih =>
    intro ct
    rw [widen_cons]
    by_cases hin : inside (point i) ct = true
    · simp only [hin, Bool.not_true, Bool.false_eq_true, if_false]
      obtain ⟨h1, h2, h3, h4⟩ := ih ct
      refine ⟨h1, h2, h3, ?_⟩
      intro j hj
      rcases List.mem_cons.1 hj with rfl | hj
      · exact h3 _ hin
      · exact h4 j hj
    · have hin' : inside (point i) ct = false := by simpa using hin
      simp only [hin', Bool.not_false, if_true]
      obtain ⟨h1, h2, h3, h4⟩ := ih ⟨⟨ct.hp.a, dot ct.hp.a (point i)⟩, ct.less_equal⟩
      have hstep : ∀ v, inside v ct = true →
          inside v ⟨⟨ct.hp.a, dot ct.hp.a (point i)⟩, ct.less_equal⟩ = true := by
        intro v hv
        cases hflag : ct.less_equal
        · rw [inside_ge hflag] at hv
          have hi : ¬ ct.hp.b ≤ dot ct.hp.a (point i) := by
            rw [← inside_ge hflag]; simpa using hin'
          rw [inside_ge rfl]
          exact le_trans (le_of_lt (not_le.1 hi)) hv
        · rw [inside_le hflag] at hv
          have hi : ¬ dot ct.hp.a (point i) ≤ ct.hp.b := by
            rw [← inside_le hflag]; simpa using hin'
          rw [inside_le rfl]
          exact le_trans hv (le_of_lt (not_le.1 hi))
      have hself : inside (point i) ⟨⟨ct.hp.a, dot ct.hp.a (point i)⟩, ct.less_equal⟩ = true := by
        cases hflag : ct.less_equal
        · rw [inside_ge rfl]
        · rw [inside_le rfl]
      refine ⟨h1, h2, fun v hv => h3 v (hstep v hv), ?_⟩
      intro j hj
      rcases List.mem_cons.1 hj with rfl | hj
      · exact h3 _ hself
      · exact h4 j hj

/-- The fold of the second loop of `refineConstraints` from any state. -/
theorem closest_fold (hp : Hyperplane d S) (idxs : List Nat) :
    ∀ st : WithTop S × Option Nat,
      (∀ i ∈ idxs, (idxs.foldl
          (fun st i => if ((distanceHp (point i) hp : S) : WithTop S) < st.1
            then (((distanceHp (point i) hp : S) : WithTop S), some i) else st) st).1
          ≤ ((distanceHp (point i) hp : S) : WithTop S)) ∧
      (idxs.foldl
          (fun st i => if ((distanceHp (point i) hp : S) : WithTop S) < st.1
            then (((distanceHp (point i) hp : S) : WithTop S), some i) else st) st).1 ≤ st.1 ∧
      ((idxs.foldl
          (fun st i => if ((distanceHp (point i) hp : S) : WithTop S) < st.1
            then (((distanceHp (point i) hp : S) : WithTop S), some i) else st) st) = st ∨
        ∃ idx ∈ idxs, (idxs.foldl
          (fun st i => if ((distanceHp (point i) hp : S) : WithTop S) < st.1
            then (((distanceHp (point i) hp : S) : WithTop S), some i) else st) st)
          = (((distanceHp (point idx) hp : S) : WithTop S), some idx)) := by
  induction idxs with
  | nil => intro st; exact ⟨fun _ h => absurd h (List.not_mem_nil _), le_refl _, Or.inl rfl⟩
  | cons i idxs ih =>
    intro st
    simp only [List.foldl_cons]
    by_cases hlt : ((distanceHp (point i) hp : S) : WithTop S) < st.1
    · simp only [hlt, if_true]
      obtain ⟨h1, h2, h3⟩ := ih (((distanceHp (point i) hp : S) : WithTop S), some i)
      refine ⟨?_, le_trans h2 (le_of_lt hlt), ?_⟩
      · intro j hj
        rcases List.mem_cons.1 hj with rfl | hj
        · exact h2
        · exact h1 j hj
      · right
        rcases h3 with h3 | ⟨idx, hidx, h3⟩
        · exact ⟨i, List.mem_cons_self _ _, h3⟩
        · exact ⟨idx, List.mem_cons_of_mem _ hidx, h3⟩
    · simp only [hlt, if_false]
      obtain ⟨h1, h2, h3⟩ := ih st
      refine ⟨?_, h2, ?_⟩
      · intro j hj
        rcases List.mem_cons.1 hj with rfl | hj
        · exact le_trans h2 (not_lt.1 hlt)
        · exact h1 j hj
      · rcases h3 with h3 | ⟨idx, hidx, h3⟩
        · exact Or.inl h3
        · exact Or.inr ⟨idx, List.mem_cons_of_mem _ hidx, h3⟩

/-- On a non-empty node the second loop finds an index of the node whose point is
closest to the hyperplane. -/
theorem closest_spec (hp : Hyperplane d S) {idxs : List Nat} (hne : idxs ≠ []) :
    ∃ idx ∈ idxs, (closest point idxs hp).2 = some idx ∧
      ∀ i ∈ idxs, distanceHp (point idx) hp ≤ distanceHp (point i) hp := by
  obtain ⟨h1, _, h3⟩ := closest_fold point hp idxs (⊤, none)
  obtain ⟨i0, hi0⟩ := List.exists_mem_of_ne_nil idxs hne
  have hlt := lt_of_le_of_lt (h1 i0 hi0) (WithTop.coe_lt_top _)
  rcases h3 with h3 | ⟨idx, hidx, h3⟩
  · rw [h3] at hlt
    exact absurd hlt (lt_irrefl _)
  · refine ⟨idx, hidx, ?_, ?_⟩
    · unfold closest
      rw [h3]
    · intro i hi
      have := h1 i hi
      rw [h3] at this
      exact WithTop.coe_le_coe.1 this

/-- On a non-empty node the body of `refineConstraints` returns, and its result is the
refined constraint. -/
theorem refineConstraint_spec {idxs : List Nat} (hne : idxs ≠ []) (ct : Constraint d S) :
    ∃ c, refineConstraint point idxs ct = .ret c ∧ Refined point idxs ct c := by
  obtain ⟨ha, hf, _, hin⟩ := widen_spec point idxs ct
  obtain ⟨idx, hidx, hc, hmin⟩ := closest_spec point (widen point idxs ct).hp hne
  refine ⟨⟨⟨(widen point idxs ct).hp.a, dot (widen point idxs ct).hp.a (point idx)⟩,
      (widen point idxs ct).less_equal⟩, ?_, ha, hf, ⟨idx, hidx, by rw [ha]⟩, ?_⟩
  · unfold refineConstraint
    rw [hc]
  · intro i hi
    have hi1 := hin i hi
    have hx1 := hin idx hidx
    have hm := hmin i hi
    unfold distanceHp at hm
    rw [dot_comm (point idx), dot_comm (point i)] at hm
    cases hflag : (widen point idxs ct).less_equal
    · rw [inside_ge hflag] at hi1 hx1
      rw [inside_ge rfl]
      rw [abs_of_nonneg (sub_nonneg.2 hx1), abs_of_nonneg (sub_nonneg.2 hi1)] at hm
      linarith
    · rw [inside_le hflag] at hi1 hx1
      rw [inside_le rfl]
      rw [abs_of_nonpos (sub_nonpos.2 hx1), abs_of_nonpos (sub_nonpos.2 hi1)] at hm
      linarith

theorem refineConstraint_nil (ct : Constraint d S) :
    refineConstraint point [] ct = .undef := rfl

/-- On a non-empty node `refineConstraints` returns the list of refined constraints. -/
theorem refineConstraints_spec {idxs : List Nat} (hne : idxs ≠ []) :
    ∀ cts : List (Constraint d S), ∃ cs, refineConstraints point idxs cts = .ret cs ∧
      List.Forall₂ (Refined point idxs) cts cs := by
  intro cts
  induction cts with
  | nil => exact ⟨[], rfl, List.Forall₂.nil⟩
  | cons ct cts ih =>
    obtain ⟨c, hc, hR⟩ := refineConstraint_spec point hne ct
    obtain ⟨cs, hcs, hRs⟩ := ih
    exact ⟨c :: cs, by simp [refineConstraints, hc, hcs, Run.bind], List.Forall₂.cons hR hRs⟩

/-- Whenever `refineConstraints` returns, it returns the refined constraints. -/
theorem refineConstraints_of_ret {idxs : List Nat} {cts cs : List (Constraint d S)}
    (h : refineConstraints point idxs cts = .ret cs) :
    List.Forall₂ (Refined point idxs) cts cs := by
  by_cases hne : idxs = []
  · subst hne
    cases cts with
    | nil =>
      simp only [refineConstraints, Run.ret.injEq] at h
      subst h
      exact List.Forall₂.nil
    | cons ct cts =>
      simp [refineConstraints, refineConstraint_nil, Run.bind] at h
  · obtain ⟨cs', hcs', hR⟩ := refineConstraints_spec point hne cts
    rw [hcs'] at h
    cases h
    exact hR

/-- The refinement returns when the node has a point or has no constraint. -/
theorem refineConstraints_ret {idxs : List Nat} {cts : List (Constraint d S)}
    (h : idxs = [] → cts = []) : ∃ cs, refineConstraints point idxs cts = .ret cs := by
  by_cases hne : idxs = []
  · rw [h hne]
    exact ⟨[], rfl⟩
  · obtain ⟨cs, hcs, _⟩ := refineConstraints_spec point hne cts
    exact ⟨cs, hcs⟩

/-- Members of the refined list come from members of the original list. -/
theorem Refined.of_mem {idxs : List Nat} {cts cs : List (Constraint d S)}
    (h : List.Forall₂ (Refined point idxs) cts cs) {c : Constraint d S} (hc : c ∈ cs) :
    ∃ ct ∈ cts, Refined point idxs ct c := by
  induction h with
  | nil => cases hc
  | cons h1 _ ih =>
    rcases List.mem_cons.1 hc with rfl | hc
    · exact ⟨_, List.mem_cons_self _ _, h1⟩
    · obtain ⟨ct, hct, hR⟩ := ih hc
      exact ⟨ct, List.mem_cons_of_mem _ hct, hR⟩

end Refine

/-! ## `splitTree` -/

section Split

variable {S : Type} [LinearOrderedField S] {d : Nat} (sqrt : S → S) (point : Nat → Vec d S)

/-- The fold of a farthest-point loop of `splitTree` from any state: either no entry
beat the state, or the result is the first entry at the greatest distance. -/
theorem farthest_fold (c : Nat) (idxs : List Nat) :
    ∀ st : Option Nat × S,
      ((idxs.foldl
          (fun st i => if i = c then st
            else if st.2 < distance sqrt (point i) (point c)
              then (some i, distance sqrt (point i) (point c)) else st) st) = st ∧
        ∀ i ∈ idxs, i ≠ c → distance sqrt (point i) (point c) ≤ st.2) ∨
      ∃ ip ∈ idxs, ip ≠ c ∧
        (idxs.foldl
          (fun st i => if i = c then st
            else if st.2 < distance sqrt (point i) (point c)
              then (some i, distance sqrt (point i) (point c)) else st) st)
          = (some ip, distance sqrt (point ip) (point c)) ∧
        st.2 < distance sqrt (point ip) (point c) ∧
        ∀ i ∈ idxs, i ≠ c →
          distance sqrt (point i) (point c) ≤ distance sqrt (point ip) (point c) := by
  induction idxs with
  | nil => intro st; exact Or.inl ⟨rfl, fun _ h => absurd h (List.not_mem_nil _)⟩
  | cons i idxs ih =>
    intro st
    simp only [List.foldl_cons]
    by_cases hic : i = c
    · simp only [hic, if_true]
      rcases ih st with ⟨h1, h2⟩ | ⟨ip, hip, hne, h1, h2, h3⟩
      · refine Or.inl ⟨h1, ?_⟩
        intro j hj hjc
        rcases List.mem_cons.1 hj with rfl | hj
        · exact absurd rfl hjc
        · exact h2 j hj hjc
      · refine Or.inr ⟨ip, List.mem_cons_of_mem _ hip, hne, h1, h2, ?_⟩
        intro j hj hjc
        rcases List.mem_cons.1 hj with rfl | hj
        · exact absurd rfl hjc
        · exact h3 j hj hjc
    · simp only [hic, if_false]
      by_cases hlt : st.2 < distance sqrt (point i) (point c)
      · simp only [hlt, if_true]
        rcases ih (some i, distance sqrt (point i) (point c)) with
          ⟨h1, h2⟩ | ⟨ip, hip, hne, h1, h2, h3⟩
        · refine Or.inr ⟨i, List.mem_cons_self _ _, hic, h1, hlt, ?_⟩
          intro j hj hjc
          rcases List.mem_cons.1 hj with rfl | hj
          · exact le_refl _
          · exact h2 j hj hjc
        · refine Or.inr ⟨ip, List.mem_cons_of_mem _ hip, hne, h1, lt_trans hlt h2, ?_⟩
          intro j hj hjc
          rcases List.mem_cons.1 hj with rfl | hj
          · exact le_of_lt h2
          · exact h3 j hj hjc
      · simp only [hlt, if_false]
        rcases ih st with ⟨h1, h2⟩ | ⟨ip, hip, hne, h1, h2, h3⟩
        · refine Or.inl ⟨h1, ?_⟩
          intro j hj hjc
          rcases List.mem_cons.1 hj with rfl | hj
          · exact not_lt.1 hlt
          · exact h2 j hj hjc
        · refine Or.inr ⟨ip, List.mem_cons_of_mem _ hip, hne, h1, h2, ?_⟩
          intro j hj hjc
          rcases List.mem_cons.1 hj with rfl | hj
          · exact le_trans (not_lt.1 hlt) (le_of_lt h2)
          · exact h3 j hj hjc

/-- A farthest-point loop over a list with an entry other than `c` picks an entry other
than `c` at the greatest distance from `point[c]`. -/
theorem farthest_spec (h0 : SqrtNonneg sqrt) (c : Nat) (idxs : List Nat)
    (hex : ∃ i ∈ idxs, i ≠ c) :
    ∃ ip ∈ idxs, ip ≠ c ∧ (farthest sqrt point idxs c).1 = some ip ∧
      ∀ i ∈ idxs, i ≠ c →
        distance sqrt (point i) (point c) ≤ distance sqrt (point ip) (point c) := by
  rcases farthest_fold sqrt point c idxs (none, -1) with ⟨_, h2⟩ | ⟨ip, hip, hne, h1, _, h3⟩
  · obtain ⟨i, hi, hic⟩ := hex
    have := h2 i hi hic
    have h00 := distance_nonneg h0 (point i) (point c)
    simp only at this
    linarith
  · refine ⟨ip, hip, hne, ?_, h3⟩
    unfold farthest
    rw [h1]

/-- Whatever a farthest-point loop picks is an entry of the list other than `c`. -/
theorem farthest_some (c : Nat) {idxs : List Nat} {ip : Nat}
    (h : (farthest sqrt point idxs c).1 = some ip) :
    ip ∈ idxs ∧ ip ≠ c ∧ ∀ i ∈ idxs, i ≠ c →
        distance sqrt (point i) (point c) ≤ distance sqrt (point ip) (point c) := by
  unfold farthest at h
  rcases farthest_fold sqrt point c idxs (none, -1) with ⟨h1, _⟩ | ⟨ip', hip, hne, h1, _, h3⟩
  · rw [h1] at h
    cases h
  · rw [h1] at h
    simp only [Option.some.injEq] at h
    subst h
    exact ⟨hip, hne, h3⟩

/-- The two sides of a split are a rearrangement of the node's indices. -/
theorem split_perm (hp : Hyperplane d S) (idxs : List Nat) :
    (splitLeft point hp idxs ++ splitRight point hp idxs).Perm idxs :=
  List.filter_append_perm _ idxs

theorem split_length (hp : Hyperplane d S) (idxs : List Nat) :
    (splitLeft point hp idxs).length + (splitRight point hp idxs).length = idxs.length := by
  have := (split_perm point hp idxs).length_eq
  simpa using this

/-- When both sides of a split are non-empty, both are strictly shorter than the node's
index list. -/
theorem split_shorter (hp : Hyperplane d S) (idxs : List Nat)
    (hl : splitLeft point hp idxs ≠ []) (hr : splitRight point hp idxs ≠ []) :
    (splitLeft point hp idxs).length < idxs.length ∧
      (splitRight point hp idxs).length < idxs.length := by
  have h := split_length point hp idxs
  have h1 := List.length_pos.2 hl
  have h2 := List.length_pos.2 hr
  omega

variable (MAX_LEAF_PNTS : Nat)

/-- The leaf branch of `splitTree`. -/
theorem splitTreeFuel_leaf (fuel : Nat) {idxs : List Nat} (cts : List (Constraint d S))
    (h : idxs.length ≤ MAX_LEAF_PNTS) :
    splitTreeFuel sqrt point MAX_LEAF_PNTS fuel idxs cts =
      (refineConstraints point idxs cts).bind fun c => .ret (.leaf idxs c) := by
  cases fuel <;> simp [splitTreeFuel, h]

/-- The split branch of `splitTree` once both picks are known. -/
theorem splitTreeFuel_split (fuel : Nat) {ix ip iq : Nat} {tl : List Nat}
    (cts : List (Constraint d S)) (h : ¬ (ix :: tl).length ≤ MAX_LEAF_PNTS)
    (hip : (farthest sqrt point (ix :: tl) ix).1 = some ip)
    (hiq : (farthest sqrt point (ix :: tl) ip).1 = some iq) :
    splitTreeFuel sqrt point MAX_LEAF_PNTS (fuel + 1) (ix :: tl) cts =
      if (splitLeft point (splitPlane sqrt point ip iq) (ix :: tl)).isEmpty
          || (splitRight point (splitPlane sqrt point ip iq) (ix :: tl)).isEmpty then
        (refineConstraints point (ix :: tl) cts).bind fun c => .ret (.leaf (ix :: tl) c)
      else
        (splitTreeFuel sqrt point MAX_LEAF_PNTS fuel
            (splitLeft point (splitPlane sqrt point ip iq) (ix :: tl))
            (cts ++ [⟨splitPlane sqrt point ip iq, true⟩])).bind fun l =>
        (splitTreeFuel sqrt point MAX_LEAF_PNTS fuel
            (splitRight point (splitPlane sqrt point ip iq) (ix :: tl))
            (cts ++ [⟨splitPlane sqrt point ip iq, false⟩])).bind fun r =>
        .ret (.inner l r) := by
  rw [splitTreeFuel]
  simp only [h, if_false, hip, hiq]

/-- The recursion budget never runs out when it is at least the length of the index list:
`splitTree` recurses only on strictly shorter lists. -/
theorem splitTreeFuel_ne_fuelOut : ∀ (fuel : Nat) (idxs : List Nat)
    (cts : List (Constraint d S)), idxs.length ≤ fuel →
    splitTreeFuel sqrt point MAX_LEAF_PNTS fuel idxs cts ≠ .fuelOut := by
  intro fuel
  induction fuel with
  | zero =>
    intro idxs cts h
    have h0 : idxs.length ≤ MAX_LEAF_PNTS := le_trans h (Nat.zero_le _)
    rw [splitTreeFuel_leaf sqrt point MAX_LEAF_PNTS 0 cts h0]
    have hnil : idxs = [] := List.eq_nil_of_length_eq_zero (Nat.le_zero.1 h)
    subst hnil
    cases cts with
    | nil => simp [refineConstraints, Run.bind]
    | cons ct cts => simp [refineConstraints, refineConstraint_nil, Run.bind]
  | succ fuel ih =>
    intro idxs cts h
    by_cases hlen : idxs.length ≤ MAX_LEAF_PNTS
    · rw [splitTreeFuel_leaf sqrt point MAX_LEAF_PNTS _ cts hlen]
      intro hb
      cases hr : refineConstraints point idxs cts with
      | ret c => rw [hr] at hb; cases hb
      | undef => rw [hr] at hb; cases hb
      | fuelOut =>
        exfalso
        by_cases hne : idxs = []
        · subst hne
          cases cts with
          | nil => cases hr
          | cons ct cts => simp [refineConstraints, refineConstraint_nil, Run.bind] at hr
        · obtain ⟨cs, hcs, _⟩ := refineConstraints_spec point hne cts
          rw [hcs] at hr
          cases hr
    · cases idxs with
      | nil => simp at hlen
      | cons ix tl =>
        cases hip : (farthest sqrt point (ix :: tl) ix).1 with
        | none =>
          rw [splitTreeFuel]
          simp only [hlen, if_false, hip]
          intro hb
          cases hb
        | some ip =>
          cases hiq : (farthest sqrt point (ix :: tl) ip).1 with
          | none =>
            rw [splitTreeFuel]
            simp only [hlen, if_false, hip, hiq]
            intro hb
            cases hb
          | some iq =>
            rw [splitTreeFuel_split sqrt point MAX_LEAF_PNTS fuel cts hlen hip hiq]
            by_cases hemp : ((splitLeft point (splitPlane sqrt point ip iq) (ix :: tl)).isEmpty
                || (splitRight point (splitPlane sqrt point ip iq) (ix :: tl)).isEmpty) = true
            · rw [if_pos hemp]
              obtain ⟨cs, hcs, _⟩ :=
                refineConstraints_spec point (List.cons_ne_nil ix tl) cts
              rw [hcs]
              simp [Run.bind]
            · rw [if_neg hemp]
              simp only [Bool.or_eq_true, List.isEmpty_iff, not_or] at hemp
              obtain ⟨hl, hr⟩ := split_shorter point _ _ hemp.1 hemp.2
              have h1 := ih (splitLeft point (splitPlane sqrt point ip iq) (ix :: tl))
                (cts ++ [⟨splitPlane sqrt point ip iq, true⟩]) (by omega)
              have h2 := ih (splitRight point (splitPlane sqrt point ip iq) (ix :: tl))
                (cts ++ [⟨splitPlane sqrt point ip iq, false⟩]) (by omega)
              intro hb
              cases hl' : splitTreeFuel sqrt point MAX_LEAF_PNTS fuel
                  (splitLeft point (splitPlane sqrt point ip iq) (ix :: tl))
                  (cts ++ [⟨splitPlane sqrt point ip iq, true⟩]) with
              | fuelOut => exact h1 hl'
              | undef => rw [hl'] at hb; cases hb
              | ret l =>
                rw [hl'] at hb
                cases hr' : splitTreeFuel sqrt point MAX_LEAF_PNTS fuel
                    (splitRight point (splitPlane sqrt point ip iq) (ix :: tl))
                    (cts ++ [⟨splitPlane sqrt point ip iq, false⟩]) with
                | fuelOut => exact h2 hr'
                | undef => rw [hr'] at hb; cases hb
                | ret r => rw [hr'] at hb; cases hb

/-- With non-negative distances, a threshold of at least one and distinct indices,
`splitTree` returns a node: no read at index -1 happens and the budget suffices. -/
theorem splitTreeFuel_ret (h0 : SqrtNonneg sqrt) (hM : 1 ≤ MAX_LEAF_PNTS) :
    ∀ (fuel : Nat) (idxs : List Nat) (cts : List (Constraint d S)), idxs.length ≤ fuel →
      idxs.Nodup → (idxs = [] → cts = []) →
      ∃ node, splitTreeFuel sqrt point MAX_LEAF_PNTS fuel idxs cts = .ret node := by
  intro fuel
  induction fuel with
  | zero =>
    intro idxs cts h _ hc
    have hlen : idxs.length ≤ MAX_LEAF_PNTS := le_trans h (Nat.zero_le _)
    rw [splitTreeFuel_leaf sqrt point MAX_LEAF_PNTS 0 cts hlen]
    obtain ⟨cs, hcs⟩ := refineConstraints_ret point hc
    exact ⟨.leaf idxs cs, by rw [hcs]; rfl⟩
  | succ fuel ih =>
    intro idxs cts h hnd hc
    by_cases hlen : idxs.length ≤ MAX_LEAF_PNTS
    · rw [splitTreeFuel_leaf sqrt point MAX_LEAF_PNTS _ cts hlen]
      obtain ⟨cs, hcs⟩ := refineConstraints_ret point hc
      exact ⟨.leaf idxs cs, by rw [hcs]; rfl⟩
    · cases idxs with
      | nil => simp at hlen
      | cons ix tl =>
        cases tl with
        | nil => simp only [List.length_singleton] at hlen; omega
        | cons j tl =>
          have hjx : j ≠ ix := by
            intro hjx
            rw [hjx] at hnd
            simp at hnd
          obtain ⟨ip, hipm, hipx, hip, _⟩ := farthest_spec sqrt point h0 ix
            (ix :: j :: tl) ⟨j, by simp, hjx⟩
          obtain ⟨iq, _, _, hiq, _⟩ := farthest_spec sqrt point h0 ip
            (ix :: j :: tl) ⟨ix, by simp, fun e => hipx e.symm⟩
          rw [splitTreeFuel_split sqrt point MAX_LEAF_PNTS fuel cts hlen hip hiq]
          by_cases hemp :
              ((splitLeft point (splitPlane sqrt point ip iq) (ix :: j :: tl)).isEmpty
                || (splitRight point (splitPlane sqrt point ip iq) (ix :: j :: tl)).isEmpty)
                = true
          · rw [if_pos hemp]
            obtain ⟨cs, hcs, _⟩ :=
              refineConstraints_spec point (List.cons_ne_nil ix (j :: tl)) cts
            exact ⟨.leaf _ cs, by rw [hcs]; rfl⟩
          · rw [if_neg hemp]
            simp only [Bool.or_eq_true, List.isEmpty_iff, not_or] at hemp
            obtain ⟨hl, hr⟩ := split_shorter point _ _ hemp.1 hemp.2
            obtain ⟨l, hl'⟩ := ih (splitLeft point (splitPlane sqrt point ip iq) (ix :: j :: tl))
              (cts ++ [⟨splitPlane sqrt point ip iq, true⟩]) (by omega)
              (hnd.filter _) (fun e => absurd e hemp.1)
            obtain ⟨r, hr'⟩ := ih
              (splitRight point (splitPlane sqrt point ip iq) (ix :: j :: tl))
              (cts ++ [⟨splitPlane sqrt point ip iq, false⟩]) (by omega)
              (hnd.filter _) (fun e => absurd e hemp.2)
            exact ⟨.inner l r, by rw [hl', hr']; rfl⟩

/-- Induction along the calls of `splitTree`: a property that holds for every leaf it
makes and passes from the two children of a split to the split node holds for every
node it returns. -/
theorem splitTreeFuel_induct
    {motive : List Nat → List (Constraint d S) → Node d S → Prop}
    (hleaf : ∀ idxs cts cs, refineConstraints point idxs cts = .ret cs →
      (idxs.length ≤ MAX_LEAF_PNTS ∨ ForcedLeaf sqrt point idxs) →
      motive idxs cts (.leaf idxs cs))
    (hinner : ∀ ix tl cts ip iq l r, ¬ (ix :: tl).length ≤ MAX_LEAF_PNTS →
      (farthest sqrt point (ix :: tl) ix).1 = some ip →
      (farthest sqrt point (ix :: tl) ip).1 = some iq →
      splitLeft point (splitPlane sqrt point ip iq) (ix :: tl) ≠ [] →
      splitRight point (splitPlane sqrt point ip iq) (ix :: tl) ≠ [] →
      motive (splitLeft point (splitPlane sqrt point ip iq) (ix :: tl))
        (cts ++ [⟨splitPlane sqrt point ip iq, true⟩]) l →
      motive (splitRight point (splitPlane sqrt point ip iq) (ix :: tl))
        (cts ++ [⟨splitPlane sqrt point ip iq, false⟩]) r →
      motive (ix :: tl) cts (.inner l r)) :
    ∀ (fuel : Nat) (idxs : List Nat) (cts : List (Constraint d S)) (node : Node d S),
      splitTreeFuel sqrt point MAX_LEAF_PNTS fuel idxs cts = .ret node →
      motive idxs cts node := by
  intro fuel
  induction fuel with
  | zero =>
    intro idxs cts node h
    by_cases hlen : idxs.length ≤ MAX_LEAF_PNTS
    · rw [splitTreeFuel_leaf sqrt point MAX_LEAF_PNTS 0 cts hlen] at h
      obtain ⟨cs, hcs, hn⟩ := Run.bind_eq_ret h
      cases hn
      exact hleaf idxs cts cs hcs (Or.inl hlen)
    · rw [splitTreeFuel] at h
      simp only [hlen, if_false] at h
      cases h
  | succ fuel ih =>
    intro idxs cts node h
    by_cases hlen : idxs.length ≤ MAX_LEAF_PNTS
    · rw [splitTreeFuel_leaf sqrt point MAX_LEAF_PNTS _ cts hlen] at h
      obtain ⟨cs, hcs, hn⟩ := Run.bind_eq_ret h
      cases hn
      exact hleaf idxs cts cs hcs (Or.inl hlen)
    · cases idxs with
      | nil => simp at hlen
      | cons ix tl =>
        cases hip : (farthest sqrt point (ix :: tl) ix).1 with
        | none =>
          rw [splitTreeFuel] at h
          simp only [hlen, if_false, hip] at h
          cases h
        | some ip =>
          cases hiq : (farthest sqrt point (ix :: tl) ip).1 with
          | none =>
            rw [splitTreeFuel] at h
            simp only [hlen, if_false, hip, hiq] at h
            cases h
          | some iq =>
            rw [splitTreeFuel_split sqrt point MAX_LEAF_PNTS fuel cts hlen hip hiq] at h
            by_cases hemp :
                ((splitLeft point (splitPlane sqrt point ip iq) (ix :: tl)).isEmpty
                  || (splitRight point (splitPlane sqrt point ip iq) (ix :: tl)).isEmpty)
                  = true
            · rw [if_pos hemp] at h
              obtain ⟨cs, hcs, hn⟩ := Run.bind_eq_ret h
              cases hn
              simp only [Bool.or_eq_true, List.isEmpty_iff] at hemp
              exact hleaf _ cts cs hcs (Or.inr ⟨ix, tl, ip, iq, rfl, hip, hiq, hemp⟩)
            · rw [if_neg hemp] at h
              simp only [Bool.or_eq_true, List.isEmpty_iff, not_or] at hemp
              obtain ⟨l, hl, h⟩ := Run.bind_eq_ret h
              obtain ⟨r, hr, h⟩ := Run.bind_eq_ret h
              cases h
              exact hinner ix tl cts ip iq l r hlen hip hiq hemp.1 hemp.2
                (ih _ _ _ hl) (ih _ _ _ hr)

/-- The leaves of the returned node hold a rearrangement of the node's indices. -/
theorem splitTreeFuel_perm (fuel : Nat) (idxs : List Nat) (cts : List (Constraint d S))
    (node : Node d S) (h : splitTreeFuel sqrt point MAX_LEAF_PNTS fuel idxs cts = .ret node) :
    ((genLeafs node).flatMap Node.idxs).Perm idxs := by
  refine splitTreeFuel_induct sqrt point MAX_LEAF_PNTS
    (motive := fun idxs _ node => ((genLeafs node).flatMap Node.idxs).Perm idxs)
    ?_ ?_ fuel idxs cts node h
  · intro idxs cts cs _ _
    simp [genLeafs, Node.idxs]
  · intro ix tl cts ip iq l r _ _ _ _ _ hl hr
    simp only [genLeafs, List.flatMap_append]
    exact (hl.append hr).trans (split_perm point _ _)

/-- Every node collected by `genLeafs` is a leaf. -/
theorem genLeafs_is_leaf : ∀ (node : Node d S), ∀ L ∈ genLeafs node, L.is_leaf = true := by
  intro node
  induction node with
  | leaf idxs cts =>
    intro L hL
    simp only [genLeafs, List.mem_singleton] at hL
    subst hL
    rfl
  | inner l r ihl ihr =>
    intro L hL
    simp only [genLeafs, List.mem_append] at hL
    rcases hL with hL | hL
    · exact ihl L hL
    · exact ihr L hL

/-- In the returned node every point of a leaf is inside every constraint of that leaf. -/
theorem splitTreeFuel_inside (fuel : Nat) (idxs : List Nat) (cts : List (Constraint d S))
    (node : Node d S) (h : splitTreeFuel sqrt point MAX_LEAF_PNTS fuel idxs cts = .ret node) :
    ∀ L ∈ genLeafs node, ∀ ct ∈ L.constraints, ∀ i ∈ L.idxs, inside (point i) ct = true := by
  refine splitTreeFuel_induct sqrt point MAX_LEAF_PNTS
    (motive := fun _ _ node => ∀ L ∈ genLeafs node, ∀ ct ∈ L.constraints, ∀ i ∈ L.idxs,
      inside (point i) ct = true)
    ?_ ?_ fuel idxs cts node h
  · intro idxs cts cs hcs _ L hL ct hct i hi
    simp only [genLeafs, List.mem_singleton] at hL
    subst hL
    obtain ⟨ct0, _, hR⟩ := Refined.of_mem point (refineConstraints_of_ret point hcs) hct
    exact hR.2.2.2 i hi
  · intro ix tl cts ip iq l r _ _ _ _ _ hl hr L hL
    simp only [genLeafs, List.mem_append] at hL
    rcases hL with hL | hL
    · exact hl L hL
    · exact hr L hL

/-- In the returned node every constraint direction of a leaf has norm at most one, when
the inherited directions do and the square root is exact. -/
theorem splitTreeFuel_normal (hs : IsSqrt sqrt) (fuel : Nat) (idxs : List Nat)
    (cts : List (Constraint d S)) (node : Node d S)
    (h : splitTreeFuel sqrt point MAX_LEAF_PNTS fuel idxs cts = .ret node)
    (hcts : ∀ ct ∈ cts, squaredNorm ct.hp.a ≤ 1) :
    ∀ L ∈ genLeafs node, ∀ ct ∈ L.constraints, squaredNorm ct.hp.a ≤ 1 := by
  refine splitTreeFuel_induct sqrt point MAX_LEAF_PNTS
    (motive := fun _ cts node => (∀ ct ∈ cts, squaredNorm ct.hp.a ≤ 1) →
      ∀ L ∈ genLeafs node, ∀ ct ∈ L.constraints, squaredNorm ct.hp.a ≤ 1)
    ?_ ?_ fuel idxs cts node h hcts
  · intro idxs cts cs hcs _ hall L hL ct hct
    simp only [genLeafs, List.mem_singleton] at hL
    subst hL
    obtain ⟨ct0, hct0, hR⟩ := Refined.of_mem point (refineConstraints_of_ret point hcs) hct
    rw [hR.1]
    exact hall ct0 hct0
  · intro ix tl cts ip iq l r _ _ _ _ _ hl hr hall L hL
    have hnew : squaredNorm (splitPlane sqrt point ip iq).a ≤ 1 :=
      squaredNorm_normalized_le_one hs _
    simp only [genLeafs, List.mem_append] at hL
    rcases hL with hL | hL
    · refine hl ?_ L hL
      intro ct hct
      rcases List.mem_append.1 hct with hct | hct
      · exact hall ct hct
      · simp only [List.mem_singleton] at hct
        subst hct
        exact hnew
    · refine hr ?_ L hL
      intro ct hct
      rcases List.mem_append.1 hct with hct | hct
      · exact hall ct hct
      · simp only [List.mem_singleton] at hct
        subst hct
        exact hnew

theorem genLeafs_ne_nil : ∀ node : Node d S, genLeafs node ≠ [] := by
  intro node
  induction node with
  | leaf idxs cts => simp [genLeafs]
  | inner l r ihl _ => simp [genLeafs, ihl]

/-- The leaves of the node returned for a non-empty index list are non-empty. -/
theorem splitTreeFuel_nonempty (fuel : Nat) (idxs : List Nat) (cts : List (Constraint d S))
    (node : Node d S) (h : splitTreeFuel sqrt point MAX_LEAF_PNTS fuel idxs cts = .ret node)
    (hne : idxs ≠ []) : ∀ L ∈ genLeafs node, L.idxs ≠ [] := by
  refine splitTreeFuel_induct sqrt point MAX_LEAF_PNTS
    (motive := fun idxs _ node => idxs ≠ [] → ∀ L ∈ genLeafs node, L.idxs ≠ [])
    ?_ ?_ fuel idxs cts node h hne
  · intro idxs cts cs _ _ hne L hL
    simp only [genLeafs, List.mem_singleton] at hL
    subst hL
    exact hne
  · intro ix tl cts ip iq l r _ _ _ hl0 hr0 hl hr _ L hL
    simp only [genLeafs, List.mem_append] at hL
    rcases hL with hL | hL
    · exact hl hl0 L hL
    · exact hr hr0 L hL

/-- In the returned node every leaf constraint has its offset on a point of the leaf,
and every point of the leaf on its side: the offset is the greatest product with the
direction for `<=` and the least for `>=`. -/
theorem splitTreeFuel_tight (fuel : Nat) (idxs : List Nat) (cts : List (Constraint d S))
    (node : Node d S) (h : splitTreeFuel sqrt point MAX_LEAF_PNTS fuel idxs cts = .ret node) :
    ∀ L ∈ genLeafs node, ∀ ct ∈ L.constraints,
      (∃ idx ∈ L.idxs, ct.hp.b = dot ct.hp.a (point idx)) ∧
      ∀ i ∈ L.idxs, if ct.less_equal = true then dot ct.hp.a (point i) ≤ ct.hp.b
        else ct.hp.b ≤ dot ct.hp.a (point i) := by
  refine splitTreeFuel_induct sqrt point MAX_LEAF_PNTS
    (motive := fun _ _ node => ∀ L ∈ genLeafs node, ∀ ct ∈ L.constraints,
      (∃ idx ∈ L.idxs, ct.hp.b = dot ct.hp.a (point idx)) ∧
      ∀ i ∈ L.idxs, if ct.less_equal = true then dot ct.hp.a (point i) ≤ ct.hp.b
        else ct.hp.b ≤ dot ct.hp.a (point i))
    ?_ ?_ fuel idxs cts node h
  · intro idxs cts cs hcs _ L hL ct hct
    simp only [genLeafs, List.mem_singleton] at hL
    subst hL
    obtain ⟨ct0, _, hR⟩ := Refined.of_mem point (refineConstraints_of_ret point hcs) hct
    obtain ⟨ha, _, ⟨idx, hidx, hb⟩, hin⟩ := hR
    refine ⟨⟨idx, hidx, by rw [ha]; exact hb⟩, ?_⟩
    intro i hi
    have hi' := hin i hi
    cases hflag : ct.less_equal
    · simpa using (inside_ge hflag).1 hi'
    · simpa using (inside_le hflag).1 hi'
  · intro ix tl cts ip iq l r _ _ _ _ _ hl hr L hL
    simp only [genLeafs, List.mem_append] at hL
    rcases hL with hL | hL
    · exact hl L hL
    · exact hr L hL

/-- The refinement keeps the direction and the side of every constraint. -/
theorem refineConstraints_keeps {idxs : List Nat} {cts cs : List (Constraint d S)}
    (h : refineConstraints point idxs cts = .ret cs) :
    List.Forall₂ (fun ct c => c.hp.a = ct.hp.a ∧ c.less_equal = ct.less_equal) cts cs :=
  (refineConstraints_of_ret point h).imp fun _ _ hR => ⟨hR.1, hR.2.1⟩

/-- With an exact square root, two different pick points leave both sides of the split
non-empty on every index list that holds both picks. -/
theorem split_nonempty_of_ne (hs : IsSqrt sqrt) {ip iq : Nat} (hne : point ip ≠ point iq)
    (idxs : List Nat) (hip : ip ∈ idxs) (hiq : iq ∈ idxs) :
    splitLeft point (splitPlane sqrt point ip iq) idxs ≠ [] ∧
      splitRight point (splitPlane sqrt point ip iq) idxs ≠ [] := by
  obtain ⟨h1, h2⟩ := splitPlane_sides hs point hne
  have hl : iq ∈ splitLeft point (splitPlane sqrt point ip iq) idxs := by
    unfold splitLeft
    rw [List.mem_filter]
    exact ⟨hiq, by simpa using le_of_lt h2⟩
  have hr : ip ∈ splitRight point (splitPlane sqrt point ip iq) idxs := by
    unfold splitRight
    rw [List.mem_filter]
    exact ⟨hip, by simpa using h1⟩
  exact ⟨List.ne_nil_of_mem hl, List.ne_nil_of_mem hr⟩

/-- With an exact square root, the forced-leaf fallback applies only to index lists whose
points are all equal. -/
theorem forcedLeaf_equal (hs : IsSqrt sqrt) {idxs : List Nat}
    (h : ForcedLeaf sqrt point idxs) : ∀ i ∈ idxs, ∀ j ∈ idxs, point i = point j := by
  obtain ⟨ix, tl, ip, iq, _, hip, hiq, hemp⟩ := h
  obtain ⟨hipm, _, _⟩ := farthest_some sqrt point ix hip
  obtain ⟨hiqm, _, hfar⟩ := farthest_some sqrt point ip hiq
  by_cases hpq : point ip = point iq
  · have hall : ∀ i ∈ idxs, point i = point ip := by
      intro i hi
      by_cases hii : i = ip
      · rw [hii]
      · have h1 := hfar i hi hii
        have h2 : distance sqrt (point iq) (point ip) = 0 := by
          rw [← hpq, distance_self, hs.sqrt_zero]
        rw [h2] at h1
        exact eq_of_distance_le_zero hs h1
    intro i hi j hj
    rw [hall i hi, hall j hj]
  · obtain ⟨hl, hr⟩ := split_nonempty_of_ne sqrt point hs hpq idxs hipm hiqm
    rcases hemp with h | h
    · exact absurd h hl
    · exact absurd h hr

/-- With an exact square root, every leaf of the returned node holds at most
`MAX_LEAF_PNTS` indices or only copies of one point. -/
theorem splitTreeFuel_leaf_size (hs : IsSqrt sqrt) (fuel : Nat) (idxs : List Nat)
    (cts : List (Constraint d S)) (node : Node d S)
    (h : splitTreeFuel sqrt point MAX_LEAF_PNTS fuel idxs cts = .ret node) :
    ∀ L ∈ genLeafs node, L.idxs.length ≤ MAX_LEAF_PNTS ∨
      ∀ i ∈ L.idxs, ∀ j ∈ L.idxs, point i = point j := by
  refine splitTreeFuel_induct sqrt point MAX_LEAF_PNTS
    (motive := fun _ _ node => ∀ L ∈ genLeafs node, L.idxs.length ≤ MAX_LEAF_PNTS ∨
      ∀ i ∈ L.idxs, ∀ j ∈ L.idxs, point i = point j)
    ?_ ?_ fuel idxs cts node h
  · intro idxs cts cs _ hcase L hL
    simp only [genLeafs, List.mem_singleton] at hL
    subst hL
    rcases hcase with hlen | hforced
    · exact Or.inl hlen
    · exact Or.inr (forcedLeaf_equal sqrt point hs hforced)
  · intro ix tl cts ip iq l r _ _ _ _ _ hl hr L hL
    simp only [genLeafs, List.mem_append] at hL
    rcases hL with hL | hL
    · exact hl L hL
    · exact hr L hL

/-! ### The calls of `refineConstraints` -/

/-- The first loop of `refineConstraints` changes nothing when every point of the node
is already inside the constraint. -/
theorem widen_noop (idxs : List Nat) (ct : Constraint d S)
    (h : ∀ i ∈ idxs, inside (point i) ct = true) : widen point idxs ct = ct := by
  induction idxs with
  | nil => rfl
  | cons i idxs ih =>
    rw [widen_cons]
    simp only [h i (List.mem_cons_self _ _), Bool.not_true, Bool.false_eq_true, if_false]
    exact ih fun j hj => h j (List.mem_cons_of_mem _ hj)

theorem refineCalls_leaf (fuel : Nat) {idxs : List Nat} (cts : List (Constraint d S))
    (h : idxs.length ≤ MAX_LEAF_PNTS) :
    refineCalls sqrt point MAX_LEAF_PNTS fuel idxs cts = [(idxs, cts)] := by
  cases fuel <;> simp [refineCalls, h]

theorem refineCalls_split (fuel : Nat) {ix ip iq : Nat} {tl : List Nat}
    (cts : List (Constraint d S)) (h : ¬ (ix :: tl).length ≤ MAX_LEAF_PNTS)
    (hip : (farthest sqrt point (ix :: tl) ix).1 = some ip)
    (hiq : (farthest sqrt point (ix :: tl) ip).1 = some iq) :
    refineCalls sqrt point MAX_LEAF_PNTS (fuel + 1) (ix :: tl) cts =
      if (splitLeft point (splitPlane sqrt point ip iq) (ix :: tl)).isEmpty
          || (splitRight point (splitPlane sqrt point ip iq) (ix :: tl)).isEmpty then
        [(ix :: tl, cts)]
      else
        match splitTreeFuel sqrt point MAX_LEAF_PNTS fuel
            (splitLeft point (splitPlane sqrt point ip iq) (ix :: tl))
            (cts ++ [⟨splitPlane sqrt point ip iq, true⟩]) with
        | .ret _ =>
          refineCalls sqrt point MAX_LEAF_PNTS fuel
              (splitLeft point (splitPlane sqrt point ip iq) (ix :: tl))
              (cts ++ [⟨splitPlane sqrt point ip iq, true⟩]) ++
            refineCalls sqrt point MAX_LEAF_PNTS fuel
              (splitRight point (splitPlane sqrt point ip iq) (ix :: tl))
              (cts ++ [⟨splitPlane sqrt point ip iq, false⟩])
        | _ =>
          refineCalls sqrt point MAX_LEAF_PNTS fuel
            (splitLeft point (splitPlane sqrt point ip iq) (ix :: tl))
            (cts ++ [⟨splitPlane sqrt point ip iq, true⟩]) := by
  rw [refineCalls]
  simp only [h, if_false, hip, hiq]

/-- The indices put on the left of a split are inside the `<=` constraint of the split,
those put on the right are inside the `>=` constraint, and both sides keep only indices
of the node. -/
theorem split_inside (hp : Hyperplane d S) (idxs : List Nat) :
    (∀ i ∈ splitLeft point hp idxs, i ∈ idxs ∧ inside (point i) ⟨hp, true⟩ = true) ∧
    (∀ i ∈ splitRight point hp idxs, i ∈ idxs ∧ inside (point i) ⟨hp, false⟩ = true) := by
  constructor
  · intro i hi
    unfold splitLeft at hi
    rw [List.mem_filter] at hi
    refine ⟨hi.1, ?_⟩
    rw [inside_le rfl]
    simpa using hi.2
  · intro i hi
    unfold splitRight at hi
    rw [List.mem_filter] at hi
    refine ⟨hi.1, ?_⟩
    rw [inside_ge rfl]
    have : ¬ dot hp.a (point i) ≤ hp.b := by simpa using hi.2
    exact le_of_lt (not_le.1 this)

/-- At every call of `refineConstraints` made by `splitTree`, every point of the node is
inside every constraint of the node, provided that holds for the node `splitTree` starts
from. -/
theorem refineCalls_inside : ∀ (fuel : Nat) (idxs : List Nat) (cts : List (Constraint d S)),
    (∀ ct ∈ cts, ∀ i ∈ idxs, inside (point i) ct = true) →
    ∀ c ∈ refineCalls sqrt point MAX_LEAF_PNTS fuel idxs cts,
      ∀ ct ∈ c.2, ∀ i ∈ c.1, inside (point i) ct = true := by
  intro fuel
  induction fuel with
  | zero =>
    intro idxs cts hpre c hc
    by_cases hlen : idxs.length ≤ MAX_LEAF_PNTS
    · rw [refineCalls_leaf sqrt point MAX_LEAF_PNTS 0 cts hlen, List.mem_singleton] at hc
      subst hc
      exact hpre
    · rw [refineCalls] at hc
      simp only [hlen, if_false] at hc
      cases hc
  | succ fuel ih =>
    intro idxs cts hpre c hc
    by_cases hlen : idxs.length ≤ MAX_LEAF_PNTS
    · rw [refineCalls_leaf sqrt point MAX_LEAF_PNTS _ cts hlen, List.mem_singleton] at hc
      subst hc
      exact hpre
    · cases idxs with
      | nil => simp at hlen
      | cons ix tl =>
        cases hip : (farthest sqrt point (ix :: tl) ix).1 with
        | none =>
          rw [refineCalls] at hc
          simp only [hlen, if_false, hip] at hc
          cases hc
        | some ip =>
          cases hiq : (farthest sqrt point (ix :: tl) ip).1 with
          | none =>
            rw [refineCalls] at hc
            simp only [hlen, if_false, hip, hiq] at hc
            cases hc
          | some iq =>
            rw [refineCalls_split sqrt point MAX_LEAF_PNTS fuel cts hlen hip hiq] at hc
            obtain ⟨hin_l, hin_r⟩ := split_inside point (splitPlane sqrt point ip iq) (ix :: tl)
            have hpre_l : ∀ ct ∈ cts ++ [⟨splitPlane sqrt point ip iq, true⟩],
                ∀ i ∈ splitLeft point (splitPlane sqrt point ip iq) (ix :: tl),
                  inside (point i) ct = true := by
              intro ct hct i hi
              rcases List.mem_append.1 hct with hct | hct
              · exact hpre ct hct i (hin_l i hi).1
              · rw [List.mem_singleton] at hct
                subst hct
                exact (hin_l i hi).2
            have hpre_r : ∀ ct ∈ cts ++ [⟨splitPlane sqrt point ip iq, false⟩],
                ∀ i ∈ splitRight point (splitPlane sqrt point ip iq) (ix :: tl),
                  inside (point i) ct = true := by
              intro ct hct i hi
              rcases List.mem_append.1 hct with hct | hct
              · exact hpre ct hct i (hin_r i hi).1
              · rw [List.mem_singleton] at hct
                subst hct
                exact (hin_r i hi).2
            by_cases hemp :
                ((splitLeft point (splitPlane sqrt point ip iq) (ix :: tl)).isEmpty
                  || (splitRight point (splitPlane sqrt point ip iq) (ix :: tl)).isEmpty)
                  = true
            · rw [if_pos hemp, List.mem_singleton] at hc
              subst hc
              exact hpre
            · rw [if_neg hemp] at hc
              cases hl : splitTreeFuel sqrt point MAX_LEAF_PNTS fuel
                  (splitLeft point (splitPlane sqrt point ip iq) (ix :: tl))
                  (cts ++ [⟨splitPlane sqrt point ip iq, true⟩]) with
              | ret l =>
                rw [hl] at hc
                simp only [List.mem_append] at hc
                rcases hc with hc | hc
                · exact ih _ _ hpre_l c hc
                · exact ih _ _ hpre_r c hc
              | undef =>
                rw [hl] at hc
                exact ih _ _ hpre_l c hc
              | fuelOut =>
                rw [hl] at hc
                exact ih _ _ hpre_l c hc

/-- The calls of `refineConstraints` made by a returning `splitTree` are one per leaf of
the returned node, in order: the call is on the leaf's index list and returns the leaf's
constraint list. -/
theorem refineCalls_leafs : ∀ (fuel : Nat) (idxs : List Nat) (cts : List (Constraint d S))
    (node : Node d S), splitTreeFuel sqrt point MAX_LEAF_PNTS fuel idxs cts = .ret node →
    List.Forall₂ (fun c L => L.idxs = c.1 ∧ refineConstraints point c.1 c.2 = .ret L.constraints)
      (refineCalls sqrt point MAX_LEAF_PNTS fuel idxs cts) (genLeafs node) := by
  intro fuel
  induction fuel with
  | zero =>
    intro idxs cts node h
    by_cases hlen : idxs.length ≤ MAX_LEAF_PNTS
    · rw [splitTreeFuel_leaf sqrt point MAX_LEAF_PNTS 0 cts hlen] at h
      obtain ⟨cs, hcs, hn⟩ := Run.bind_eq_ret h
      cases hn
      rw [refineCalls_leaf sqrt point MAX_LEAF_PNTS 0 cts hlen]
      exact List.Forall₂.cons ⟨rfl, hcs⟩ List.Forall₂.nil
    · rw [splitTreeFuel] at h
      simp only [hlen, if_false] at h
      cases h
  | succ fuel ih =>
    intro idxs cts node h
    by_cases hlen : idxs.length ≤ MAX_LEAF_PNTS
    · rw [splitTreeFuel_leaf sqrt point MAX_LEAF_PNTS _ cts hlen] at h
      obtain ⟨cs, hcs, hn⟩ := Run.bind_eq_ret h
      cases hn
      rw [refineCalls_leaf sqrt point MAX_LEAF_PNTS _ cts hlen]
      exact List.Forall₂.cons ⟨rfl, hcs⟩ List.Forall₂.nil
    · cases idxs with
      | nil => simp at hlen
      | cons ix tl =>
        cases hip : (farthest sqrt point (ix :: tl) ix).1 with
        | none =>
          rw [splitTreeFuel] at h
          simp only [hlen, if_false, hip] at h
          cases h
        | some ip =>
          cases hiq : (farthest sqrt point (ix :: tl) ip).1 with
          | none =>
            rw [splitTreeFuel] at h
            simp only [hlen, if_false, hip, hiq] at h
            cases h
          | some iq =>
            rw [splitTreeFuel_split sqrt point MAX_LEAF_PNTS fuel cts hlen hip hiq] at h
            rw [refineCalls_split sqrt point MAX_LEAF_PNTS fuel cts hlen hip hiq]
            by_cases hemp :
                ((splitLeft point (splitPlane sqrt point ip iq) (ix :: tl)).isEmpty
                  || (splitRight point (splitPlane sqrt point ip iq) (ix :: tl)).isEmpty)
                  = true
            · rw [if_pos hemp] at h ⊢
              obtain ⟨cs, hcs, hn⟩ := Run.bind_eq_ret h
              cases hn
              exact List.Forall₂.cons ⟨rfl, hcs⟩ List.Forall₂.nil
            · rw [if_neg hemp] at h ⊢
              obtain ⟨l, hl, h⟩ := Run.bind_eq_ret h
              obtain ⟨r, hr, h⟩ := Run.bind_eq_ret h
              cases h
              rw [hl]
              exact List.rel_append (ih _ _ _ hl) (ih _ _ _ hr)

end Split

/-! ## The constructor -/

section Build

variable {S : Type} [LinearOrderedField S] {d : Nat} (sqrt : S → S)

theorem qsqrt_nonneg : SqrtNonneg qsqrt := by
  intro x _
  unfold qsqrt
  exact div_nonneg (Nat.cast_nonneg _) (Nat.cast_nonneg _)

theorem real_isSqrt : IsSqrt Real.sqrt :=
  fun x hx => ⟨Real.sqrt_nonneg x, Real.mul_self_sqrt hx⟩

theorem maxLeafPnts_ge (n : Nat) : 10 ≤ maxLeafPnts n := le_max_right _ _

/-- The constructor returns: `splitTree` on the root returns a node, and the tree holds
that node, its leaves, the threshold and the point count. -/
theorem Tree.build_spec (h0 : SqrtNonneg sqrt) (P : List (Vec d S)) :
    ∃ root, splitTreeFuel sqrt (pointAt P) (maxLeafPnts P.length) P.length
        (List.range P.length) [] = .ret root ∧
      Tree.build sqrt P =
        .ret ⟨maxLeafPnts P.length, P.length, root, genLeafs root, P⟩ := by
  obtain ⟨root, hroot⟩ := splitTreeFuel_ret sqrt (pointAt P) (maxLeafPnts P.length) h0
    (le_trans (by decide) (maxLeafPnts_ge P.length)) P.length (List.range P.length) []
    (by simp) (List.nodup_range _) (fun _ => rfl)
  refine ⟨root, hroot, ?_⟩
  unfold Tree.build splitTree
  rw [List.length_range, hroot]
  rfl

/-- The leaves of a built tree hold a rearrangement of `0, ..., N-1`. -/
theorem Tree.build_perm {P : List (Vec d S)} {t : Tree d S} (h : Tree.build sqrt P = .ret t) :
    (t.leafs.flatMap Node.idxs).Perm (List.range P.length) ∧ t.points = P ∧
      t.NUM_PNTS = P.length ∧ t.MAX_LEAF_PNTS = maxLeafPnts P.length ∧
      t.leafs = genLeafs t.root := by
  unfold Tree.build splitTree at h
  obtain ⟨root, hroot, ht⟩ := Run.bind_eq_ret h
  cases ht
  exact ⟨splitTreeFuel_perm sqrt (pointAt P) _ _ _ _ _ hroot, rfl, rfl, rfl, rfl⟩

/-- In a built tree every point of a leaf is inside every constraint of the leaf. -/
theorem Tree.build_inside {P : List (Vec d S)} {t : Tree d S}
    (h : Tree.build sqrt P = .ret t) :
    ∀ L ∈ t.leafs, ∀ ct ∈ L.constraints, ∀ i ∈ L.idxs, inside (pointAt P i) ct = true := by
  unfold Tree.build splitTree at h
  obtain ⟨root, hroot, ht⟩ := Run.bind_eq_ret h
  cases ht
  exact splitTreeFuel_inside sqrt (pointAt P) _ _ _ _ _ hroot

/-- In a built tree every constraint direction has norm at most one. -/
theorem Tree.build_normal (hs : IsSqrt sqrt) {P : List (Vec d S)} {t : Tree d S}
    (h : Tree.build sqrt P = .ret t) :
    ∀ L ∈ t.leafs, ∀ ct ∈ L.constraints, squaredNorm ct.hp.a ≤ 1 := by
  unfold Tree.build splitTree at h
  obtain ⟨root, hroot, ht⟩ := Run.bind_eq_ret h
  cases ht
  exact splitTreeFuel_normal sqrt (pointAt P) _ hs _ _ _ _ hroot
    (fun _ hct => absurd hct (List.not_mem_nil _))

theorem pointAt_replicate {N i : Nat} (v : Vec d S) (hi : i < N) :
    pointAt (List.replicate N v) i = v := by
  unfold pointAt
  rw [List.getD_eq_getElem _ _ (by simpa using hi)]
  simp

/-- A tree built from at least one point has only non-empty leaves. -/
theorem Tree.build_nonempty {P : List (Vec d S)} {t : Tree d S}
    (h : Tree.build sqrt P = .ret t) (hP : 1 ≤ P.length) : ∀ L ∈ t.leafs, L.idxs ≠ [] := by
  unfold Tree.build splitTree at h
  obtain ⟨root, hroot, ht⟩ := Run.bind_eq_ret h
  cases ht
  refine splitTreeFuel_nonempty sqrt (pointAt P) _ _ _ _ _ hroot ?_
  intro hnil
  have := congrArg List.length hnil
  simp only [List.length_range, List.length_nil] at this
  omega

/-- In a built tree every leaf constraint is tight. -/
theorem Tree.build_tight {P : List (Vec d S)} {t : Tree d S}
    (h : Tree.build sqrt P = .ret t) :
    ∀ L ∈ t.leafs, ∀ ct ∈ L.constraints,
      (∃ idx ∈ L.idxs, ct.hp.b = dot ct.hp.a (pointAt P idx)) ∧
      ∀ i ∈ L.idxs, if ct.less_equal = true then dot ct.hp.a (pointAt P i) ≤ ct.hp.b
        else ct.hp.b ≤ dot ct.hp.a (pointAt P i) := by
  unfold Tree.build splitTree at h
  obtain ⟨root, hroot, ht⟩ := Run.bind_eq_ret h
  cases ht
  exact splitTreeFuel_tight sqrt (pointAt P) _ _ _ _ _ hroot

end Build

/-! ## `knnSearch` -/

section Search

variable {S : Type} [LinearOrderedField S] {d : Nat} (sqrt : S → S) (scalarMax : S)
  (point : Nat → Vec d S)

/-- The inner loop of `knnSearch` is a sequence of `insert` calls. -/
theorem scanLeaf_eq_insertAll (q : Vec d S) (idxs : List Nat) :
    ∀ res : KnnResult S, scanLeaf sqrt scalarMax point q idxs res =
      res.insertAll scalarMax (idxs.map (queryPair sqrt point q)) := by
  induction idxs with
  | nil => intro res; rfl
  | cons i idxs ih =>
    intro res
    simp only [scanLeaf, List.map_cons, KnnResult.insertAll, queryPair]
    congr 1
    funext p
    exact ih p.1

/-- The loop of `knnSearchBruteforce` is a sequence of `insert` calls. -/
theorem bruteLoop_eq_insertAll (vecs : List (Vec d S)) (q : Vec d S) (idxs : List Nat) :
    ∀ res : KnnResult S, bruteLoop sqrt scalarMax vecs q idxs res =
      res.insertAll scalarMax (idxs.map (queryPair sqrt (pointAt vecs) q)) := by
  induction idxs with
  | nil => intro res; rfl
  | cons i idxs ih =>
    intro res
    simp only [bruteLoop, List.map_cons, KnnResult.insertAll, queryPair]
    rw [distance_comm sqrt q (pointAt vecs i)]
    congr 1
    funext p
    exact ih p.1

theorem Knn.le_dist {x y : Knn S} (h : Knn.le x y) : x.dist ≤ y.dist := Knn.ge_dist h

/-- The sorted `query_leafs` are in non-decreasing order of their bounds. -/
theorem std_sort_pairwise (v : List (Knn S)) :
    (std_sort v).Pairwise (fun a b => a.dist ≤ b.dist) :=
  (List.sorted_insertionSort Knn.le v).imp Knn.le_dist

theorem std_sort_perm (v : List (Knn S)) : (std_sort v).Perm v :=
  List.perm_insertionSort _ _

/-- Entries of `query_leafs` built from the tail `l` of the leaf list `pre ++ l`. -/
theorem queryLeafs_aux (q : Vec d S) (l : List (Node d S)) :
    ∀ pre : List (Node d S),
      (∀ x ∈ (l.enumFrom pre.length).map (fun p => (⟨p.1, distanceNode q p.2⟩ : Knn S)),
        ∃ L ∈ l, (pre ++ l).get? x.idx = some L ∧ x.dist = distanceNode q L) ∧
      ((l.enumFrom pre.length).map (fun p => (⟨p.1, distanceNode q p.2⟩ : Knn S))).flatMap
          (leafIdxs (pre ++ l)) = l.flatMap Node.idxs := by
  induction l with
  | nil => intro pre; simp
  | cons a l ih =>
    intro pre
    obtain ⟨h1, h2⟩ := ih (pre ++ [a])
    simp only [List.length_append, List.length_singleton, List.append_assoc,
      List.singleton_append] at h1 h2
    have hget : (pre ++ a :: l).get? pre.length = some a := by
      rw [List.get?_eq_getElem?, List.getElem?_append_right (le_refl _)]
      simp
    constructor
    · intro x hx
      simp only [List.enumFrom_cons, List.map_cons, List.mem_cons] at hx
      rcases hx with rfl | hx
      · exact ⟨a, List.mem_cons_self _ _, hget, rfl⟩
      · obtain ⟨L, hL, hg, hd⟩ := h1 x hx
        exact ⟨L, List.mem_cons_of_mem _ hL, hg, hd⟩
    · simp only [List.enumFrom_cons, List.map_cons, List.flatMap_cons]
      rw [h2]
      congr 1
      simp only [leafIdxs, hget]

/-- Every entry of `query_leafs` names a leaf of the tree and carries its bound. -/
theorem queryLeafs_mem (leafs : List (Node d S)) (q : Vec d S) :
    ∀ x ∈ queryLeafs leafs q,
      ∃ L ∈ leafs, leafs.get? x.idx = some L ∧ x.dist = distanceNode q L := by
  have := (queryLeafs_aux q leafs []).1
  simpa [queryLeafs, List.enum] using this

/-- Visiting every entry of `query_leafs` scans the indices of all leaves in order. -/
theorem queryLeafs_flatMap (leafs : List (Node d S)) (q : Vec d S) :
    (queryLeafs leafs q).flatMap (leafIdxs leafs) = leafs.flatMap Node.idxs := by
  have := (queryLeafs_aux q leafs []).2
  simpa [queryLeafs, List.enum] using this

/-- The outer loop of `knnSearch` from a container in a good state: it returns, it has
scanned a first part `scanned` of the entries, the container has been offered exactly
the pairs of the scanned leaves, and if some entries `rest` were not visited then the
container is full and no bound among `rest` is below its greatest held distance. -/
theorem visitLeafs_spec {K : Int} (hK : 1 ≤ K) (leafs : List (Node d S)) (q : Vec d S) :
    ∀ (qs : List (Knn S)) (res : KnnResult S) (rej ins : List (Knn S)),
      KnnResult.Inv K res rej ins →
      (∀ x ∈ qs, ∃ L, leafs.get? x.idx = some L) →
      qs.Pairwise (fun a b => a.dist ≤ b.dist) →
      ∃ res' rej' scanned rest,
        visitLeafs sqrt scalarMax point leafs q qs res = .ret res' ∧ qs = scanned ++ rest ∧
        KnnResult.Inv K res' rej'
          (ins ++ (scanned.flatMap (leafIdxs leafs)).map (queryPair sqrt point q)) ∧
        (rest ≠ [] → res'.full = true ∧
          ∀ u ∈ rest, res'.maxDist scalarMax ≤ u.dist) := by
  intro qs
  induction qs with
  | nil =>
    intro res rej ins hinv _ _
    exact ⟨res, rej, [], [], rfl, rfl, by simpa using hinv, fun h => absurd rfl h⟩
  | cons x qs ih =>
    intro res rej ins hinv hget hpw
    by_cases hcond : (!res.full || decide (x.dist < res.maxDist scalarMax)) = true
    · obtain ⟨L, hL⟩ := hget x (List.mem_cons_self _ _)
      obtain ⟨res1, rej1, hscan, hinv1⟩ :=
        KnnResult.insertAll_inv scalarMax hK (L.idxs.map (queryPair sqrt point q)) hinv
      obtain ⟨res', rej', scanned, rest, hv, hqs, hinv', hrest⟩ :=
        ih res1 rej1 _ hinv1 (fun y hy => hget y (List.mem_cons_of_mem _ hy))
          (List.Pairwise.of_cons hpw)
      refine ⟨res', rej', x :: scanned, rest, ?_, by rw [hqs]; rfl, ?_, hrest⟩
      · rw [visitLeafs, if_pos hcond, hL]
        simp only [scanLeaf_eq_insertAll, hscan, Run.bind]
        exact hv
      · have : leafIdxs leafs x = L.idxs := by simp only [leafIdxs, hL]
        simpa [List.flatMap_cons, this, List.append_assoc] using hinv'
    · refine ⟨res, rej, [], x :: qs, ?_, rfl, by simpa using hinv, ?_⟩
      · rw [visitLeafs, if_neg hcond]
      · intro _
        simp only [Bool.or_eq_true, Bool.not_eq_true', decide_eq_true_eq, not_or,
          Bool.not_eq_false, not_lt] at hcond
        refine ⟨hcond.1, ?_⟩
        intro u hu
        rcases List.mem_cons.1 hu with rfl | hu
        · exact hcond.2
        · exact le_trans hcond.2 (List.rel_of_pairwise_cons hpw hu)

/-- Specification of `knnSearch` with `k ≥ 1` on any tree: it returns, having scanned a first part of the
sorted `query_leafs`; the container before the optional final sort satisfies the
invariant for the scanned pairs, and unvisited leaves have bounds that are not below the
greatest held distance of the full container. -/
theorem Tree.knnSearch_spec (t : Tree d S) (q : Vec d S) {k : Int} (hk : 1 ≤ k)
    (sort : Bool) :
    ∃ res rej scanned rest,
      t.knnSearch sqrt scalarMax q k sort = .ret (if sort then res.sort else res) ∧
      std_sort (queryLeafs t.leafs q) = scanned ++ rest ∧
      KnnResult.Inv k res rej
        ((scanned.flatMap (leafIdxs t.leafs)).map (queryPair sqrt t.point q)) ∧
      (rest ≠ [] → res.full = true ∧
        ∀ u ∈ rest, res.maxDist scalarMax ≤ u.dist) := by
  have hget : ∀ x ∈ std_sort (queryLeafs t.leafs q), ∃ L, t.leafs.get? x.idx = some L := by
    intro x hx
    obtain ⟨L, _, hL, _⟩ := queryLeafs_mem t.leafs q x ((std_sort_perm _).mem_iff.1 hx)
    exact ⟨L, hL⟩
  obtain ⟨res, rej, scanned, rest, hv, hqs, hinv, hrest⟩ :=
    visitLeafs_spec sqrt scalarMax t.point hk t.leafs q _ _ [] []
      (KnnResult.Inv.new (le_trans (by decide) hk)) hget (std_sort_pairwise _)
  refine ⟨res, rej, scanned, rest, ?_, hqs, by simpa using hinv, hrest⟩
  unfold Tree.knnSearch
  rw [hv]
  rfl

/-! ## The largest scalar is immaterial for `k ≥ 1` -/

/-- On a container that is not both full and empty, `insert` does not read the largest
scalar. -/
theorem KnnResult.insert_indep (M M' : S) (r : KnnResult S) (h : r.full = true → r.heap ≠ [])
    (i : Nat) (dd : S) : r.insert M i dd = r.insert M' i dd := by
  obtain ⟨K0, heap⟩ := r
  by_cases hf : (⟨K0, heap⟩ : KnnResult S).full = true
  · cases heap with
    | nil => exact absurd rfl (h hf)
    | cons m rest => simp [KnnResult.insert, KnnResult.maxDist]
  · simp [KnnResult.insert, hf]

theorem KnnResult.Inv.full_ne_nil {K : Int} (hK : 1 ≤ K) {r : KnnResult S}
    {rej ins : List (Knn S)} (h : KnnResult.Inv K r rej ins) : r.full = true → r.heap ≠ [] := by
  intro hf hnil
  have := (KnnResult.full_iff (le_trans (by decide) hK) r h.cap).1 hf
  rw [hnil] at this
  simp only [List.length_nil] at this
  omega

theorem KnnResult.insertAll_indep (M M' : S) {K : Int} (hK : 1 ≤ K) (xs : List (Knn S)) :
    ∀ {r : KnnResult S} {rej ins : List (Knn S)}, KnnResult.Inv K r rej ins →
      r.insertAll M xs = r.insertAll M' xs := by
  induction xs with
  | nil => intro r rej ins _; rfl
  | cons x xs ih =>
    intro r rej ins h
    obtain ⟨r1, b, rej1, h1, hinv1⟩ := KnnResult.insert_inv M hK h x.idx x.dist
    have h1' := h1
    rw [KnnResult.insert_indep M M' r (h.full_ne_nil hK)] at h1'
    simp only [KnnResult.insertAll, h1, h1', Run.bind]
    exact ih hinv1

theorem visitLeafs_indep (M M' : S) {K : Int} (hK : 1 ≤ K) (leafs : List (Node d S))
    (q : Vec d S) :
    ∀ (qs : List (Knn S)) (res : KnnResult S) (rej ins : List (Knn S)),
      KnnResult.Inv K res rej ins →
      visitLeafs sqrt M point leafs q qs res = visitLeafs sqrt M' point leafs q qs res := by
  intro qs
  induction qs with
  | nil => intro res rej ins _; rfl
  | cons x qs ih =>
    intro res rej ins hinv
    have hcond : (!res.full || decide (x.dist < res.maxDist M))
        = (!res.full || decide (x.dist < res.maxDist M')) := by
      by_cases hf : res.full = true
      · obtain ⟨K0, heap⟩ := res
        cases heap with
        | nil => exact absurd rfl (hinv.full_ne_nil hK hf)
        | cons m rest => rfl
      · simp [hf]
    rw [visitLeafs, visitLeafs, hcond]
    split_ifs with hc
    · cases hL : leafs.get? x.idx with
      | none => rfl
      | some L =>
        obtain ⟨res1, rej1, hscan, hinv1⟩ :=
          KnnResult.insertAll_inv M hK (L.idxs.map (queryPair sqrt point q)) hinv
        have hscan' := hscan
        rw [KnnResult.insertAll_indep M M' hK _ hinv] at hscan'
        simp only [scanLeaf_eq_insertAll, hscan, hscan', Run.bind]
        exact ih res1 rej1 _ hinv1
    · rfl

/-- For `k ≥ 1` the result of `knnSearch` does not depend on the largest scalar. -/
theorem Tree.knnSearch_indep (M M' : S) (t : Tree d S) (q : Vec d S) {k : Int} (hk : 1 ≤ k)
    (sort : Bool) : t.knnSearch sqrt M q k sort = t.knnSearch sqrt M' q k sort := by
  unfold Tree.knnSearch
  rw [visitLeafs_indep sqrt t.point M M' hk t.leafs q _ _ [] []
    (KnnResult.Inv.new (le_trans (by decide) hk))]

/-- For `k ≥ 1` the result of `knnSearchBruteforce` does not depend on the largest
scalar. -/
theorem knnSearchBruteforce_indep (M M' : S) (vecs : List (Vec d S)) (q : Vec d S) {k : Int}
    (hk : 1 ≤ k) : knnSearchBruteforce sqrt M vecs q k = knnSearchBruteforce sqrt M' vecs q k := by
  unfold knnSearchBruteforce
  rw [bruteLoop_eq_insertAll, bruteLoop_eq_insertAll,
    KnnResult.insertAll_indep M M' hk _ (KnnResult.Inv.new (le_trans (by decide) hk))]

/-! ## The search with `k ≤ 0` -/

end Search

/-! ## The five-point scenario -/

section Five

variable {S : Type} [LinearOrderedField S]

theorem squaredNorm_pt2_sub (a b c e : S) :
    squaredNorm (pt2 a b - pt2 c e) = (a - c) * (a - c) + (b - e) * (b - e) := by
  simp [squaredNorm, dot, pt2, Fin.sum_univ_two]

/-- The pairs offered to the container in the five-point scenario. -/
theorem fivePts_pairs (sqrt : S → S) (hs : IsSqrt sqrt) :
    (List.range 5).map (queryPair sqrt (pointAt (fivePts S)) (pt2 5 5)) =
      [⟨0, sqrt 50⟩, ⟨1, sqrt 50⟩, ⟨2, sqrt 50⟩, ⟨3, sqrt 50⟩, ⟨4, 0⟩] := by
  have h5 : List.range 5 = [0, 1, 2, 3, 4] := by decide
  rw [h5]
  simp only [List.map_cons, List.map_nil, queryPair, distance, norm, pointAt, fivePts,
    List.getD_cons_zero, List.getD_cons_succ, squaredNorm_pt2_sub]
  norm_num
  exact hs.sqrt_zero

/-- The five inserts of the scenario on a fresh container of capacity three. -/
theorem insertAll_five (scalarMax s : S) (hs : 0 < s) :
    (KnnResult.new 3).insertAll scalarMax [⟨0, s⟩, ⟨1, s⟩, ⟨2, s⟩, ⟨3, s⟩, ⟨4, 0⟩] =
      .ret ⟨3, [⟨1, s⟩, ⟨0, s⟩, ⟨4, 0⟩]⟩ := by
  have hnew : (KnnResult.new 3 : KnnResult S) = ⟨3, []⟩ := by
    simp [KnnResult.new, KnnResult.setK]
  have h3 : (0 : Int) ≤ 3 := by decide
  rw [hnew]
  simp only [KnnResult.insertAll]
  rw [KnnResult.insert_below scalarMax h3 ([] : List (Knn S)) (by simp)]
  have e0 : push_heap ([] ++ [(⟨0, s⟩ : Knn S)]) = [⟨0, s⟩] := by
    simp [push_heap, siftUp]
  simp only [Run.bind, e0]
  rw [KnnResult.insert_below scalarMax h3 ([⟨0, s⟩] : List (Knn S)) (by simp)]
  have e1 : push_heap ([(⟨0, s⟩ : Knn S)] ++ [⟨1, s⟩]) = [⟨1, s⟩, ⟨0, s⟩] := by
    simp [push_heap, siftUp, nth, swapAt, Knn.lt]
  simp only [Run.bind, e1]
  rw [KnnResult.insert_below scalarMax h3 ([⟨1, s⟩, ⟨0, s⟩] : List (Knn S)) (by simp)]
  have e2 : push_heap ([(⟨1, s⟩ : Knn S), ⟨0, s⟩] ++ [⟨2, s⟩])
      = [⟨2, s⟩, ⟨0, s⟩, ⟨1, s⟩] := by
    simp [push_heap, siftUp, nth, swapAt, Knn.lt]
  simp only [Run.bind, e2]
  rw [KnnResult.insert_reject scalarMax h3 (⟨2, s⟩ : Knn S) [⟨0, s⟩, ⟨1, s⟩] (by simp) 3 s
    (lt_irrefl s)]
  simp only [Run.bind]
  rw [KnnResult.insert_evict scalarMax h3 (⟨2, s⟩ : Knn S) [⟨0, s⟩, ⟨1, s⟩] (by simp) 4 0 hs]
  have e3 : pop_heap [(⟨2, s⟩ : Knn S), ⟨0, s⟩, ⟨1, s⟩] = [⟨1, s⟩, ⟨0, s⟩, ⟨2, s⟩] := by
    simp [pop_heap, adjust_heap, siftDown, siftUp, nth, swapAt, Knn.lt]
  have e4 : push_heap ([(⟨1, s⟩ : Knn S), ⟨0, s⟩] ++ [⟨4, 0⟩])
      = [⟨1, s⟩, ⟨0, s⟩, ⟨4, 0⟩] := by
    simp [push_heap, siftUp, nth, swapAt, Knn.lt, hs.ne', not_lt.2 hs.le]
  simp only [Run.bind, e3, List.dropLast_cons₂, List.dropLast_single, e4]

/-- The final `sort()` of the scenario. -/
theorem sort_heap_five (s : S) (hs : 0 < s) :
    sort_heap [(⟨1, s⟩ : Knn S), ⟨0, s⟩, ⟨4, 0⟩] = [⟨4, 0⟩, ⟨0, s⟩, ⟨1, s⟩] := by
  simp [sort_heap, sort_heap_loop, pop_heap, adjust_heap, siftDown, siftUp, nth, swapAt,
    Knn.lt, hs.ne', not_lt.2 hs.le]

end Five

section FiveClaim

variable {S : Type} [LinearOrderedField S]

/-- The constructor on the five points: a single leaf root without constraints. -/
theorem Tree.build_five (sqrt : S → S) (h0 : SqrtNonneg sqrt) :
    Tree.build sqrt (fivePts S) =
      .ret ⟨10, 5, .leaf (List.range 5) [], [.leaf (List.range 5) []], fivePts S⟩ := by
  obtain ⟨root, hroot, ht⟩ := Tree.build_spec sqrt h0 (fivePts S)
  have hlen : (fivePts S).length = 5 := rfl
  rw [hlen] at hroot ht
  have hle : (List.range 5).length ≤ maxLeafPnts 5 := by decide
  rw [splitTreeFuel_leaf sqrt _ _ _ _ hle] at hroot
  simp only [refineConstraints, Run.bind, Run.ret.injEq] at hroot
  subst hroot
  rw [ht]
  rfl

/-- The search of the five-point scenario before the final sort of the claim. -/
theorem Tree.knnSearch_five (sqrt : S → S) (hs : IsSqrt sqrt) (scalarMax : S) :
    (⟨10, 5, .leaf (List.range 5) [], [.leaf (List.range 5) []], fivePts S⟩ : Tree 2 S).knnSearch
        sqrt scalarMax (pt2 5 5) 3 true =
      .ret ⟨3, [⟨4, 0⟩, ⟨0, sqrt 50⟩, ⟨1, sqrt 50⟩]⟩ := by
  have h50 : (0 : S) < sqrt 50 := hs.sqrt_pos (by norm_num)
  have hq : std_sort (queryLeafs [(.leaf (List.range 5) [] : Node 2 S)] (pt2 5 5))
      = [⟨0, 0⟩] := by
    simp [std_sort, queryLeafs, List.enum, List.enumFrom, distanceNode, Node.constraints]
  have hcond : (!(KnnResult.new 3 : KnnResult S).full
      || decide ((0 : S) < (KnnResult.new 3 : KnnResult S).maxDist scalarMax)) = true := by
    simp [KnnResult.new, KnnResult.setK, KnnResult.full, KnnResult.size]
  unfold Tree.knnSearch
  simp only [hq]
  rw [visitLeafs, if_pos hcond]
  simp only [List.get?_cons_zero, Node.idxs, scanLeaf_eq_insertAll]
  have hpt : (⟨10, 5, .leaf (List.range 5) [], [.leaf (List.range 5) []], fivePts S⟩ :
      Tree 2 S).point = pointAt (fivePts S) := rfl
  rw [hpt, fivePts_pairs sqrt hs, insertAll_five scalarMax _ h50]
  simp only [Run.bind, visitLeafs, KnnResult.sort, if_true, sort_heap_five _ h50]

/-- The brute-force reference of the five-point scenario. -/
theorem knnSearchBruteforce_five (sqrt : S → S) (hs : IsSqrt sqrt) (scalarMax : S) :
    knnSearchBruteforce sqrt scalarMax (fivePts S) (pt2 5 5) 3 =
      .ret ⟨3, [⟨4, 0⟩, ⟨0, sqrt 50⟩, ⟨1, sqrt 50⟩]⟩ := by
  have h50 : (0 : S) < sqrt 50 := hs.sqrt_pos (by norm_num)
  have hlen : (fivePts S).length = 5 := rfl
  unfold knnSearchBruteforce
  rw [bruteLoop_eq_insertAll, hlen, fivePts_pairs sqrt hs, insertAll_five scalarMax _ h50]
  simp only [Run.bind, KnnResult.sort, sort_heap_five _ h50]

end FiveClaim
/-! ## The eleven points of the line over any scalar type -/

section Line

variable {S : Type} [LinearOrderedField S]

/-- An exact square root maps a square to the absolute value. -/
theorem IsSqrt.sqrt_mul_self {sqrt : S → S} (hs : IsSqrt sqrt) (x : S) : sqrt (x * x) = |x| := by
  obtain ⟨h0, hmul⟩ := hs (x * x) (mul_self_nonneg x)
  have h : sqrt (x * x) * sqrt (x * x) = |x| * |x| := by rw [hmul, abs_mul_abs_self]
  exact (mul_self_inj h0 (abs_nonneg x)).1 h

/-- On the line the distance is the absolute difference of the coordinates. -/
theorem distance_line {sqrt : S → S} (hs : IsSqrt sqrt) (a b : Vec 1 S) :
    distance sqrt a b = |a 0 - b 0| := by
  have h : squaredNorm (a - b) = (a 0 - b 0) * (a 0 - b 0) := by
    simp [squaredNorm, dot]
  unfold distance norm
  rw [h]
  exact hs.sqrt_mul_self _

theorem farthest_line_first {sqrt : S → S} (hs : IsSqrt sqrt) :
    (farthest sqrt (pointAt (linePtsIn S)) (List.range 11) 0).1 = some 3 := by
  have h11 : List.range 11 = [0, 1, 2, 3, 4, 5, 6, 7, 8, 9, 10] := by decide
  rw [h11]
  simp only [farthest, List.foldl, distance_line hs, pointAt, linePtsIn, List.getD_cons_zero,
    List.getD_cons_succ]
  norm_num

theorem farthest_line_second {sqrt : S → S} (hs : IsSqrt sqrt) :
    (farthest sqrt (pointAt (linePtsIn S)) (List.range 11) 3).1 = some 0 := by
  have h11 : List.range 11 = [0, 1, 2, 3, 4, 5, 6, 7, 8, 9, 10] := by decide
  rw [h11]
  simp only [farthest, List.foldl, distance_line hs, pointAt, linePtsIn, List.getD_cons_zero,
    List.getD_cons_succ]
  norm_num

theorem splitPlane_line {sqrt : S → S} (hs : IsSqrt sqrt) :
    splitPlane sqrt (pointAt (linePtsIn S)) 3 0 = ⟨fun _ => 1, 10⟩ := by
  have hn : squaredNorm (pointAt (linePtsIn S) 3 - pointAt (linePtsIn S) 0) = 20 * 20 := by
    simp [squaredNorm, dot, pointAt, linePtsIn]
  have ha : normalized sqrt (pointAt (linePtsIn S) 3 - pointAt (linePtsIn S) 0)
      = fun _ => 1 := by
    unfold normalized
    rw [hn, if_pos (by norm_num), hs.sqrt_mul_self]
    funext i
    simp [pointAt, linePtsIn]
  unfold splitPlane
  rw [ha]
  simp [dot, pointAt, linePtsIn]
  norm_num

theorem splitLeft_line :
    splitLeft (pointAt (linePtsIn S)) ⟨fun _ => 1, 10⟩ (List.range 11) = [0, 2, 4, 5, 6, 10] := by
  have h11 : List.range 11 = [0, 1, 2, 3, 4, 5, 6, 7, 8, 9, 10] := by decide
  rw [h11]
  simp [splitLeft, dot, pointAt, linePtsIn, List.filter]
  norm_num

theorem splitRight_line :
    splitRight (pointAt (linePtsIn S)) ⟨fun _ => 1, 10⟩ (List.range 11) = [1, 3, 7, 8, 9] := by
  have h11 : List.range 11 = [0, 1, 2, 3, 4, 5, 6, 7, 8, 9, 10] := by decide
  rw [h11]
  simp [splitRight, dot, pointAt, linePtsIn, List.filter]
  norm_num

theorem refineConstraints_line_left :
    refineConstraints (pointAt (linePtsIn S)) [0, 2, 4, 5, 6, 10] [⟨⟨fun _ => 1, 10⟩, true⟩] =
      .ret [⟨⟨fun _ => 1, 8⟩, true⟩] := by
  norm_num [-WithTop.coe_ofNat, refineConstraints, refineConstraint, widen, closest, inside,
    distanceHp, dot, pointAt, linePtsIn, Run.bind]

theorem refineConstraints_line_right :
    refineConstraints (pointAt (linePtsIn S)) [1, 3, 7, 8, 9] [⟨⟨fun _ => 1, 10⟩, false⟩] =
      .ret [⟨⟨fun _ => 1, 12⟩, false⟩] := by
  norm_num [-WithTop.coe_ofNat, refineConstraints, refineConstraint, widen, closest, inside,
    distanceHp, dot, pointAt, linePtsIn, Run.bind]

/-- The constructor on the eleven points of the line: the root is split at 10 into the
leaves with the points up to 8 and from 12 on. -/
theorem Tree.build_line {sqrt : S → S} (hs : IsSqrt sqrt) :
    Tree.build sqrt (linePtsIn S) =
      .ret ⟨10, 11,
        .inner (.leaf [0, 2, 4, 5, 6, 10] [⟨⟨fun _ => 1, 8⟩, true⟩])
          (.leaf [1, 3, 7, 8, 9] [⟨⟨fun _ => 1, 12⟩, false⟩]),
        [.leaf [0, 2, 4, 5, 6, 10] [⟨⟨fun _ => 1, 8⟩, true⟩],
          .leaf [1, 3, 7, 8, 9] [⟨⟨fun _ => 1, 12⟩, false⟩]], linePtsIn S⟩ := by
  obtain ⟨root, hroot, ht⟩ := Tree.build_spec sqrt hs.nonneg (linePtsIn S)
  have hlen : (linePtsIn S).length = 11 := rfl
  rw [hlen] at hroot ht
  have h11 : List.range 11 = 0 :: [1, 2, 3, 4, 5, 6, 7, 8, 9, 10] := by decide
  have hip := farthest_line_first hs
  have hiq := farthest_line_second hs
  have hl := @splitLeft_line S _
  have hr := @splitRight_line S _
  rw [h11] at hroot hip hiq hl hr
  have hmax : maxLeafPnts 11 = 10 := by decide
  rw [hmax] at hroot
  rw [splitTreeFuel_split sqrt _ _ 10 [] (by decide) hip hiq, splitPlane_line hs, hl, hr]
    at hroot
  simp only [List.isEmpty_cons, Bool.or_false, Bool.false_eq_true, if_false, List.nil_append]
    at hroot
  rw [splitTreeFuel_leaf sqrt _ _ _ _ (by decide), splitTreeFuel_leaf sqrt _ _ _ _ (by decide),
    refineConstraints_line_left, refineConstraints_line_right] at hroot
  simp only [Run.bind, Run.ret.injEq] at hroot
  subst hroot
  rw [ht]
  rfl

/-- The sorted `query_leafs` of the eleven-point tree for the query 10: both bounds
are 2. -/
theorem queryLeafs_line :
    std_sort (queryLeafs
      [(.leaf [0, 2, 4, 5, 6, 10] [⟨⟨fun _ => 1, 8⟩, true⟩] : Node 1 S),
        .leaf [1, 3, 7, 8, 9] [⟨⟨fun _ => 1, 12⟩, false⟩]] (fun _ => 10)) =
      [⟨0, 2⟩, ⟨1, 2⟩] := by
  norm_num [std_sort, queryLeafs, List.enum, List.enumFrom, distanceNode, Node.constraints,
    inside, distanceHp, dot, List.insertionSort, List.orderedInsert, Knn.le, Knn.lt]

/-- The scan of the first leaf of the eleven-point tree for the query 10 and `k = 1`: the
pair (2, 2) is kept. -/
theorem scanLeaf_line {sqrt : S → S} (hs : IsSqrt sqrt) (scalarMax : S) :
    scanLeaf sqrt scalarMax (pointAt (linePtsIn S)) (fun _ => 10) [0, 2, 4, 5, 6, 10]
      (KnnResult.new 1) = .ret ⟨1, [⟨2, 2⟩]⟩ := by
  norm_num [scanLeaf, KnnResult.new, KnnResult.setK, KnnResult.insert, KnnResult.full,
    KnnResult.size, KnnResult.maxDist, push_heap, pop_heap, siftUp, Run.bind,
    distance_line hs, pointAt, linePtsIn]

/-- The run of `knnSearch` on the eleven points of the line for the query 10 and `k = 1`:
the tree has two leaves, both with the bound 2; the scan of the first leaf leaves the
pair (2, 2) in the container; at the second leaf the container is full and its bound 2
is not below `maxDist()`, so the loop stops, and the search returns the pair (2, 2). -/
theorem Tree.knnSearch_line {sqrt : S → S} (hs : IsSqrt sqrt) (scalarMax : S) :
    ∃ t, Tree.build sqrt (linePtsIn S) = .ret t ∧ t.leafs.length = 2 ∧
      std_sort (queryLeafs t.leafs (fun _ => 10)) = [⟨0, 2⟩, ⟨1, 2⟩] ∧
      scanLeaf sqrt scalarMax t.point (fun _ => 10) (leafIdxs t.leafs ⟨0, 2⟩)
        (KnnResult.new 1) = .ret ⟨1, [⟨2, 2⟩]⟩ ∧
      (!(⟨1, [⟨2, 2⟩]⟩ : KnnResult S).full
        || decide ((2 : S) < (⟨1, [⟨2, 2⟩]⟩ : KnnResult S).maxDist scalarMax)) = false ∧
      t.knnSearch sqrt scalarMax (fun _ => 10) 1 true = .ret ⟨1, [⟨2, 2⟩]⟩ := by
  have hstop : (!(⟨1, [⟨2, 2⟩]⟩ : KnnResult S).full
      || decide ((2 : S) < (⟨1, [⟨2, 2⟩]⟩ : KnnResult S).maxDist scalarMax)) = false := by
    simp [KnnResult.full, KnnResult.size, KnnResult.maxDist]
  have hgo : (!(KnnResult.new 1 : KnnResult S).full
      || decide ((2 : S) < (KnnResult.new 1 : KnnResult S).maxDist scalarMax)) = true := by
    simp [KnnResult.new, KnnResult.setK, KnnResult.full, KnnResult.size]
  have hscan := scanLeaf_line hs scalarMax
  refine ⟨_, Tree.build_line hs, rfl, queryLeafs_line, hscan, hstop, ?_⟩
  unfold Tree.knnSearch
  simp only [queryLeafs_line]
  rw [visitLeafs, if_pos hgo]
  simp only [List.get?_cons_zero, Node.idxs]
  have hpt : (⟨10, 11,
      .inner (.leaf [0, 2, 4, 5, 6, 10] [⟨⟨fun _ => 1, 8⟩, true⟩])
        (.leaf [1, 3, 7, 8, 9] [⟨⟨fun _ => 1, 12⟩, false⟩]),
      [.leaf [0, 2, 4, 5, 6, 10] [⟨⟨fun _ => 1, 8⟩, true⟩],
        .leaf [1, 3, 7, 8, 9] [⟨⟨fun _ => 1, 12⟩, false⟩]], linePtsIn S⟩ : Tree 1 S).point
      = pointAt (linePtsIn S) := rfl
  rw [hpt, hscan]
  simp only [Run.bind]
  rw [visitLeafs, hstop]
  simp [KnnResult.sort, sort_heap, sort_heap_loop, pop_heap]

end Line


/-! ## The claims -/

section Claims

variable {S : Type} [LinearOrderedField S] {d : Nat}

/-- C1 fails on the code: on the eleven points 0, 12, 8, 20, 1, 2, 3, 17, 18, 19, 4 of the
line, for the query 10 and `k = 1`, whatever the largest scalar, the tree search returns
the pair (2, 2) and the brute-force reference returns the pair (1, 2), so `operator==` on
the two sorted results is false. -/
theorem Tree.knnSearch_ne_bruteforce (scalarMax : ℚ) :
    ∃ t, Tree.build qsqrt linePts = .ret t ∧
      t.knnSearch qsqrt scalarMax (pt1 10) 1 true = .ret ⟨1, [⟨2, 2⟩]⟩ ∧
      knnSearchBruteforce qsqrt scalarMax linePts (pt1 10) 1 = .ret ⟨1, [⟨1, 2⟩]⟩ ∧
      KnnResult.eq (⟨1, [⟨2, 2⟩]⟩ : KnnResult ℚ) ⟨1, [⟨1, 2⟩]⟩ = false := by
  have h : (Tree.build qsqrt linePts).bind (fun t => t.knnSearch qsqrt 0 (pt1 10) 1 true)
      = .ret ⟨1, [⟨2, 2⟩]⟩ := by decide!
  obtain ⟨t, ht, hs⟩ := Run.bind_eq_ret h
  refine ⟨t, ht, ?_, ?_, by decide!⟩
  · rw [Tree.knnSearch_indep qsqrt scalarMax 0 t _ (le_refl 1)]
    exact hs
  · rw [knnSearchBruteforce_indep qsqrt scalarMax 0 _ _ (le_refl 1)]
    decide!

/-- C2 (the early stop loses no nearest neighbour): with an exact square root, for every
point set `P`, query `q` and `k ≥ 1`, the tree is built and `knnSearch(q, k)` returns
`min(k, |P|)` pairs; each returned pair is `(i, distance(P[i], q))` with `i < |P|`, the
returned indices are pairwise distinct, and every index of `P` that is not returned is at
a distance from `q` that is at least every returned distance. -/
theorem Tree.knnSearch_sound (sqrt : S → S) (hs : IsSqrt sqrt) (scalarMax : S)
    (P : List (Vec d S)) (q : Vec d S) (k : Int) (hk : 1 ≤ k) (sort : Bool) :
    ∃ t r, Tree.build sqrt P = .ret t ∧ t.knnSearch sqrt scalarMax q k sort = .ret r ∧
      r.size = min k (P.length : Int) ∧
      (∀ x ∈ r.heap, x.idx < P.length ∧ x.dist = distance sqrt (pointAt P x.idx) q) ∧
      (r.heap.map Knn.idx).Nodup ∧
      ∀ j, j < P.length → j ∉ r.heap.map Knn.idx →
        ∀ x ∈ r.heap, x.dist ≤ distance sqrt (pointAt P j) q := by
  obtain ⟨root, _, ht⟩ := Tree.build_spec sqrt hs.nonneg P
  obtain ⟨res, rej, scanned, rest, hsearch, hqs, hinv, hrest⟩ :=
    Tree.knnSearch_spec sqrt scalarMax _ q hk sort
  refine ⟨_, _, ht, hsearch, ?_⟩
  have hperm := (Tree.build_perm sqrt ht).1
  simp only at hperm
  replace hqs : std_sort (queryLeafs (genLeafs root) q) = scanned ++ rest := hqs
  replace hinv : KnnResult.Inv k res rej
      ((scanned.flatMap (leafIdxs (genLeafs root))).map (queryPair sqrt (pointAt P) q)) := hinv
  -- the scanned and the unvisited indices together are a rearrangement of `0 .. N-1`
  have hall : (scanned.flatMap (leafIdxs (genLeafs root))
      ++ rest.flatMap (leafIdxs (genLeafs root))).Perm (List.range P.length) := by
    rw [← List.flatMap_append, ← hqs]
    refine ((std_sort_perm _).flatMap_right _).trans ?_
    rw [queryLeafs_flatMap]
    exact hperm
  have hnd := hall.nodup_iff.2 (List.nodup_range _)
  -- the final `sort()` rearranges the held pairs
  have hsp : (if sort then res.sort else res).heap.Perm res.heap := by
    cases sort
    · exact List.Perm.refl _
    · exact KnnResult.sort_perm hinv.heap
  have hheap : ∀ x ∈ res.heap, ∃ i ∈ scanned.flatMap (leafIdxs (genLeafs root)),
      x = queryPair sqrt (pointAt P) q i := by
    intro x hx
    have := hinv.perm.subset (List.mem_append_left _ hx)
    obtain ⟨i, hi, rfl⟩ := List.mem_map.1 this
    exact ⟨i, hi, rfl⟩
  refine ⟨?_, ?_, ?_, ?_⟩
  · have hlenall := hall.length_eq
    rw [List.length_append, List.length_range] at hlenall
    have hlen := hinv.len
    rw [List.length_map] at hlen
    have hsize : (if sort then res.sort else res).size = (res.heap.length : Int) := by
      simp only [KnnResult.size, hsp.length_eq]
    rw [hsize]
    by_cases hr : rest = []
    · subst hr
      simp only [List.flatMap_nil, List.length_nil, Nat.add_zero] at hlenall
      omega
    · obtain ⟨hfull, _⟩ := hrest hr
      have := (KnnResult.full_iff (le_trans (by decide) hk) res hinv.cap).1 hfull
      omega
  · intro x hx
    obtain ⟨i, hi, rfl⟩ := hheap x (hsp.mem_iff.1 hx)
    have : i ∈ List.range P.length := hall.subset (List.mem_append_left _ hi)
    exact ⟨List.mem_range.1 this, rfl⟩
  · have h1 : ((res.heap ++ rej).map Knn.idx).Nodup := by
      rw [(hinv.perm.map Knn.idx).nodup_iff, List.map_map]
      have : (Knn.idx ∘ queryPair sqrt (pointAt P) q) = id := rfl
      rw [this, List.map_id]
      exact hnd.of_append_left
    rw [List.map_append] at h1
    exact (hsp.map Knn.idx).nodup_iff.2 h1.of_append_left
  · intro j hj hnot x hx
    have hx' := hsp.mem_iff.1 hx
    have hnot' : j ∉ res.heap.map Knn.idx := by
      intro hc
      apply hnot
      obtain ⟨y, hy, rfl⟩ := List.mem_map.1 hc
      exact List.mem_map.2 ⟨y, hsp.mem_iff.2 hy, rfl⟩
    rcases List.mem_append.1 (hall.mem_iff.2 (List.mem_range.2 hj)) with hjs | hjr
    · -- `j` was offered to the container and is not held
      have hji : queryPair sqrt (pointAt P) q j ∈ res.heap ++ rej :=
        hinv.perm.mem_iff.2 (List.mem_map.2 ⟨j, hjs, rfl⟩)
      rcases List.mem_append.1 hji with hh | hr
      · exact absurd (List.mem_map.2 ⟨_, hh, rfl⟩) hnot'
      · exact hinv.le x hx' _ hr
    · -- `j` is in a leaf that was not visited
      obtain ⟨u, hu, hju⟩ := List.mem_flatMap.1 hjr
      have hrne : rest ≠ [] := List.ne_nil_of_mem hu
      obtain ⟨_, hmax⟩ := hrest hrne
      have huq : u ∈ queryLeafs (genLeafs root) q :=
        (std_sort_perm _).mem_iff.1 (by rw [hqs]; exact List.mem_append_right _ hu)
      obtain ⟨L, hL, hget, hdist⟩ := queryLeafs_mem (genLeafs root) q u huq
      have hjL : j ∈ L.idxs := by
        simp only [leafIdxs, hget] at hju
        exact hju
      have hbound : distanceNode q L ≤ distance sqrt q (pointAt P j) :=
        distanceNode_le_distance hs L q _ fun ct hct =>
          ⟨Tree.build_inside sqrt ht L hL ct hct j hjL,
            Tree.build_normal sqrt hs ht L hL ct hct⟩
      have h1 := le_trans (hinv.le_maxDist scalarMax x hx') (hmax u hu)
      rw [hdist] at h1
      rw [distance_comm sqrt (pointAt P j) q]
      exact le_trans h1 hbound

/-- C2 on the real numbers with the real square root: the eleven points 0, 12, 8, 20, 1,
2, 3, 17, 18, 19, 4 of the line, the query 10, `k = 1` and the largest scalar 100.  The
tree has two leaves with the bound 2 each; after the scan of the first leaf the container
holds (2, 2), the loop condition is false at the second leaf, and the search stops
there. -/
theorem Tree.knnSearch_sound_witness :
    IsSqrt Real.sqrt ∧ (1 : Int) ≤ 1 ∧
    (∃ t, Tree.build Real.sqrt (linePtsIn ℝ) = .ret t ∧ t.leafs.length = 2 ∧
      std_sort (queryLeafs t.leafs (fun _ => 10)) = [⟨0, 2⟩, ⟨1, 2⟩] ∧
      scanLeaf Real.sqrt 100 t.point (fun _ => 10) (leafIdxs t.leafs ⟨0, 2⟩)
        (KnnResult.new 1) = .ret ⟨1, [⟨2, 2⟩]⟩ ∧
      (!(⟨1, [⟨2, 2⟩]⟩ : KnnResult ℝ).full
        || decide ((2 : ℝ) < (⟨1, [⟨2, 2⟩]⟩ : KnnResult ℝ).maxDist 100)) = false ∧
      t.knnSearch Real.sqrt 100 (fun _ => 10) 1 true = .ret ⟨1, [⟨2, 2⟩]⟩) ∧
    ∃ t r, Tree.build Real.sqrt (linePtsIn ℝ) = .ret t ∧
      t.knnSearch Real.sqrt 100 (fun _ => 10) 1 true = .ret r ∧
      r.size = min 1 ((linePtsIn ℝ).length : Int) ∧
      (∀ x ∈ r.heap, x.idx < (linePtsIn ℝ).length ∧
        x.dist = distance Real.sqrt (pointAt (linePtsIn ℝ) x.idx) (fun _ => 10)) ∧
      (r.heap.map Knn.idx).Nodup ∧
      ∀ j, j < (linePtsIn ℝ).length → j ∉ r.heap.map Knn.idx →
        ∀ x ∈ r.heap, x.dist ≤ distance Real.sqrt (pointAt (linePtsIn ℝ) j) (fun _ => 10) :=
  ⟨real_isSqrt, le_refl _, Tree.knnSearch_line real_isSqrt 100,
    Tree.knnSearch_sound Real.sqrt real_isSqrt 100 (linePtsIn ℝ) (fun _ => 10) 1 (le_refl _)
      true⟩

/-- C3 (result size): for every point set `P`, query `q`, `k ≥ 1` and either value of
`sort`, the tree is built, `knnSearch(q, k, sort)` returns, and the result holds exactly
`min(k, |P|)` pairs. -/
theorem Tree.knnSearch_size (sqrt : S → S) (h0 : SqrtNonneg sqrt) (scalarMax : S)
    (P : List (Vec d S)) (q : Vec d S) (k : Int) (hk : 1 ≤ k) (sort : Bool) :
    ∃ t r, Tree.build sqrt P = .ret t ∧ t.knnSearch sqrt scalarMax q k sort = .ret r ∧
      r.size = min k (P.length : Int) := by
  obtain ⟨root, _, ht⟩ := Tree.build_spec sqrt h0 P
  obtain ⟨res, rej, scanned, rest, hsearch, hqs, hinv, hrest⟩ :=
    Tree.knnSearch_spec sqrt scalarMax _ q hk sort
  refine ⟨_, _, ht, hsearch, ?_⟩
  have hperm := (Tree.build_perm sqrt ht).1
  simp only at hperm
  replace hqs : std_sort (queryLeafs (genLeafs root) q) = scanned ++ rest := hqs
  replace hinv : KnnResult.Inv k res rej
      ((scanned.flatMap (leafIdxs (genLeafs root))).map (queryPair sqrt (pointAt P) q)) := hinv
  have hall : (scanned.flatMap (leafIdxs (genLeafs root))
      ++ rest.flatMap (leafIdxs (genLeafs root))).Perm (List.range P.length) := by
    rw [← List.flatMap_append, ← hqs]
    refine ((std_sort_perm _).flatMap_right _).trans ?_
    rw [queryLeafs_flatMap]
    exact hperm
  have hlenall := hall.length_eq
  rw [List.length_append, List.length_range] at hlenall
  have hlen := hinv.len
  rw [List.length_map] at hlen
  have hsize : (if sort then res.sort else res).size = (res.heap.length : Int) := by
    cases sort
    · rfl
    · simp only [KnnResult.size, if_true, (KnnResult.sort_perm hinv.heap).length_eq]
  rw [hsize]
  by_cases hr : rest = []
  · subst hr
    simp only [List.flatMap_nil, List.length_nil, Nat.add_zero] at hlenall
    omega
  · obtain ⟨hfull, _⟩ := hrest hr
    have := (KnnResult.full_iff (le_trans (by decide) hk) res hinv.cap).1 hfull
    omega

/-- C3 on the eleven points of the line, the query 10, `k = 20` and the largest scalar
of `float`. -/
theorem Tree.knnSearch_size_witness :
    SqrtNonneg qsqrt ∧ (1 : Int) ≤ 20 ∧
    ∃ t r, Tree.build qsqrt linePts = .ret t ∧
      t.knnSearch qsqrt fltMax (pt1 10) 20 true = .ret r ∧
      r.size = min 20 (linePts.length : Int) :=
  ⟨qsqrt_nonneg, by decide,
    Tree.knnSearch_size qsqrt qsqrt_nonneg fltMax linePts (pt1 10) 20 (by decide) true⟩

/-- C4 (bound soundness): with an exact square root, the tree built from any point set
`P` exists, and for every leaf `L` of it, every query `q` and every index `i` of `L`,
`distance(q, L)` is at most `distance(q, P[i])`. -/
theorem Tree.bound_sound (sqrt : S → S) (hs : IsSqrt sqrt) (P : List (Vec d S)) :
    ∃ t, Tree.build sqrt P = .ret t ∧
      ∀ L ∈ t.leafs, ∀ (q : Vec d S), ∀ i ∈ L.idxs,
        distanceNode q L ≤ distance sqrt q (pointAt P i) := by
  obtain ⟨root, _, ht⟩ := Tree.build_spec sqrt hs.nonneg P
  refine ⟨_, ht, ?_⟩
  intro L hL q i hi
  refine distanceNode_le_distance hs L q _ ?_
  intro ct hct
  exact ⟨Tree.build_inside sqrt ht L hL ct hct i hi, Tree.build_normal sqrt hs ht L hL ct hct⟩

/-- C4 on the real numbers with the real square root and two points of the plane. -/
theorem Tree.bound_sound_witness :
    IsSqrt Real.sqrt ∧
    ∃ t, Tree.build Real.sqrt [(fun _ => 0 : Vec 2 ℝ), (fun _ => 1 : Vec 2 ℝ)] = .ret t ∧
      ∀ L ∈ t.leafs, ∀ (q : Vec 2 ℝ), ∀ i ∈ L.idxs,
        distanceNode q L ≤
          distance Real.sqrt q (pointAt [(fun _ => 0 : Vec 2 ℝ), (fun _ => 1 : Vec 2 ℝ)] i) :=
  ⟨real_isSqrt, Tree.bound_sound Real.sqrt real_isSqrt _⟩

/-- C5 (leaf partition): the tree built from any point set `P` exists, the index list of
each of its leaves has no duplicate, the index lists of two different leaves are
disjoint, and an index is in some leaf exactly when it is below `|P|`. -/
theorem Tree.leafs_partition (sqrt : S → S) (h0 : SqrtNonneg sqrt) (P : List (Vec d S)) :
    ∃ t, Tree.build sqrt P = .ret t ∧
      (∀ L ∈ t.leafs, L.idxs.Nodup) ∧
      t.leafs.Pairwise (fun A B => List.Disjoint A.idxs B.idxs) ∧
      ∀ i, (∃ L ∈ t.leafs, i ∈ L.idxs) ↔ i < P.length := by
  obtain ⟨root, _, ht⟩ := Tree.build_spec sqrt h0 P
  refine ⟨_, ht, ?_⟩
  have hperm := (Tree.build_perm sqrt ht).1
  have hnd : (List.flatMap _ Node.idxs).Nodup := hperm.nodup_iff.2 (List.nodup_range _)
  rw [List.nodup_flatMap] at hnd
  refine ⟨hnd.1, hnd.2, ?_⟩
  intro i
  rw [← List.mem_range, ← hperm.mem_iff, List.mem_flatMap]

/-- C5 on the eleven points of the line. -/
theorem Tree.leafs_partition_witness :
    SqrtNonneg qsqrt ∧
    ∃ t, Tree.build qsqrt linePts = .ret t ∧
      (∀ L ∈ t.leafs, L.idxs.Nodup) ∧
      t.leafs.Pairwise (fun A B => List.Disjoint A.idxs B.idxs) ∧
      ∀ i, (∃ L ∈ t.leafs, i ∈ L.idxs) ↔ i < linePts.length :=
  ⟨qsqrt_nonneg, Tree.leafs_partition qsqrt qsqrt_nonneg linePts⟩

/-- C6 (verification pass): the tree built from any point set `P` exists, every point
stored in a leaf is inside every refined constraint of that leaf, the leaves' index
counts add up to `|P|`, and `assertLeafs` passes. -/
theorem Tree.assertLeafs_passes (sqrt : S → S) (h0 : SqrtNonneg sqrt) (P : List (Vec d S)) :
    ∃ t, Tree.build sqrt P = .ret t ∧
      (∀ L ∈ t.leafs, ∀ ct ∈ L.constraints, ∀ i ∈ L.idxs, inside (pointAt P i) ct = true) ∧
      (t.leafs.map fun L => L.idxs.length).sum = P.length ∧
      t.assertLeafs = true := by
  obtain ⟨root, _, ht⟩ := Tree.build_spec sqrt h0 P
  refine ⟨_, ht, ?_⟩
  have hin := Tree.build_inside sqrt ht
  have hsum : ((genLeafs root).map fun L => L.idxs.length).sum = P.length := by
    have hperm := (Tree.build_perm sqrt ht).1
    have := hperm.length_eq
    rw [List.length_range] at this
    rw [← this, List.flatMap_def, List.length_flatten, List.map_map]
    rfl
  refine ⟨hin, hsum, ?_⟩
  simp only [Tree.assertLeafs, Bool.and_eq_true, List.all_eq_true, decide_eq_true_eq]
  exact ⟨hin, hsum⟩

/-- C6 on the eleven points of the line. -/
theorem Tree.assertLeafs_passes_witness :
    SqrtNonneg qsqrt ∧
    ∃ t, Tree.build qsqrt linePts = .ret t ∧
      (∀ L ∈ t.leafs, ∀ ct ∈ L.constraints, ∀ i ∈ L.idxs,
        inside (pointAt linePts i) ct = true) ∧
      (t.leafs.map fun L => L.idxs.length).sum = linePts.length ∧
      t.assertLeafs = true :=
  ⟨qsqrt_nonneg, Tree.assertLeafs_passes qsqrt qsqrt_nonneg linePts⟩

/-- C7 (degenerate input): for every `N ≥ 1` and every point `v`, the tree built from `N`
copies of `v` exists, its root is a leaf holding the indices `0, ..., N-1` in order with
no constraint, and that root is the only leaf. -/
theorem Tree.build_replicate (sqrt : S → S) (h0 : SqrtNonneg sqrt) (N : Nat) (hN : 1 ≤ N)
    (v : Vec d S) :
    ∃ t, Tree.build sqrt (List.replicate N v) = .ret t ∧
      t.root = .leaf (List.range N) [] ∧ t.leafs = [t.root] := by
  obtain ⟨root, hroot, ht⟩ := Tree.build_spec sqrt h0 (List.replicate N v)
  refine ⟨_, ht, ?_⟩
  rw [List.length_replicate] at hroot
  have key : root = .leaf (List.range N) [] := by
    by_cases hlen : (List.range N).length ≤ maxLeafPnts N
    · rw [splitTreeFuel_leaf sqrt _ _ _ _ hlen] at hroot
      simp only [refineConstraints, Run.bind, Run.ret.injEq] at hroot
      exact hroot.symm
    · obtain ⟨n, rfl⟩ : ∃ n, N = n + 1 := ⟨N - 1, by omega⟩
      have hr : List.range (n + 1) = 0 :: List.map Nat.succ (List.range n) :=
        List.range_succ_eq_map n
      have hten := maxLeafPnts_ge (n + 1)
      rw [List.length_range] at hlen
      have hn : 1 ≤ n := by omega
      obtain ⟨ip, hipm, hip0, hip, _⟩ := farthest_spec sqrt
        (pointAt (List.replicate (n + 1) v)) h0 0 (List.range (n + 1))
        ⟨1, by simp; omega, by decide⟩
      obtain ⟨iq, hiqm, _, hiq, _⟩ := farthest_spec sqrt
        (pointAt (List.replicate (n + 1) v)) h0 ip (List.range (n + 1))
        ⟨0, by simp, fun e => hip0 e.symm⟩
      have hplane : (splitPlane sqrt (pointAt (List.replicate (n + 1) v)) ip iq).a = 0 := by
        unfold splitPlane
        simp only
        rw [pointAt_replicate v (List.mem_range.1 hipm),
          pointAt_replicate v (List.mem_range.1 hiqm), sub_self]
        unfold normalized
        have : ¬ (0 : S) < squaredNorm (0 : Vec d S) := by simp [squaredNorm, dot]
        rw [if_neg this]
      have hb : (splitPlane sqrt (pointAt (List.replicate (n + 1) v)) ip iq).b = 0 := by
        have : (splitPlane sqrt (pointAt (List.replicate (n + 1) v)) ip iq).b
            = dot (splitPlane sqrt (pointAt (List.replicate (n + 1) v)) ip iq).a
                (fun j => (pointAt (List.replicate (n + 1) v) ip j
                  + pointAt (List.replicate (n + 1) v) iq j) / 2) := rfl
        rw [this, hplane, dot_zero_left]
      have hright : splitRight (pointAt (List.replicate (n + 1) v))
          (splitPlane sqrt (pointAt (List.replicate (n + 1) v)) ip iq)
          (List.range (n + 1)) = [] := by
        unfold splitRight
        rw [hplane, hb]
        simp [dot_zero_left]
      rw [hr] at hroot hip hiq hright
      rw [splitTreeFuel_split sqrt _ _ n [] (by simpa using hlen) hip hiq, hright] at hroot
      simp only [List.isEmpty_nil, Bool.or_true, if_true, refineConstraints, Run.bind,
        Run.ret.injEq] at hroot
      rw [hr]
      exact hroot.symm
  simp only [key, genLeafs]
  exact ⟨trivial, trivial⟩

/-- C7 on twelve copies of the point 7 of the line. -/
theorem Tree.build_replicate_witness :
    SqrtNonneg qsqrt ∧ 1 ≤ 12 ∧
    ∃ t, Tree.build qsqrt (List.replicate 12 (pt1 7)) = .ret t ∧
      t.root = .leaf (List.range 12) [] ∧ t.leafs = [t.root] :=
  ⟨qsqrt_nonneg, by decide, Tree.build_replicate qsqrt qsqrt_nonneg 12 (by decide) (pt1 7)⟩

/-- C8 (construction succeeds): for every point set `P` the constructor returns a tree;
`splitTree` never exhausts a recursion budget equal to the length of its index list,
whatever the list; and whenever both sides of a split are non-empty, both are strictly
shorter than the list that was split. -/
theorem Tree.build_terminates (sqrt : S → S) (h0 : SqrtNonneg sqrt) (P : List (Vec d S)) :
    (∃ t, Tree.build sqrt P = .ret t) ∧
    (∀ (idxs : List Nat) (cts : List (Constraint d S)),
      splitTree sqrt (pointAt P) (maxLeafPnts P.length) idxs cts ≠ .fuelOut) ∧
    (∀ (hp : Hyperplane d S) (idxs : List Nat),
      splitLeft (pointAt P) hp idxs ≠ [] → splitRight (pointAt P) hp idxs ≠ [] →
      (splitLeft (pointAt P) hp idxs).length < idxs.length ∧
        (splitRight (pointAt P) hp idxs).length < idxs.length) := by
  obtain ⟨root, _, ht⟩ := Tree.build_spec sqrt h0 P
  refine ⟨⟨_, ht⟩, ?_, ?_⟩
  · intro idxs cts
    exact splitTreeFuel_ne_fuelOut sqrt _ _ _ _ _ (le_refl _)
  · intro hp idxs hl hr
    exact split_shorter _ hp idxs hl hr

/-- C8 on the eleven points of the line. -/
theorem Tree.build_terminates_witness :
    SqrtNonneg qsqrt ∧
    ((∃ t, Tree.build qsqrt linePts = .ret t) ∧
    (∀ (idxs : List Nat) (cts : List (Constraint 1 ℚ)),
      splitTree qsqrt (pointAt linePts) (maxLeafPnts linePts.length) idxs cts ≠ .fuelOut) ∧
    (∀ (hp : Hyperplane 1 ℚ) (idxs : List Nat),
      splitLeft (pointAt linePts) hp idxs ≠ [] → splitRight (pointAt linePts) hp idxs ≠ [] →
      (splitLeft (pointAt linePts) hp idxs).length < idxs.length ∧
        (splitRight (pointAt linePts) hp idxs).length < idxs.length)) :=
  ⟨qsqrt_nonneg, Tree.build_terminates qsqrt qsqrt_nonneg linePts⟩

/-- C9 as stated fails: for 1075 points the constructor stores the threshold 10, while
0.01 × 1075 rounded to the nearest integer, floored at 10, is 11. -/
theorem Tree.threshold_not_rounded :
    ∃ t, Tree.build qsqrt (List.replicate 1075 (pt1 0)) = .ret t ∧
      t.MAX_LEAF_PNTS = 10 ∧ specThreshold (List.replicate 1075 (pt1 0)).length = 11 := by
  obtain ⟨root, _, ht⟩ := Tree.build_spec qsqrt qsqrt_nonneg (List.replicate 1075 (pt1 0))
  refine ⟨_, ht, ?_, ?_⟩
  · simp only [List.length_replicate]
    decide
  · simp only [List.length_replicate]
    decide

/-- C9, amended: for every point set `P` of `N` points the constructor stores the
threshold `max(10, ⌊N / 100⌋)`, the product 0.01 × N with its fraction dropped; this is
the rounded value of the spec exactly when `N < 1050` or `N mod 100 < 50`. -/
theorem Tree.threshold_truncated (sqrt : S → S) (h0 : SqrtNonneg sqrt) (P : List (Vec d S)) :
    ∃ t, Tree.build sqrt P = .ret t ∧
      t.MAX_LEAF_PNTS = max 10 (P.length / 100) ∧
      (t.MAX_LEAF_PNTS = specThreshold P.length ↔ (P.length < 1050 ∨ P.length % 100 < 50)) := by
  obtain ⟨root, _, ht⟩ := Tree.build_spec sqrt h0 P
  refine ⟨_, ht, ?_, ?_⟩
  · exact max_comm _ _
  · simp only [maxLeafPnts, specThreshold]
    omega

/-- C9 (amended) on the eleven points of the line. -/
theorem Tree.threshold_truncated_witness :
    SqrtNonneg qsqrt ∧
    ∃ t, Tree.build qsqrt linePts = .ret t ∧
      t.MAX_LEAF_PNTS = max 10 (linePts.length / 100) ∧
      (t.MAX_LEAF_PNTS = specThreshold linePts.length ↔
        (linePts.length < 1050 ∨ linePts.length % 100 < 50)) :=
  ⟨qsqrt_nonneg, Tree.threshold_truncated qsqrt qsqrt_nonneg linePts⟩




/-- C10: for every capacity `K ≥ 1` and every sequence `xs` of `insert` calls on a fresh
`KnnResult(K)`, the calls return, the held pairs together with the rejected or evicted
ones are exactly the inserted pairs (so every held pair was inserted), the held distances
are, as a multiset, the `min K n` smallest inserted distances, and no held distance
exceeds the distance of a rejected or evicted pair. -/
theorem KnnResult.insertAll_keeps_smallest (scalarMax : S) (K : Int) (hK : 1 ≤ K)
    (xs : List (Knn S)) :
    ∃ r rej, (KnnResult.new K).insertAll scalarMax xs = .ret r ∧
      (r.heap ++ rej).Perm xs ∧ (∀ h ∈ r.heap, h ∈ xs) ∧
      (r.heap.map Knn.dist).Perm
        (((xs.map Knn.dist).insertionSort (· ≤ ·)).take (min K.toNat xs.length)) ∧
      ∀ h ∈ r.heap, ∀ y ∈ rej, h.dist ≤ y.dist := by
  obtain ⟨r, rej, hr, hinv⟩ :=
    KnnResult.insertAll_inv scalarMax hK xs (KnnResult.Inv.new (le_trans (by decide) hK))
  simp only [List.nil_append] at hinv
  refine ⟨r, rej, hr, hinv.perm, ?_, hinv.smallest, hinv.le⟩
  intro h hh
  exact hinv.perm.subset (List.mem_append_left _ hh)

/-- C10 at capacity 2 and the inserts (0, 5), (1, 3), (2, 5), (3, 1) over the rationals,
with the largest scalar of `float`. -/
theorem KnnResult.insertAll_keeps_smallest_witness :
    (1 : Int) ≤ 2 ∧
    ∃ r rej, (KnnResult.new 2).insertAll fltMax sampleInserts = .ret r ∧
      (r.heap ++ rej).Perm sampleInserts ∧ (∀ h ∈ r.heap, h ∈ sampleInserts) ∧
      (r.heap.map Knn.dist).Perm
        (((sampleInserts.map Knn.dist).insertionSort (· ≤ ·)).take
          (min (2 : Int).toNat sampleInserts.length)) ∧
      ∀ h ∈ r.heap, ∀ y ∈ rej, h.dist ≤ y.dist :=
  ⟨by decide, KnnResult.insertAll_keeps_smallest fltMax 2 (by decide) sampleInserts⟩


/-- C11 (result and effect of `insert`): on a container reached from a fresh
`KnnResult(K)`, `K ≥ 1`, by inserts, `insert(idx, dist)` returns and keeps the capacity;
either fewer than `K` pairs are held, it returns true and the pair is added; or exactly
`K` pairs are held, with `m` the held pair that is greatest under (distance, then index)
and so at the greatest held distance, and then either `dist` is strictly less than that
distance, it returns true and `m` is replaced by the new pair, or `dist` is not strictly
less, it returns false and the container is unchanged. -/
theorem KnnResult.insert_effect (scalarMax : S) (K : Int) (hK : 1 ≤ K) (xs : List (Knn S))
    (r : KnnResult S) (hr : (KnnResult.new K).insertAll scalarMax xs = .ret r) (i : Nat)
    (dd : S) :
    ∃ r' b, r.insert scalarMax i dd = .ret (r', b) ∧ r'.K = r.K ∧
      (((r.heap.length : Int) < K ∧ b = true ∧ r'.heap.Perm (⟨i, dd⟩ :: r.heap)) ∨
       ((r.heap.length : Int) = K ∧ ∃ m ∈ r.heap,
          (∀ y ∈ r.heap, Knn.lt m y = false) ∧ (∀ y ∈ r.heap, y.dist ≤ m.dist) ∧
          ((dd < m.dist ∧ b = true ∧ r'.heap.Perm (⟨i, dd⟩ :: r.heap.erase m)) ∨
           (¬ dd < m.dist ∧ b = false ∧ r' = r)))) := by
  obtain ⟨rej, hinv⟩ := KnnResult.reach_inv scalarMax hK hr
  obtain ⟨K0, heap⟩ := r
  have hcap : K0 = K := hinv.cap
  subst hcap
  have hK0 : 0 ≤ K0 := le_trans (by decide) hK
  have hlen := hinv.len
  simp only at hlen
  by_cases hlt : heap.length < K0.toNat
  · refine ⟨_, true, KnnResult.insert_below scalarMax hK0 heap hlt i dd, rfl,
      Or.inl ⟨?_, rfl, ?_⟩⟩
    · simp only
      omega
    · exact (push_heap_spec hinv.heap ⟨i, dd⟩).2
  · have hge : K0.toNat ≤ heap.length := not_lt.1 hlt
    cases heap with
    | nil =>
      simp only [List.length_nil] at hge
      omega
    | cons m rest =>
      have hgreat : ∀ y ∈ m :: rest, Knn.lt m y = false := is_heap_head hinv.heap
      have hmax : ∀ y ∈ m :: rest, y.dist ≤ m.dist := fun y hy => Knn.ge_dist (hgreat y hy)
      have hlenK : (((m :: rest).length : Nat) : Int) = K0 := by
        simp only [List.length_cons] at hlen hge ⊢
        omega
      by_cases hd : dd < m.dist
      · refine ⟨_, true, KnnResult.insert_evict scalarMax hK0 m rest hge i dd hd, rfl,
          Or.inr ⟨hlenK, m, List.mem_cons_self _ _, hgreat, hmax, Or.inl ⟨hd, rfl, ?_⟩⟩⟩
        obtain ⟨w, hw, hwh, hwp⟩ := pop_heap_spec hinv.heap
        have hdl : (pop_heap (m :: rest)).dropLast = w := by rw [hw]; simp
        rw [List.erase_cons_head]
        simp only [hdl]
        exact (push_heap_spec hwh ⟨i, dd⟩).2.trans (List.Perm.cons _ hwp)
      · exact ⟨_, false, KnnResult.insert_reject scalarMax hK0 m rest hge i dd hd, rfl,
          Or.inr ⟨hlenK, m, List.mem_cons_self _ _, hgreat, hmax, Or.inr ⟨hd, rfl, rfl⟩⟩⟩

/-- C11 at capacity 2 after the inserts (0, 5), (1, 3), (2, 5), (3, 1), for the new
pair (7, 2), with the largest scalar of `float`. -/
theorem KnnResult.insert_effect_witness :
    (1 : Int) ≤ 2 ∧
    (KnnResult.new 2).insertAll fltMax sampleInserts = .ret ⟨2, [⟨1, 3⟩, ⟨3, 1⟩]⟩ ∧
    ∃ r' b, (⟨2, [⟨1, 3⟩, ⟨3, 1⟩]⟩ : KnnResult ℚ).insert fltMax 7 2 = .ret (r', b) ∧
      r'.K = (⟨2, [⟨1, 3⟩, ⟨3, 1⟩]⟩ : KnnResult ℚ).K ∧
      ((((⟨2, [⟨1, 3⟩, ⟨3, 1⟩]⟩ : KnnResult ℚ).heap.length : Int) < 2 ∧ b = true ∧
          r'.heap.Perm (⟨7, 2⟩ :: (⟨2, [⟨1, 3⟩, ⟨3, 1⟩]⟩ : KnnResult ℚ).heap)) ∨
       (((⟨2, [⟨1, 3⟩, ⟨3, 1⟩]⟩ : KnnResult ℚ).heap.length : Int) = 2 ∧
        ∃ m ∈ (⟨2, [⟨1, 3⟩, ⟨3, 1⟩]⟩ : KnnResult ℚ).heap,
          (∀ y ∈ (⟨2, [⟨1, 3⟩, ⟨3, 1⟩]⟩ : KnnResult ℚ).heap, Knn.lt m y = false) ∧
          (∀ y ∈ (⟨2, [⟨1, 3⟩, ⟨3, 1⟩]⟩ : KnnResult ℚ).heap, y.dist ≤ m.dist) ∧
          ((2 < m.dist ∧ b = true ∧
              r'.heap.Perm (⟨7, 2⟩ :: (⟨2, [⟨1, 3⟩, ⟨3, 1⟩]⟩ : KnnResult ℚ).heap.erase m)) ∨
           (¬ 2 < m.dist ∧ b = false ∧ r' = ⟨2, [⟨1, 3⟩, ⟨3, 1⟩]⟩)))) :=
  ⟨by decide, by decide!,
    KnnResult.insert_effect fltMax 2 (by decide) sampleInserts _ (by decide!) 7 2⟩

/-- C12 (size invariant): after any sequence of `insert` calls on a fresh `KnnResult(K)`,
`K ≥ 1`, the calls return one flag each, the container holds exactly
`min(K, number of calls that returned true)` pairs, never more than `K`, and `full()` is
true exactly when `K` pairs are held. -/
theorem KnnResult.size_invariant (scalarMax : S) (K : Int) (hK : 1 ≤ K)
    (xs : List (Knn S)) :
    ∃ r flags, (KnnResult.new K).insertFlags scalarMax xs = .ret (r, flags) ∧
      (KnnResult.new K).insertAll scalarMax xs = .ret r ∧ flags.length = xs.length ∧
      r.size = min K (flags.count true : Int) ∧ r.size ≤ K ∧
      (r.full = true ↔ r.size = K) := by
  have hK0 : 0 ≤ K := le_trans (by decide) hK
  obtain ⟨r, rej, flags, h1, h2, h3, hinv, hlen⟩ :=
    KnnResult.insertFlags_spec scalarMax hK xs (KnnResult.new K) [] [] 0
      (KnnResult.Inv.new hK0)
      (by simp [KnnResult.new, KnnResult.setK])
  refine ⟨r, flags, h1, h2, h3, ?_, ?_, ?_⟩
  · simp only [KnnResult.size]
    omega
  · simp only [KnnResult.size]
    omega
  · rw [KnnResult.full_iff hK0 r hinv.cap]
    simp only [KnnResult.size]
    omega

/-- C12 at capacity 2 and the inserts (0, 5), (1, 3), (2, 5), (3, 1), with the largest
scalar of `float`. -/
theorem KnnResult.size_invariant_witness :
    (1 : Int) ≤ 2 ∧
    ∃ r flags, (KnnResult.new 2).insertFlags fltMax sampleInserts = .ret (r, flags) ∧
      (KnnResult.new 2).insertAll fltMax sampleInserts = .ret r ∧
      flags.length = sampleInserts.length ∧
      r.size = min 2 (flags.count true : Int) ∧ r.size ≤ 2 ∧
      (r.full = true ↔ r.size = 2) :=
  ⟨by decide, KnnResult.size_invariant fltMax 2 (by decide) sampleInserts⟩

/-- C13 as stated fails: with the largest scalar of `float`, a container of capacity 2
that holds the single pair (0, 5) holds fewer than 2 pairs, and `maxDist()` returns 5,
not the sentinel. -/
theorem KnnResult.maxDist_not_sentinel :
    ∃ r, (KnnResult.new 2).insertAll fltMax oneInsert = .ret r ∧ r.size < r.K ∧
      r.maxDist fltMax = 5 ∧ r.maxDist fltMax ≠ fltMax := by
  refine ⟨⟨2, [⟨0, 5⟩]⟩, by decide!, by decide!, rfl, by decide!⟩

/-- C13, amended: on a container reached from a fresh one by inserts, `maxDist()`
returns the sentinel, the largest scalar, when no pair is held, and whenever at least
one pair is held (fewer than `K` or exactly `K`) it returns the distance of a held pair
that no held distance exceeds. -/
theorem KnnResult.maxDist_spec (scalarMax : S) (K : Int) (xs : List (Knn S))
    (r : KnnResult S) (hr : (KnnResult.new K).insertAll scalarMax xs = .ret r) :
    (r.heap = [] → r.maxDist scalarMax = scalarMax) ∧
    (r.heap ≠ [] → ∃ m ∈ r.heap, r.maxDist scalarMax = m.dist ∧
      ∀ y ∈ r.heap, y.dist ≤ m.dist) := by
  have hh := KnnResult.reach_heap scalarMax hr
  obtain ⟨K0, heap⟩ := r
  cases heap with
  | nil => exact ⟨fun _ => rfl, fun h => absurd rfl h⟩
  | cons m rest =>
    refine ⟨fun h => List.noConfusion h, fun _ => ?_⟩
    exact ⟨m, List.mem_cons_self _ _, rfl, fun y hy => Knn.ge_dist (is_heap_head hh y hy)⟩

/-- C13 (amended) at capacity 3 after the inserts (3, 1), (0, 5), (1, 3), with the
largest scalar of `float`. -/
theorem KnnResult.maxDist_spec_witness :
    (KnnResult.new 3).insertAll fltMax otherInserts = .ret ⟨3, [⟨0, 5⟩, ⟨3, 1⟩, ⟨1, 3⟩]⟩ ∧
    ((⟨3, [⟨0, 5⟩, ⟨3, 1⟩, ⟨1, 3⟩]⟩ : KnnResult ℚ).heap = [] →
      (⟨3, [⟨0, 5⟩, ⟨3, 1⟩, ⟨1, 3⟩]⟩ : KnnResult ℚ).maxDist fltMax = fltMax) ∧
    ((⟨3, [⟨0, 5⟩, ⟨3, 1⟩, ⟨1, 3⟩]⟩ : KnnResult ℚ).heap ≠ [] →
      ∃ m ∈ (⟨3, [⟨0, 5⟩, ⟨3, 1⟩, ⟨1, 3⟩]⟩ : KnnResult ℚ).heap,
        (⟨3, [⟨0, 5⟩, ⟨3, 1⟩, ⟨1, 3⟩]⟩ : KnnResult ℚ).maxDist fltMax = m.dist ∧
        ∀ y ∈ (⟨3, [⟨0, 5⟩, ⟨3, 1⟩, ⟨1, 3⟩]⟩ : KnnResult ℚ).heap, y.dist ≤ m.dist) :=
  ⟨by decide!, KnnResult.maxDist_spec fltMax 3 otherInserts _ (by decide!)⟩

/-- C14 (`sort`): on the container reached from a fresh `KnnResult(K)`, `K ≥ 1`, by any
inserts, `sort()` leaves a permutation of the held pairs in which every pair comes before
the pairs at a greater distance and before the pairs at the same distance with an index
that is not smaller. -/
theorem KnnResult.sort_ascending (scalarMax : S) (K : Int) (hK : 1 ≤ K)
    (xs : List (Knn S)) :
    ∃ r, (KnnResult.new K).insertAll scalarMax xs = .ret r ∧ r.sort.heap.Perm r.heap ∧
      r.sort.K = r.K ∧
      r.sort.heap.Pairwise
        (fun a b => a.dist < b.dist ∨ (a.dist = b.dist ∧ a.idx ≤ b.idx)) := by
  obtain ⟨r, rej, hr, hinv⟩ :=
    KnnResult.insertAll_inv scalarMax hK xs (KnnResult.Inv.new (le_trans (by decide) hK))
  refine ⟨r, hr, KnnResult.sort_perm hinv.heap, rfl, ?_⟩
  exact (KnnResult.sort_sorted hinv.heap).imp fun h => (Knn.le_iff _ _).1 h

/-- C14 at capacity 3 and the inserts (3, 1), (0, 5), (1, 3), with the largest scalar of
`float`: the vector is (0, 5), (3, 1), (1, 3) before and (3, 1), (1, 3), (0, 5) after
`sort()`. -/
theorem KnnResult.sort_ascending_witness :
    (1 : Int) ≤ 3 ∧
    (KnnResult.new 3).insertAll fltMax otherInserts = .ret ⟨3, [⟨0, 5⟩, ⟨3, 1⟩, ⟨1, 3⟩]⟩ ∧
    (⟨3, [⟨0, 5⟩, ⟨3, 1⟩, ⟨1, 3⟩]⟩ : KnnResult ℚ).sort = ⟨3, [⟨3, 1⟩, ⟨1, 3⟩, ⟨0, 5⟩]⟩ ∧
    ∃ r, (KnnResult.new 3).insertAll fltMax otherInserts = .ret r ∧
      r.sort.heap.Perm r.heap ∧ r.sort.K = r.K ∧
      r.sort.heap.Pairwise
        (fun a b => a.dist < b.dist ∨ (a.dist = b.dist ∧ a.idx ≤ b.idx)) :=
  ⟨by decide, by decide!, by decide!,
    KnnResult.sort_ascending fltMax 3 (by decide) otherInserts⟩

/-- C15 (equality after sorting): for two containers, each reached from a fresh one by
inserts and then sorted, `operator==` is true exactly when the two held the same pairs
with the same multiplicities, whatever their capacities, their insertion orders and the
arrangement of their vectors before `sort()`; and `sort()` keeps the held pairs. -/
theorem KnnResult.eq_sorted_iff (scalarMax : S) (K1 K2 : Int) (xs1 xs2 : List (Knn S))
    (r1 r2 : KnnResult S)
    (h1 : (KnnResult.new K1).insertAll scalarMax xs1 = .ret r1)
    (h2 : (KnnResult.new K2).insertAll scalarMax xs2 = .ret r2) :
    (KnnResult.eq r1.sort r2.sort = true ↔ r1.heap.Perm r2.heap) ∧
      r1.sort.heap.Perm r1.heap ∧ r2.sort.heap.Perm r2.heap := by
  have hh1 := KnnResult.reach_heap scalarMax h1
  have hh2 := KnnResult.reach_heap scalarMax h2
  have hp1 := KnnResult.sort_perm hh1
  have hp2 := KnnResult.sort_perm hh2
  refine ⟨?_, hp1, hp2⟩
  simp only [KnnResult.eq, decide_eq_true_eq]
  constructor
  · intro h
    exact (hp1.symm.trans (h ▸ List.Perm.refl _)).trans hp2
  · intro h
    exact List.eq_of_perm_of_sorted ((hp1.trans h).trans hp2.symm)
      (KnnResult.sort_sorted hh1) (KnnResult.sort_sorted hh2)

/-- C15 on a container of capacity 3 after the inserts (0, 5), (1, 3), (2, 5), (3, 1),
whose vector is (0, 5), (1, 3), (3, 1), and a container of capacity 7 after the inserts
(3, 1), (0, 5), (1, 3), whose vector is (0, 5), (3, 1), (1, 3), with the largest scalar
of `float`: `operator==` is false before and true after `sort()`. -/
theorem KnnResult.eq_sorted_iff_witness :
    (KnnResult.new 3).insertAll fltMax sampleInserts = .ret ⟨3, [⟨0, 5⟩, ⟨1, 3⟩, ⟨3, 1⟩]⟩ ∧
    (KnnResult.new 7).insertAll fltMax otherInserts = .ret ⟨7, [⟨0, 5⟩, ⟨3, 1⟩, ⟨1, 3⟩]⟩ ∧
    KnnResult.eq (⟨3, [⟨0, 5⟩, ⟨1, 3⟩, ⟨3, 1⟩]⟩ : KnnResult ℚ)
      ⟨7, [⟨0, 5⟩, ⟨3, 1⟩, ⟨1, 3⟩]⟩ = false ∧
    KnnResult.eq (⟨3, [⟨0, 5⟩, ⟨1, 3⟩, ⟨3, 1⟩]⟩ : KnnResult ℚ).sort
      (⟨7, [⟨0, 5⟩, ⟨3, 1⟩, ⟨1, 3⟩]⟩ : KnnResult ℚ).sort = true ∧
    ((KnnResult.eq (⟨3, [⟨0, 5⟩, ⟨1, 3⟩, ⟨3, 1⟩]⟩ : KnnResult ℚ).sort
          (⟨7, [⟨0, 5⟩, ⟨3, 1⟩, ⟨1, 3⟩]⟩ : KnnResult ℚ).sort = true ↔
        (⟨3, [⟨0, 5⟩, ⟨1, 3⟩, ⟨3, 1⟩]⟩ : KnnResult ℚ).heap.Perm
          (⟨7, [⟨0, 5⟩, ⟨3, 1⟩, ⟨1, 3⟩]⟩ : KnnResult ℚ).heap) ∧
      (⟨3, [⟨0, 5⟩, ⟨1, 3⟩, ⟨3, 1⟩]⟩ : KnnResult ℚ).sort.heap.Perm
        (⟨3, [⟨0, 5⟩, ⟨1, 3⟩, ⟨3, 1⟩]⟩ : KnnResult ℚ).heap ∧
      (⟨7, [⟨0, 5⟩, ⟨3, 1⟩, ⟨1, 3⟩]⟩ : KnnResult ℚ).sort.heap.Perm
        (⟨7, [⟨0, 5⟩, ⟨3, 1⟩, ⟨1, 3⟩]⟩ : KnnResult ℚ).heap) :=
  ⟨by decide!, by decide!, by decide!, by decide!,
    KnnResult.eq_sorted_iff fltMax 3 7 sampleInserts otherInserts _ _ (by decide!)
      (by decide!)⟩

/-- C17 (tightest half-space): in the tree built from any point set `P`, every
constraint of every leaf has its offset equal to the product of its direction with a
point of the leaf, every point of the leaf has a product that is at most the offset for
the side `<=` and at least the offset for the side `>=` (so the offset is the greatest,
respectively the least, product over the leaf, attained on the hyperplane), and
`refineConstraints` keeps the direction and the side of every constraint. -/
theorem Tree.refine_tightest (sqrt : S → S) (h0 : SqrtNonneg sqrt) (P : List (Vec d S)) :
    ∃ t, Tree.build sqrt P = .ret t ∧
      (∀ L ∈ t.leafs, ∀ ct ∈ L.constraints,
        (∃ idx ∈ L.idxs, ct.hp.b = dot ct.hp.a (pointAt P idx)) ∧
        ∀ i ∈ L.idxs, if ct.less_equal = true then dot ct.hp.a (pointAt P i) ≤ ct.hp.b
          else ct.hp.b ≤ dot ct.hp.a (pointAt P i)) ∧
      ∀ (idxs : List Nat) (cts cs : List (Constraint d S)),
        refineConstraints (pointAt P) idxs cts = .ret cs →
        List.Forall₂ (fun ct c => c.hp.a = ct.hp.a ∧ c.less_equal = ct.less_equal) cts cs := by
  obtain ⟨root, _, ht⟩ := Tree.build_spec sqrt h0 P
  exact ⟨_, ht, Tree.build_tight sqrt ht, fun _ _ _ h => refineConstraints_keeps _ h⟩

/-- C17 on the eleven points of the line. -/
theorem Tree.refine_tightest_witness :
    SqrtNonneg qsqrt ∧
    ∃ t, Tree.build qsqrt linePts = .ret t ∧
      (∀ L ∈ t.leafs, ∀ ct ∈ L.constraints,
        (∃ idx ∈ L.idxs, ct.hp.b = dot ct.hp.a (pointAt linePts idx)) ∧
        ∀ i ∈ L.idxs, if ct.less_equal = true then dot ct.hp.a (pointAt linePts i) ≤ ct.hp.b
          else ct.hp.b ≤ dot ct.hp.a (pointAt linePts i)) ∧
      ∀ (idxs : List Nat) (cts cs : List (Constraint 1 ℚ)),
        refineConstraints (pointAt linePts) idxs cts = .ret cs →
        List.Forall₂ (fun ct c => c.hp.a = ct.hp.a ∧ c.less_equal = ct.less_equal) cts cs :=
  ⟨qsqrt_nonneg, Tree.refine_tightest qsqrt qsqrt_nonneg linePts⟩

/-- C18 (the forced-leaf fallback fires only for coincident points): with an exact
square root, in the tree built from any point set `P` every leaf holds at most
`MAX_LEAF_PNTS` indices or only indices of equal points; and whenever the points of two
picks `ip` and `iq` differ, the first is strictly on the `>` side and the second on the
`<=` side of their hyperplane, so both sides are non-empty for every index list that
holds the two picks. -/
theorem Tree.forced_leaf_coincident (sqrt : S → S) (hs : IsSqrt sqrt) (P : List (Vec d S)) :
    ∃ t, Tree.build sqrt P = .ret t ∧
      (∀ L ∈ t.leafs, L.idxs.length ≤ t.MAX_LEAF_PNTS ∨
        ∀ i ∈ L.idxs, ∀ j ∈ L.idxs, pointAt P i = pointAt P j) ∧
      ∀ ip iq, pointAt P ip ≠ pointAt P iq →
        (splitPlane sqrt (pointAt P) ip iq).b
            < dot (splitPlane sqrt (pointAt P) ip iq).a (pointAt P ip) ∧
        dot (splitPlane sqrt (pointAt P) ip iq).a (pointAt P iq)
            ≤ (splitPlane sqrt (pointAt P) ip iq).b ∧
        ∀ idxs : List Nat, ip ∈ idxs → iq ∈ idxs →
          splitLeft (pointAt P) (splitPlane sqrt (pointAt P) ip iq) idxs ≠ [] ∧
          splitRight (pointAt P) (splitPlane sqrt (pointAt P) ip iq) idxs ≠ [] := by
  obtain ⟨root, hroot, ht⟩ := Tree.build_spec sqrt hs.nonneg P
  refine ⟨_, ht, ?_, ?_⟩
  · exact splitTreeFuel_leaf_size sqrt (pointAt P) _ hs _ _ _ _ hroot
  · intro ip iq hne
    obtain ⟨h1, h2⟩ := splitPlane_sides hs (pointAt P) hne
    exact ⟨h1, le_of_lt h2, fun idxs hip hiq =>
      split_nonempty_of_ne sqrt (pointAt P) hs hne idxs hip hiq⟩

/-- C18 on the real numbers with the real square root and two points of the plane. -/
theorem Tree.forced_leaf_coincident_witness :
    IsSqrt Real.sqrt ∧
    ∃ t, Tree.build Real.sqrt [(fun _ => 0 : Vec 2 ℝ), (fun _ => 1 : Vec 2 ℝ)] = .ret t ∧
      (∀ L ∈ t.leafs, L.idxs.length ≤ t.MAX_LEAF_PNTS ∨
        ∀ i ∈ L.idxs, ∀ j ∈ L.idxs,
          pointAt [(fun _ => 0 : Vec 2 ℝ), (fun _ => 1 : Vec 2 ℝ)] i
            = pointAt [(fun _ => 0 : Vec 2 ℝ), (fun _ => 1 : Vec 2 ℝ)] j) ∧
      ∀ ip iq, pointAt [(fun _ => 0 : Vec 2 ℝ), (fun _ => 1 : Vec 2 ℝ)] ip
          ≠ pointAt [(fun _ => 0 : Vec 2 ℝ), (fun _ => 1 : Vec 2 ℝ)] iq →
        (splitPlane Real.sqrt
            (pointAt [(fun _ => 0 : Vec 2 ℝ), (fun _ => 1 : Vec 2 ℝ)]) ip iq).b
          < dot (splitPlane Real.sqrt
              (pointAt [(fun _ => 0 : Vec 2 ℝ), (fun _ => 1 : Vec 2 ℝ)]) ip iq).a
            (pointAt [(fun _ => 0 : Vec 2 ℝ), (fun _ => 1 : Vec 2 ℝ)] ip) ∧
        dot (splitPlane Real.sqrt
              (pointAt [(fun _ => 0 : Vec 2 ℝ), (fun _ => 1 : Vec 2 ℝ)]) ip iq).a
            (pointAt [(fun _ => 0 : Vec 2 ℝ), (fun _ => 1 : Vec 2 ℝ)] iq)
          ≤ (splitPlane Real.sqrt
              (pointAt [(fun _ => 0 : Vec 2 ℝ), (fun _ => 1 : Vec 2 ℝ)]) ip iq).b ∧
        ∀ idxs : List Nat, ip ∈ idxs → iq ∈ idxs →
          splitLeft (pointAt [(fun _ => 0 : Vec 2 ℝ), (fun _ => 1 : Vec 2 ℝ)])
            (splitPlane Real.sqrt
              (pointAt [(fun _ => 0 : Vec 2 ℝ), (fun _ => 1 : Vec 2 ℝ)]) ip iq) idxs ≠ [] ∧
          splitRight (pointAt [(fun _ => 0 : Vec 2 ℝ), (fun _ => 1 : Vec 2 ℝ)])
            (splitPlane Real.sqrt
              (pointAt [(fun _ => 0 : Vec 2 ℝ), (fun _ => 1 : Vec 2 ℝ)]) ip iq) idxs ≠ [] :=
  ⟨real_isSqrt, Tree.forced_leaf_coincident Real.sqrt real_isSqrt _⟩

/-- C19 (the widening pass is a no-op during construction): while the tree of any point
set `P` is built, the calls of `refineConstraints` are one per leaf of the tree, each on
the index list of its leaf and returning the constraints of that leaf; at every such call
every point of the node is inside every constraint the node inherited, and the first loop
leaves every constraint as it was. -/
theorem Tree.widen_is_noop (sqrt : S → S) (h0 : SqrtNonneg sqrt) (P : List (Vec d S)) :
    ∃ t, Tree.build sqrt P = .ret t ∧
      List.Forall₂
        (fun c L => L.idxs = c.1 ∧ refineConstraints (pointAt P) c.1 c.2 = .ret L.constraints)
        (refineCalls sqrt (pointAt P) (maxLeafPnts P.length) P.length
          (List.range P.length) []) t.leafs ∧
      ∀ c ∈ refineCalls sqrt (pointAt P) (maxLeafPnts P.length) P.length
          (List.range P.length) [],
        ∀ ct ∈ c.2, (∀ i ∈ c.1, inside (pointAt P i) ct = true) ∧
          widen (pointAt P) c.1 ct = ct := by
  obtain ⟨root, hroot, ht⟩ := Tree.build_spec sqrt h0 P
  refine ⟨_, ht, refineCalls_leafs sqrt (pointAt P) _ _ _ _ _ hroot, ?_⟩
  intro c hc ct hct
  have hin := refineCalls_inside sqrt (pointAt P) (maxLeafPnts P.length) P.length
    (List.range P.length) [] (fun _ h => absurd h (List.not_mem_nil _)) c hc ct hct
  exact ⟨hin, widen_noop (pointAt P) c.1 ct hin⟩

/-- C19 on the eleven points of the line. -/
theorem Tree.widen_is_noop_witness :
    SqrtNonneg qsqrt ∧
    ∃ t, Tree.build qsqrt linePts = .ret t ∧
      List.Forall₂
        (fun c L => L.idxs = c.1 ∧
          refineConstraints (pointAt linePts) c.1 c.2 = .ret L.constraints)
        (refineCalls qsqrt (pointAt linePts) (maxLeafPnts linePts.length) linePts.length
          (List.range linePts.length) []) t.leafs ∧
      ∀ c ∈ refineCalls qsqrt (pointAt linePts) (maxLeafPnts linePts.length) linePts.length
          (List.range linePts.length) [],
        ∀ ct ∈ c.2, (∀ i ∈ c.1, inside (pointAt linePts i) ct = true) ∧
          widen (pointAt linePts) c.1 ct = ct :=
  ⟨qsqrt_nonneg, Tree.widen_is_noop qsqrt qsqrt_nonneg linePts⟩

/-- C16 (concrete tie scenario): with an exact square root and whatever the largest
scalar, for the points (0,0), (10,0), (0,10), (10,10), (5,5), the query (5,5) and `k = 3`,
the tree is built, the sorted search returns exactly (4, 0), (0, sqrt 50), (1, sqrt 50),
the brute-force reference returns the same, and `operator==` on the two results is
true. -/
theorem Tree.knnSearch_five_points (sqrt : S → S) (hs : IsSqrt sqrt) (scalarMax : S) :
    ∃ t, Tree.build sqrt (fivePts S) = .ret t ∧
      t.knnSearch sqrt scalarMax (pt2 5 5) 3 true =
        .ret ⟨3, [⟨4, 0⟩, ⟨0, sqrt 50⟩, ⟨1, sqrt 50⟩]⟩ ∧
      knnSearchBruteforce sqrt scalarMax (fivePts S) (pt2 5 5) 3 =
        .ret ⟨3, [⟨4, 0⟩, ⟨0, sqrt 50⟩, ⟨1, sqrt 50⟩]⟩ ∧
      KnnResult.eq (⟨3, [⟨4, 0⟩, ⟨0, sqrt 50⟩, ⟨1, sqrt 50⟩]⟩ : KnnResult S)
        ⟨3, [⟨4, 0⟩, ⟨0, sqrt 50⟩, ⟨1, sqrt 50⟩]⟩ = true :=
  ⟨_, Tree.build_five sqrt hs.nonneg, Tree.knnSearch_five sqrt hs scalarMax,
    knnSearchBruteforce_five sqrt hs scalarMax, by simp [KnnResult.eq]⟩

/-- C16 on the real numbers with the real square root and the largest scalar 100. -/
theorem Tree.knnSearch_five_points_witness :
    IsSqrt Real.sqrt ∧
    ∃ t, Tree.build Real.sqrt (fivePts ℝ) = .ret t ∧
      t.knnSearch Real.sqrt 100 (pt2 5 5) 3 true =
        .ret ⟨3, [⟨4, 0⟩, ⟨0, Real.sqrt 50⟩, ⟨1, Real.sqrt 50⟩]⟩ ∧
      knnSearchBruteforce Real.sqrt 100 (fivePts ℝ) (pt2 5 5) 3 =
        .ret ⟨3, [⟨4, 0⟩, ⟨0, Real.sqrt 50⟩, ⟨1, Real.sqrt 50⟩]⟩ ∧
      KnnResult.eq (⟨3, [⟨4, 0⟩, ⟨0, Real.sqrt 50⟩, ⟨1, Real.sqrt 50⟩]⟩ : KnnResult ℝ)
        ⟨3, [⟨4, 0⟩, ⟨0, Real.sqrt 50⟩, ⟨1, Real.sqrt 50⟩]⟩ = true :=
  ⟨real_isSqrt, Tree.knnSearch_five_points Real.sqrt real_isSqrt 100⟩

end Claims

end sch
